import Mathlib

/-!
# Inkwell: provider dispatch, key and host rotation, topic derivation

A shallow embedding of `inkwell.go`.

* Go strings are byte sequences, so `GoString` is `List UInt8`; `len(s)` is the
  list length and `s[:n]` is `List.take n`.  Source literals are written
  `lit "..."` (their UTF-8 bytes).
* Go `int` fields are `Int`; indexing a slice out of range panics, which the
  embedding renders as the outcome `none`.
* The network, URL handling and JSON decoding belong to the Go standard
  library and to the remote servers; they are the fields of `Env`.  Every
  call of `p.Client.Do` is appended to a log of requests, and the answer to
  the `i`-th call ever made is `env.net i req`.
-/

namespace Inkwell

/-! ## Strings -/

/-- A Go string: an immutable sequence of bytes. -/
abbrev GoString := List UInt8

/-- The bytes of a source literal. -/
def lit (s : String) : GoString := s.toUTF8.data.toList

/-- Go `strings.Join(elems, sep)`. -/
def Join : List GoString → GoString → GoString
  | [], _ => []
  | [a], _ => a
  | a :: b :: rest, sep => a ++ sep ++ Join (b :: rest) sep

/-- Go `strings.Contains(s, substr)`: some suffix of `s` starts with `substr`. -/
def Contains (s substr : GoString) : Bool :=
  s.tails.any (fun t => substr.isPrefixOf t)

/-- The verb `%d` of `fmt.Sprintf` on an `int`: decimal digits, with a leading
minus sign for a negative number. -/
def fmtInt (n : Int) : GoString := lit (toString n)

/-- Indexing a Go slice with an `int`: `none` is the run-time panic
"index out of range". -/
def goIndex {α : Type} (xs : List α) (i : Int) : Option α :=
  if i < 0 then none else xs[i.toNat]?

/-! ## Data model -/

/-- `type ChatItem struct`. -/
structure ChatItem where
  Role : GoString
  Content : GoString
deriving DecidableEq, Repr

/-- `type AiResponse struct`. -/
structure AiResponse where
  Success : Bool
  Content : GoString
  Error : GoString
  Host : GoString
deriving DecidableEq, Repr

/-- `type SimpleAiProvider struct` (the `Client` field is the network, see `Env`). -/
structure SimpleAiProvider where
  Name : GoString
  ApiKeys : List GoString
  ApiKeyIdx : Int
  Model : GoString
  Rpm : Int
  ContextSize : Int
  Hosts : List GoString
  HostIdx : Int
  SingleTurn : Bool
deriving DecidableEq, Repr

/-- The value handed to `json.Marshal` as the request body.  `json.Marshal`
cannot fail on these shapes (maps of strings, string slices and integers), so
the body of a request is kept as the value itself. -/
inductive Payload where
  /-- The map with keys `model` and `messages` of `openaiChat`. -/
  | openai (model : GoString) (messages : List ChatItem)
  /-- The map with key `contents` of `googleChat`: one `(role, parts[0].text)` per entry. -/
  | google (contents : List (GoString × GoString))
  /-- The map with keys `prompt`, `model`, `max_tokens_to_sample` of `anthropicChat`. -/
  | anthropic (prompt : GoString) (model : GoString) (maxTokens : Int)
deriving DecidableEq, Repr

/-- An HTTP request as built by `http.NewRequest` and `req.Header.Set`. -/
structure Request where
  method : GoString
  url : GoString
  headers : List (GoString × GoString)
  body : Payload
deriving DecidableEq, Repr

/-- What `p.Client.Do(req)` yields: a transport error with its text
(`err.Error()`), or a response with its status code and the body read by
`io.ReadAll`. -/
inductive NetResult where
  | err (text : GoString)
  | resp (status : Int) (body : GoString)
deriving DecidableEq, Repr

/-- The collaborators outside the program. -/
structure Env where
  /-- Answer of the network to the `i`-th request ever issued. -/
  net : Nat → Request → NetResult
  /-- `url.JoinPath(host, path)`: the joined URL, or the text of the error. -/
  joinPath : GoString → GoString → Except GoString GoString
  /-- `http.NewRequest("POST", url, body)`: `some e` is the text of its error. -/
  newRequestErr : GoString → Option GoString
  /-- `json.Unmarshal` into the result struct of `openaiChat`:
  `Choices[i].Message.Content` for each decoded choice. -/
  choices : GoString → List GoString
  /-- `json.Unmarshal` into the result struct of `googleChat`:
  `Candidates[i].Content.Parts[j].Text`. -/
  candidates : GoString → List (List GoString)
  /-- `json.Unmarshal` into the result struct of `anthropicChat`: `Completion`. -/
  completion : GoString → GoString
  /-- The capacity the Go runtime gives the new array when `append` has to
  grow a slice of the given capacity to hold the given number of elements
  (the language leaves it open; it is never taken below that number). -/
  growCap : Nat → Nat → Nat

/-- The requests issued so far, oldest first. -/
abbrev Log := List Request

/-- `AIList[name].Host`; a name that is not a key gives the zero value `""`. -/
def AIListHost (name : GoString) : GoString :=
  if name = lit "openai" then lit "https://api.openai.com"
  else if name = lit "google" then lit "https://generativelanguage.googleapis.com"
  else if name = lit "anthropic" then lit "https://api.anthropic.com"
  else if name = lit "xai" then lit "https://api.x.ai"
  else if name = lit "mistral" then lit "https://api.mistral.ai"
  else if name = lit "groq" then lit "https://api.groq.com"
  else if name = lit "perplexity" then lit "https://api.perplexity.ai"
  else if name = lit "alibaba" then lit "https://dashscope.aliyuncs.com"
  else []

/-! ## Key and host rotation -/

/-- `func (p *SimpleAiProvider) NextApiKey() string`. -/
def NextApiKey (p : SimpleAiProvider) : Option (GoString × SimpleAiProvider) :=
  if p.ApiKeys.length = 0 then some ([], p)
  else
    match goIndex p.ApiKeys p.ApiKeyIdx with
    | none => none
    | some key =>
      some (key, { p with ApiKeyIdx := Int.tmod (p.ApiKeyIdx + 1) (p.ApiKeys.length : Int) })

/-- `func (p *SimpleAiProvider) NextHost() string`. -/
def NextHost (p : SimpleAiProvider) : Option (GoString × SimpleAiProvider) :=
  if p.Hosts.length = 0 then some ([], p)
  else
    match goIndex p.Hosts p.HostIdx with
    | none => none
    | some host =>
      some (host, { p with HostIdx := Int.tmod (p.HostIdx + 1) (p.Hosts.length : Int) })

/-- A number of sequential calls of `NextHost`: the hosts returned, in call
order, and the provider afterwards. -/
def callsNextHost : Nat → SimpleAiProvider → Option (List GoString × SimpleAiProvider)
  | 0, p => some ([], p)
  | k + 1, p =>
    match NextHost p with
    | none => none
    | some (h, p1) =>
      match callsNextHost k p1 with
      | none => none
      | some (hs, p2) => some (h :: hs, p2)

/-- A number of sequential calls of `NextApiKey`. -/
def callsNextApiKey : Nat → SimpleAiProvider → Option (List GoString × SimpleAiProvider)
  | 0, p => some ([], p)
  | k + 1, p =>
    match NextApiKey p with
    | none => none
    | some (h, p1) =>
      match callsNextApiKey k p1 with
      | none => none
      | some (hs, p2) => some (h :: hs, p2)

/-! ## The chat back ends -/

/-- The outcome of a call: `none` is a run-time panic, `some r` the value
returned; then the provider and the request log afterwards. -/
abbrev ChatResult := Option AiResponse × SimpleAiProvider × Log

/-- `const maxRetries = 2` of `openaiChat`. -/
def maxRetries : Nat := 2

/-- How the retry loop of `openaiChat` ends. -/
inductive LoopEnd where
  /-- A `return` inside the loop. -/
  | ret (r : AiResponse)
  /-- The `break`: a response was received. -/
  | got (status : Int) (body : GoString)
  /-- The loop condition became false, `resp` is still nil. -/
  | exhausted
deriving DecidableEq, Repr

/-- The loop `for attempt := 0; attempt < maxRetries; attempt++` of
`openaiChat`, entered with `remaining = maxRetries - attempt` iterations left.
`time.Sleep` has no effect on the state. -/
def openaiLoop (env : Env) (req : Request) (host : GoString) :
    Nat → Nat → Log → LoopEnd × Log
  | 0, _, log => (LoopEnd.exhausted, log)
  | remaining + 1, attempt, log =>
    match env.net log.length req with
    | NetResult.err e =>
      if Contains e (lit "EOF") || Contains e (lit "connection reset") then
        if attempt = maxRetries - 1 then
          (LoopEnd.ret { Success := false, Content := [], Error := e, Host := host }, log ++ [req])
        else openaiLoop env req host remaining (attempt + 1) (log ++ [req])
      else
        (LoopEnd.ret { Success := false, Content := [], Error := e, Host := host }, log ++ [req])
    | NetResult.resp status body => (LoopEnd.got status body, log ++ [req])

/-- `roleMap[item.Role]` in `openaiChat`; a missing key gives `""`. -/
def roleMap (role : GoString) : GoString :=
  if role = lit "system" then lit "background"
  else if role = lit "assistant" then lit "Your response"
  else []

/-- The label of one earlier message in the single-turn text. -/
def roleText (role : GoString) : GoString :=
  if roleMap role = [] then lit "I asked" else roleMap role

/-- The slice `msgArr` built by `openaiChat` in single-turn mode. -/
def singleTurnParts (messages : List ChatItem) : List GoString :=
  [lit "Previous conversations:\n"]
    ++ (messages.take (messages.length - 1)).map
        (fun item => roleText item.Role ++ lit ":\n" ++ item.Content ++ lit "\n")
    ++ [lit "\nPlease continue this conversation based on the previous information:\n",
        lit "I ask:",
        (match messages.getLast? with
         | some m => m.Content
         | none => []),
        lit "You Response:\n"]

/-- The messages put in the payload by `openaiChat`. -/
def openaiMessages (p : SimpleAiProvider) (messages : List ChatItem) : List ChatItem :=
  if p.SingleTurn && decide (messages.length > 1) then
    [{ Role := lit "user", Content := Join (singleTurnParts messages) (lit "\n") }]
  else messages

/-- The request sent by `openaiChat`: `http.NewRequest("POST", url, body)`
followed by the two `req.Header.Set`. -/
def openaiRequest (p : SimpleAiProvider) (url apiKey : GoString)
    (messages : List ChatItem) : Request :=
  { method := lit "POST", url := url,
    headers := [(lit "Authorization", lit "Bearer " ++ apiKey),
                (lit "Content-Type", lit "application/json")],
    body := Payload.openai p.Model (openaiMessages p messages) }

/-- The part of `openaiChat` after the retry loop, given the status code and
the body of the response. -/
def openaiResult (env : Env) (host : GoString) (status : Int) (body : GoString) : AiResponse :=
  if status < 200 ∨ status ≥ 300 then
    { Success := false, Content := [],
      Error := lit "HTTP " ++ fmtInt status ++ lit ": " ++ body, Host := host }
  else
    match env.choices body with
    | c :: _ => { Success := true, Content := c, Error := [], Host := host }
    | [] => { Success := false, Content := [], Error := lit "no response", Host := host }

/-- `func (p *SimpleAiProvider) openaiChat(messages []ChatItem, path string) AiResponse`.
If the loop ended with `resp` still nil, `resp.Body` would panic. -/
def openaiChat (env : Env) (p : SimpleAiProvider) (messages : List ChatItem)
    (path : GoString) (log : Log) : ChatResult :=
  match NextHost p with
  | none => (none, p, log)
  | some (host0, p1) =>
    let host := if host0 = [] then AIListHost (lit "openai") else host0
    match NextApiKey p1 with
    | none => (none, p1, log)
    | some (apiKey, p2) =>
      match env.joinPath host path with
      | Except.error e =>
        (some { Success := false, Content := [], Error := lit "Invalid URL: " ++ e, Host := [] },
          p2, log)
      | Except.ok url =>
        let host := if p2.Hosts.length = 1 then [] else host
        match env.newRequestErr url with
        | some e =>
          (some { Success := false, Content := [],
                  Error := lit "Failed to create request: " ++ e, Host := [] }, p2, log)
        | none =>
          match openaiLoop env (openaiRequest p2 url apiKey messages) host maxRetries 0 log with
          | (LoopEnd.exhausted, log1) => (none, p2, log1)
          | (LoopEnd.ret r, log1) => (some r, p2, log1)
          | (LoopEnd.got status body, log1) => (some (openaiResult env host status body), p2, log1)

/-- One entry of `contents` in `googleChat`: the role and the text of its only part. -/
def googleContent (item : ChatItem) : GoString × GoString :=
  if item.Role = lit "system" then
    (lit "user", lit "System Instructions:\n" ++ item.Content)
  else if item.Role = lit "assistant" then (lit "model", item.Content)
  else (item.Role, item.Content)

/-- The slice `contents` built by `googleChat`. -/
def googleContents (messages : List ChatItem) : List (GoString × GoString) :=
  messages.map googleContent

/-- The request sent by `googleChat`. -/
def googleRequest (url : GoString) (messages : List ChatItem) : Request :=
  { method := lit "POST", url := url,
    headers := [(lit "Content-Type", lit "application/json")],
    body := Payload.google (googleContents messages) }

/-- The part of `googleChat` after `p.Client.Do(req)`. -/
def googleResult (env : Env) (host : GoString) : NetResult → AiResponse
  | NetResult.err e => { Success := false, Content := [], Error := e, Host := host }
  | NetResult.resp status body =>
    if status < 200 ∨ status ≥ 300 then
      { Success := false, Content := [],
        Error := lit "HTTP " ++ fmtInt status ++ lit ": " ++ body, Host := host }
    else
      match env.candidates body with
      | (t :: _) :: _ => { Success := true, Content := t, Error := [], Host := host }
      | _ => { Success := false, Content := [], Error := lit "no response", Host := host }

/-- `func (p *SimpleAiProvider) googleChat(messages []ChatItem) AiResponse`.
The error of `http.NewRequest` is discarded by the source, so a failing
`NewRequest` leaves `req` nil and `req.Header.Set` panics. -/
def googleChat (env : Env) (p : SimpleAiProvider) (messages : List ChatItem)
    (log : Log) : ChatResult :=
  match NextHost p with
  | none => (none, p, log)
  | some (host0, p1) =>
    let host := if host0 = [] then AIListHost (lit "google") else host0
    match NextApiKey p1 with
    | none => (none, p1, log)
    | some (apiKey, p2) =>
      let url := host ++ lit "/v1beta/models/" ++ p2.Model ++ lit ":generateContent?key=" ++ apiKey
      let host := if p2.Hosts.length = 1 then [] else host
      match env.newRequestErr url with
      | some _ => (none, p2, log)
      | none =>
        (some (googleResult env host (env.net log.length (googleRequest url messages))),
          p2, log ++ [googleRequest url messages])

/-- One element of `promptParts` in `anthropicChat`. -/
def anthropicPart (item : ChatItem) : GoString :=
  lit "\n\n" ++ (if item.Role = lit "assistant" then lit "Assistant" else lit "Human")
    ++ lit ": " ++ item.Content

/-- The `prompt` built by `anthropicChat`. -/
def anthropicPrompt (messages : List ChatItem) : GoString :=
  Join (messages.map anthropicPart) [] ++ lit "\n\nAssistant:"

/-- The request sent by `anthropicChat`. -/
def anthropicRequest (p : SimpleAiProvider) (url apiKey : GoString)
    (messages : List ChatItem) : Request :=
  { method := lit "POST", url := url,
    headers := [(lit "Accept", lit "application/json"),
                (lit "Anthropic-Version", lit "2023-06-01"),
                (lit "Content-Type", lit "application/json"),
                (lit "x-api-key", apiKey)],
    body := Payload.anthropic (anthropicPrompt messages) p.Model 256 }

/-- The part of `anthropicChat` after `p.Client.Do(req)`. -/
def anthropicResult (env : Env) (host : GoString) : NetResult → AiResponse
  | NetResult.err e => { Success := false, Content := [], Error := e, Host := host }
  | NetResult.resp status body =>
    if status < 200 ∨ status ≥ 300 then
      { Success := false, Content := [],
        Error := lit "HTTP " ++ fmtInt status ++ lit ": " ++ body, Host := host }
    else if env.completion body ≠ [] then
      { Success := true, Content := env.completion body, Error := [], Host := host }
    else
      { Success := false, Content := [], Error := lit "no response", Host := host }

/-- `func (p *SimpleAiProvider) anthropicChat(messages []ChatItem) AiResponse`.
As in `googleChat`, a failing `http.NewRequest` leads to a nil dereference. -/
def anthropicChat (env : Env) (p : SimpleAiProvider) (messages : List ChatItem)
    (log : Log) : ChatResult :=
  match NextHost p with
  | none => (none, p, log)
  | some (host0, p1) =>
    let host := if host0 = [] then AIListHost (lit "anthropic") else host0
    match NextApiKey p1 with
    | none => (none, p1, log)
    | some (apiKey, p2) =>
      let url := host ++ lit "/v1/complete"
      let host := if p2.Hosts.length = 1 then [] else host
      match env.newRequestErr url with
      | some _ => (none, p2, log)
      | none =>
        (some (anthropicResult env host
            (env.net log.length (anthropicRequest p2 url apiKey messages))),
          p2, log ++ [anthropicRequest p2 url apiKey messages])

/-- `func (p *SimpleAiProvider) Chat(messages []ChatItem) AiResponse`. -/
def Chat (env : Env) (p : SimpleAiProvider) (messages : List ChatItem) (log : Log) :
    ChatResult :=
  if messages.length = 0 then
    (some { Success := false, Content := [], Error := lit "Empty messages", Host := [] }, p, log)
  else if p.Name = lit "openai" then openaiChat env p messages (lit "v1/chat/completions") log
  else if p.Name = lit "google" then googleChat env p messages log
  else if p.Name = lit "xai" then openaiChat env p messages (lit "v1/chat/completions") log
  else if p.Name = lit "mistral" then openaiChat env p messages (lit "v1/chat/completions") log
  else if p.Name = lit "groq" then openaiChat env p messages (lit "openai/v1/chat/completions") log
  else if p.Name = lit "perplexity" then openaiChat env p messages (lit "chat/completions") log
  else if p.Name = lit "alibaba" then
    openaiChat env p messages (lit "compatible-mode/v1/chat/completions") log
  else if p.Name = lit "anthropic" then anthropicChat env p messages log
  else
    (some { Success := false, Content := [],
            Error := lit "unsupported provider: " ++ p.Name, Host := [] }, p, log)

/-! ## Runes and white space (Go packages `unicode/utf8`, `unicode`, `strings`) -/

/-- `utf8.RuneError`, the rune U+FFFD that stands for an invalid byte. -/
def RuneError : Nat := 0xFFFD

/-- The byte `b` lies in the closed range `lo..hi`. -/
def inRange (b : UInt8) (lo hi : Nat) : Bool :=
  decide (lo ≤ b.toNat) && decide (b.toNat ≤ hi)

/-- The table `acceptRanges` of package `utf8`, lower bound: the least second
byte accepted after the leading byte `x`. -/
def secondLo (x : Nat) : Nat :=
  if x = 0xE0 then 0xA0 else if x = 0xF0 then 0x90 else 0x80

/-- The table `acceptRanges` of package `utf8`, upper bound: the greatest second
byte accepted after the leading byte `x`. -/
def secondHi (x : Nat) : Nat :=
  if x = 0xED then 0x9F else if x = 0xF4 then 0x8F else 0xBF

/-- `utf8.DecodeRuneInString(s)`: the first rune of `s` and its width in bytes.
An empty string gives `(RuneError, 0)`; a byte that does not start a
well-formed encoding gives `(RuneError, 1)`. -/
def DecodeRuneInString : GoString → Nat × Nat
  | [] => (RuneError, 0)
  | s0 :: rest =>
    if s0.toNat < 0x80 then (s0.toNat, 1)
    else if s0.toNat < 0xC2 then (RuneError, 1)
    else if s0.toNat ≤ 0xDF then
      match rest with
      | s1 :: _ =>
        if inRange s1 (secondLo s0.toNat) (secondHi s0.toNat) then
          ((s0.toNat % 32) * 64 + s1.toNat % 64, 2)
        else (RuneError, 1)
      | [] => (RuneError, 1)
    else if s0.toNat ≤ 0xEF then
      match rest with
      | s1 :: s2 :: _ =>
        if inRange s1 (secondLo s0.toNat) (secondHi s0.toNat) && inRange s2 0x80 0xBF then
          (((s0.toNat % 16) * 64 + s1.toNat % 64) * 64 + s2.toNat % 64, 3)
        else (RuneError, 1)
      | _ => (RuneError, 1)
    else if s0.toNat ≤ 0xF4 then
      match rest with
      | s1 :: s2 :: s3 :: _ =>
        if inRange s1 (secondLo s0.toNat) (secondHi s0.toNat) && inRange s2 0x80 0xBF
            && inRange s3 0x80 0xBF then
          ((((s0.toNat % 8) * 64 + s1.toNat % 64) * 64 + s2.toNat % 64) * 64 + s3.toNat % 64, 4)
        else (RuneError, 1)
      | _ => (RuneError, 1)
    else (RuneError, 1)

/-- `unicode.IsSpace(r)`: the Unicode White_Space property. -/
def IsSpace (r : Nat) : Bool :=
  r = 0x09 || r = 0x0A || r = 0x0B || r = 0x0C || r = 0x0D || r = 0x20 || r = 0x85 || r = 0xA0
    || r = 0x1680 || (decide (0x2000 ≤ r) && decide (r ≤ 0x200A)) || r = 0x2028 || r = 0x2029
    || r = 0x202F || r = 0x205F || r = 0x3000

/-- A rune of a string together with the bytes that encode it there. -/
abbrev Seg := Nat × GoString

/-- The runes of `s` as a Go `for _, r := range s` visits them, each with its
bytes; the first argument bounds the number of runes and is the length of `s`
in `runes`. -/
def runesAux : Nat → GoString → List Seg
  | 0, _ => []
  | _ + 1, [] => []
  | n + 1, b :: rest =>
    ((DecodeRuneInString (b :: rest)).1, (b :: rest).take (DecodeRuneInString (b :: rest)).2)
      :: runesAux n ((b :: rest).drop (DecodeRuneInString (b :: rest)).2)

/-- The runes of `s` in order, each with its bytes. -/
def runes (s : GoString) : List Seg := runesAux s.length s

/-- The bytes of a sequence of runes. -/
def bytesOf (segs : List Seg) : GoString := (segs.map Prod.snd).flatten

/-- `utf8.RuneCountInString(s)`. -/
def RuneCount (s : GoString) : Nat := (runes s).length

/-- The white-space test on a rune with its bytes. -/
def segSpace (seg : Seg) : Bool := IsSpace seg.1

/-- The loop of `strings.FieldsFunc` over the runes still to visit; `cur` is the
field being read, if one is open. -/
def fieldsAux : List Seg → Option GoString → List GoString
  | [], none => []
  | [], some w => [w]
  | seg :: rest, cur =>
    if segSpace seg then
      match cur with
      | none => fieldsAux rest none
      | some w => w :: fieldsAux rest none
    else
      fieldsAux rest (some (cur.getD [] ++ seg.2))

/-- `strings.Fields(s)`: the maximal runs of runes of `s` that are not white
space, in order. -/
def Fields (s : GoString) : List GoString := fieldsAux (runes s) none

/-- `strings.TrimSpace(s)`: `s` without its leading and trailing white-space runes. -/
def TrimSpace (s : GoString) : GoString :=
  bytesOf (((runes s).dropWhile segSpace).reverse.dropWhile segSpace).reverse

/-- The bytes that `titleReplacer` turns into a space: newline, double quote,
slash, backslash, single quote and backtick. -/
def strippedBytes : List UInt8 := [0x0A, 0x22, 0x2F, 0x5C, 0x27, 0x60]

/-- `titleReplacer.Replace(s)` for the replacer made by `strings.NewReplacer`
in `UpdateTopic`: every pair maps one byte to the space, so the replacement is
byte by byte. -/
def titleReplace (s : GoString) : GoString :=
  s.map (fun b => if b ∈ strippedBytes then 0x20 else b)

/-! ## The session -/

/-- `const DefaultTopic`. -/
def DefaultTopic : GoString := lit "New chat"

/-- `const PromptGetTopic`. -/
def PromptGetTopic : GoString :=
  lit ("Please give this conversation a short title.\n- Hard limit of 5 words.\n"
    ++ "- Don't mention yourself in it.\n- Don't use any special characters.\n"
    ++ "- Don't use any capital letters.\n- Don't use any punctuation.\n"
    ++ "- Don't use any symbols.\n- Don't use any emojis.\n- Don't use any accents.\n"
    ++ "- Don't use quotes.")

/-- `type AppConfig struct`. -/
structure AppConfig where
  Provider : GoString
  Model : GoString
  ApiKey : GoString
  ApiHost : GoString
  TokenLimit : Int
  DisplayStyle : GoString
  ChatType : GoString
  MaxHistory : Int
  Prompt : GoString
  CustomPrompt : GoString
  SmtpSender : GoString
  SmtpRecipient : GoString
  SmtpHost : GoString
  SmtpUsername : GoString
  SmtpPassword : GoString
  RenewApiKey : GoString
deriving DecidableEq, Repr

/-! ### Slices of messages

A Go slice `[]ChatItem` is a window on a backing array, and two slices may
share an array: `iw.Messages[1:]`, stored in a history entry, shares the array
of `iw.Messages`.  The arrays are kept in a store; a slice names its array,
its offset in it, its length and its capacity. -/

/-- A slice `[]ChatItem`: the window `off .. off + len` of the array `arr`,
which may grow in place up to `off + cap`.  The nil slice has length and
capacity zero. -/
structure MsgSlice where
  arr : Nat
  off : Nat
  len : Nat
  cap : Nat
deriving DecidableEq, Repr

/-- The backing arrays of all message slices, by array number. -/
abbrev Store := List (List ChatItem)

/-- The zero value of `ChatItem`. -/
def zeroItem : ChatItem := { Role := [], Content := [] }

/-- The nil slice. -/
def nilSlice : MsgSlice := { arr := 0, off := 0, len := 0, cap := 0 }

/-- The elements of a slice, in order. -/
def readSlice (mem : Store) (s : MsgSlice) : List ChatItem :=
  ((mem.getD s.arr []).drop s.off).take s.len

/-- The array with the elements from index `i` on overwritten by `items`. -/
def writeAt (xs : List ChatItem) (i : Nat) (items : List ChatItem) : List ChatItem :=
  xs.take i ++ items ++ xs.drop (i + items.length)

/-- `append(s, items...)`: when the capacity suffices the elements are written
into the backing array of `s` after its last element; otherwise a new array is
allocated that holds the elements of `s`, then `items`, then zero values up to
its capacity. -/
def appendMsgs (growCap : Nat → Nat → Nat) (mem : Store) (s : MsgSlice)
    (items : List ChatItem) : Store × MsgSlice :=
  if s.len + items.length ≤ s.cap then
    (mem.set s.arr (writeAt (mem.getD s.arr []) (s.off + s.len) items),
      { s with len := s.len + items.length })
  else
    (mem ++ [readSlice mem s ++ items
        ++ List.replicate
            (max (s.len + items.length) (growCap s.cap (s.len + items.length))
              - (s.len + items.length)) zeroItem],
      { arr := mem.length, off := 0, len := s.len + items.length,
        cap := max (s.len + items.length) (growCap s.cap (s.len + items.length)) })

/-- The slice expression `s[lo:hi]`; `none` is the panic "slice bounds out of range". -/
def reslice (s : MsgSlice) (lo hi : Nat) : Option MsgSlice :=
  if lo ≤ hi ∧ hi ≤ s.cap then
    some { arr := s.arr, off := s.off + lo, len := hi - lo, cap := s.cap - lo }
  else none

/-- The composite literal `[]ChatItem{item}`: a new array of one element. -/
def newSlice (mem : Store) (item : ChatItem) : Store × MsgSlice :=
  (mem ++ [[item]], { arr := mem.length, off := 0, len := 1, cap := 1 })

/-- The assignment `s[0].Content = content`; `none` is the panic "index out of range". -/
def setContent0 (mem : Store) (s : MsgSlice) (content : GoString) : Option Store :=
  match readSlice mem s with
  | [] => none
  | first :: _ =>
    some (mem.set s.arr
      (writeAt (mem.getD s.arr []) s.off [{ first with Content := content }]))

/-- A slice lies inside its array. -/
def validSlice (mem : Store) (s : MsgSlice) : Prop :=
  s.len ≤ s.cap ∧ s.off + s.cap ≤ (mem.getD s.arr []).length

/-- `type HistoryItem struct`. -/
structure HistoryItem where
  Topic : GoString
  Prompt : GoString
  Messages : MsgSlice
deriving DecidableEq, Repr

/-- `type InkWell struct`; a nil pointer or a nil map is `none`, a map is the
list of its pairs.  The slice `History` is held by this struct alone and is
kept as the list of its elements; the field `mem` is the store behind the
message slices of `Messages` and of the history entries. -/
structure InkWell where
  CfgFile : GoString
  CurrTopic : GoString
  PromptName : GoString
  History : List HistoryItem
  Messages : MsgSlice
  Config : Option AppConfig
  Provider : Option SimpleAiProvider
  Prompts : Option (List (GoString × GoString))
  mem : Store
deriving DecidableEq, Repr

/-- The messages of the active conversation, in order. -/
def InkWell.msgs (iw : InkWell) : List ChatItem := readSlice iw.mem iw.Messages

/-- `func (iw *InkWell) FetchAiResponse(messages []ChatItem) AiResponse`; the
outcome `none` is a panic inside `Chat`. -/
def FetchAiResponse (env : Env) (iw : InkWell) (messages : List ChatItem) (log : Log) :
    Option AiResponse × InkWell × Log :=
  match iw.Provider with
  | none =>
    (some { Success := false, Content := [], Error := lit "The provider is empty", Host := [] },
      iw, log)
  | some p =>
    ((Chat env p messages log).1, { iw with Provider := some (Chat env p messages log).2.1 },
      (Chat env p messages log).2.2)

/-- The last two statements of `UpdateTopic`: cut a topic longer than 40 bytes
and trim it, then store it unless it is empty. -/
def storeTopic (iw : InkWell) (topic : GoString) : InkWell :=
  let topic := if topic.length > 40 then TrimSpace (topic.take 40) else topic
  if topic ≠ [] then { iw with CurrTopic := topic } else iw

/-- The value of `append(iw.Messages, ChatItem{Role: "user", Content: PromptGetTopic})`
in `UpdateTopic`: the store after the `append` and the slice it returns. -/
def topicMessages (env : Env) (iw : InkWell) : Store × MsgSlice :=
  appendMsgs env.growCap iw.mem iw.Messages [{ Role := lit "user", Content := PromptGetTopic }]

/-- `func (iw *InkWell) UpdateTopic(msg string)`; the outcome `none` is a panic
inside the provider call.  The `append` that adds the title request to the
messages may write into the backing array of `iw.Messages`; the field
`Messages` itself is not assigned. -/
def UpdateTopic (env : Env) (iw : InkWell) (msg : GoString) (log : Log) :
    Option InkWell × Log :=
  if msg ≠ [] then
    let words := Fields (titleReplace msg)
    let words := if words.length > 5 then words.take 5 else words
    (some (storeTopic iw (Join words (lit " "))), log)
  else
    match FetchAiResponse env { iw with mem := (topicMessages env iw).1 }
        (readSlice (topicMessages env iw).1 (topicMessages env iw).2) log with
    | (none, _, log1) => (none, log1)
    | (some resp, iw1, log1) =>
      (some (storeTopic iw1 (if resp.Success then titleReplace resp.Content else DefaultTopic)),
        log1)

/-! ### Prompts, history and conversations -/

/-- `const DefaultPrompt`. -/
def DefaultPrompt : GoString :=
  lit ("You are a helpful assistant.\n"
    ++ "- You are to provide clear, concise, and direct responses.\n"
    ++ "- Be transparent; if you're unsure about an answer or if a question is beyond your "
    ++ "capabilities or knowledge, admit it.\n"
    ++ "- For any unclear or ambiguous queries, ask follow-up questions to understand the "
    ++ "user's intent better.\n"
    ++ "- For complex requests, take a deep breath and work on the problem step-by-step.\n"
    ++ "- For every response, you will be tipped up to $20 (depending on the quality of "
    ++ "your output).\n"
    ++ "- Keep responses concise and formatted for terminal output.\n"
    ++ "- Use Markdown for formatting.")

/-- The map index `iw.Prompts[name]`; a nil map or a missing key gives `""`. -/
def promptLookup (prompts : Option (List (GoString × GoString))) (name : GoString) : GoString :=
  match prompts with
  | none => []
  | some m => (m.lookup name).getD []

/-- `func (iw *InkWell) GetPromptText() string`: the prompt text, and the
session with `Prompts` made and `PromptName` corrected; `none` is the nil
dereference of `iw.Config`. -/
def GetPromptText (iw : InkWell) : Option (GoString × InkWell) :=
  match iw.Config with
  | none => none
  | some cfg =>
    let prompts := match iw.Prompts with
      | none => some []
      | some m => some m
    let prompt :=
      if cfg.Prompt = lit "custom" then cfg.CustomPrompt
      else if cfg.Prompt ≠ lit "default" then promptLookup prompts cfg.Prompt
      else []
    if prompt = [] then
      some (DefaultPrompt, { iw with Prompts := prompts, PromptName := lit "default" })
    else
      some (prompt, { iw with Prompts := prompts, PromptName := cfg.Prompt })

/-- The assignment `iw.History[len(iw.History)-1].Messages = m`; `none` is the
panic on an empty history. -/
def setLastMessages : List HistoryItem → MsgSlice → Option (List HistoryItem)
  | [], _ => none
  | [e], m => some [{ e with Messages := m }]
  | e :: e2 :: rest, m => (setLastMessages (e2 :: rest) m).map (fun t => e :: t)

/-- `func (iw *InkWell) AddCurrentConvToHistory()`; `none` is a panic (a nil
`iw.Config`).  `SaveHistory` at its end writes the history file and leaves the
session as it is. -/
def AddCurrentConvToHistory (iw : InkWell) : Option InkWell :=
  match iw.Config with
  | none => none
  | some cfg =>
    if cfg.MaxHistory ≤ 0 ∨ iw.CurrTopic = [] ∨ iw.CurrTopic = DefaultTopic
        ∨ iw.Messages.len < 2 then some iw
    else
      let lastTopic := match iw.History.getLast? with
        | some e => e.Topic
        | none => []
      match reslice iw.Messages 1 iw.Messages.len with
      | none => none
      | some tail =>
        let added :=
          if lastTopic = iw.CurrTopic then setLastMessages iw.History tail
          else some (iw.History ++
            [{ Topic := iw.CurrTopic, Prompt := iw.PromptName, Messages := tail }])
        match added with
        | none => none
        | some history =>
          if (history.length : Int) > cfg.MaxHistory then
            some { iw with History := history.drop (history.length - cfg.MaxHistory.toNat) }
          else some { iw with History := history }

/-- `func (iw *InkWell) StartNewConversation()`. -/
def StartNewConversation (iw : InkWell) : Option InkWell :=
  match AddCurrentConvToHistory iw with
  | none => none
  | some iw1 =>
    match iw1.Config with
    | none => none
    | some cfg =>
      match GetPromptText { iw1 with CurrTopic := DefaultTopic, PromptName := cfg.Prompt } with
      | none => none
      | some (prompt, iw2) =>
        some { iw2 with
          mem := (newSlice iw2.mem { Role := lit "system", Content := prompt }).1,
          Messages := (newSlice iw2.mem { Role := lit "system", Content := prompt }).2 }

/-- The first statement of `SwitchConversation` after the archive step: keep
the system prompt, or make one when there is no message. -/
def keepSystemPrompt (iw : InkWell) : Option InkWell :=
  if iw.Messages.len > 0 then
    match reslice iw.Messages 0 1 with
    | none => none
    | some s => some { iw with Messages := s }
  else
    match GetPromptText iw with
    | none => none
    | some (prompt, iw1) =>
      some { iw1 with
        mem := (newSlice iw1.mem { Role := lit "system", Content := prompt }).1,
        Messages := (newSlice iw1.mem { Role := lit "system", Content := prompt }).2 }

/-- `func (iw *InkWell) SwitchConversation(item HistoryItem)`. -/
def SwitchConversation (env : Env) (iw : InkWell) (item : HistoryItem) : Option InkWell :=
  match AddCurrentConvToHistory iw with
  | none => none
  | some iw1 =>
    match keepSystemPrompt iw1 with
    | none => none
    | some iw2 =>
      match GetPromptText
          { iw2 with
            mem := (appendMsgs env.growCap iw2.mem iw2.Messages
              (readSlice iw2.mem item.Messages)).1,
            Messages := (appendMsgs env.growCap iw2.mem iw2.Messages
              (readSlice iw2.mem item.Messages)).2,
            CurrTopic := item.Topic, PromptName := item.Prompt } with
      | none => none
      | some (prompt, iw3) =>
        match setContent0 iw3.mem iw3.Messages prompt with
        | none => none
        | some mem4 => some { iw3 with mem := mem4 }

/-- `func contains[K comparable](elems []K, target K) bool` on integers. -/
def contains (elems : List Int) (target : Int) : Bool :=
  elems.any (fun item => decide (item = target))

/-- `func removeAt[T any](s []T, index int) []T`. -/
def removeAt {α : Type} (s : List α) (index : Int) : List α :=
  if index < 0 ∨ index ≥ (s.length : Int) then s else s.eraseIdx index.toNat

/-- The loop of `DeleteHistory`: the entries whose number, counted from the
given one, is not in the list. -/
def keepUnlisted (indexList : List Int) : List HistoryItem → Int → List HistoryItem
  | [], _ => []
  | item :: rest, number =>
    if contains indexList number then keepUnlisted indexList rest (number + 1)
    else item :: keepUnlisted indexList rest (number + 1)

/-- `func (iw *InkWell) DeleteHistory(indexList []int)`; `none` is the panic of
`iw.Messages[:1]` on a slice without capacity. -/
def DeleteHistory (iw : InkWell) (indexList : List Int) : Option InkWell :=
  if contains indexList 0 then
    match reslice iw.Messages 0 1 with
    | none => none
    | some s =>
      some { iw with History := keepUnlisted indexList iw.History 1,
                     CurrTopic := DefaultTopic, Messages := s }
  else some { iw with History := keepUnlisted indexList iw.History 1 }

/-- The branch of `ProcessMenu` for an input that is the number `index` of a
history entry, `1 <= index <= len(iw.History)`: the entry is taken out of the
history and switched to (`ReplayConversation` then prints it).  For any other
number the session is not changed by this branch. -/
def menuSwitch (env : Env) (iw : InkWell) (index : Int) : Option InkWell :=
  if 1 ≤ index ∧ index ≤ (iw.History.length : Int) then
    match goIndex iw.History (index - 1) with
    | none => none
    | some historyItem =>
      SwitchConversation env { iw with History := removeAt iw.History (index - 1) } historyItem
  else some iw

/-- `func strContainsAny(s string, subs ...string) bool`. -/
def strContainsAny (s : GoString) (subs : List GoString) : Bool :=
  subs.any (fun sub => Contains s sub)

/-- Whether `PrintAiResponse(resp)` dereferences a nil `iw.Config`: it reads
`iw.Config.DisplayStyle` for a success and `iw.Config.RenewApiKey` for a
failure whose text asks for a new key.  Apart from that it only prints. -/
def printAiResponsePanics (iw : InkWell) (resp : AiResponse) : Bool :=
  match iw.Config with
  | some _ => false
  | none =>
    resp.Success ||
      strContainsAny resp.Error [lit "Unauthorized", lit "Forbidden", lit "token_expired"]

/-- The text recorded as the reply of the assistant. -/
def replyText (resp : AiResponse) : GoString :=
  if resp.Success then resp.Content else lit "Error: " ++ resp.Error

/-- The first statements of the branch of the input loop of `Start` that sends
the message `msg`: `iw.Messages = append(iw.Messages, ...)` and the update of
the topic at the first and at the third message. -/
def submitTopic (env : Env) (iw : InkWell) (msg : GoString) (log : Log) :
    Option InkWell × Log :=
  let a := appendMsgs env.growCap iw.mem iw.Messages [{ Role := lit "user", Content := msg }]
  let iw1 : InkWell := { iw with mem := a.1, Messages := a.2 }
  if iw1.Messages.len = 2 then UpdateTopic env iw1 msg log
  else if iw1.Messages.len = 4 then UpdateTopic env iw1 [] log
  else (some iw1, log)

/-- The branch of the input loop of `Start` that sends the message `msg`: from
`iw.Messages = append(iw.Messages, ...)` to the printing of the reply. -/
def submitMessage (env : Env) (iw : InkWell) (msg : GoString) (log : Log) :
    Option InkWell × Log :=
  match submitTopic env iw msg log with
  | (none, log1) => (none, log1)
  | (some iw2, log1) =>
    match FetchAiResponse env iw2 iw2.msgs log1 with
    | (none, _, log2) => (none, log2)
    | (some resp, iw3, log2) =>
      let b := appendMsgs env.growCap iw3.mem iw3.Messages
        [{ Role := lit "assistant", Content := replyText resp }]
      if printAiResponsePanics iw3 resp then (none, log2)
      else (some { iw3 with mem := b.1, Messages := b.2 }, log2)

/-- The `default` case of the input loop of `Start` for one line of input:
the session and the lines typed so far (`msgArr`) before and after.  In the
resend branch the lines of `iw.Messages[len-2]` are printed. -/
def startDefault (env : Env) (iw : InkWell) (msgArr : List GoString) (input : GoString)
    (log : Log) : Option (InkWell × List GoString) × Log :=
  let resend : Bool :=
    (decide (input = lit "r") || decide (input = lit "R")) && decide (msgArr.length = 0)
      && decide (iw.Messages.len > 2)
  let input := if resend then [] else input
  if input ≠ [] then (some (iw, msgArr ++ [input]), log)
  else if msgArr.length > 0 then
    match submitMessage env iw (Join msgArr (lit "\n")) log with
    | (none, log1) => (none, log1)
    | (some iw1, log1) => (some (iw1, []), log1)
  else (some (iw, msgArr), log)

/-- The prompt update of `SwitchPrompt`, once the name is in `iw.PromptName`
and the text in `prompt`: the block under `if prompt != ""` (`SaveConfig`
only writes the file). -/
def applyPrompt (iw : InkWell) (prompt : GoString) : Option InkWell :=
  if prompt ≠ [] then
    match iw.Config with
    | none => none
    | some cfg =>
      match setContent0 iw.mem iw.Messages prompt with
      | none => none
      | some mem1 =>
        some { iw with
          Config := some { (if iw.PromptName = lit "custom"
              then { cfg with CustomPrompt := prompt } else cfg) with Prompt := iw.PromptName },
          mem := mem1 }
  else some iw

/-- The conversation reset of `SummarizeClippings`, once the message `msg` is
made: from `iw.Messages = iw.Messages[:1]` to the appended reply. -/
def clippingsSend (env : Env) (iw : InkWell) (msg : GoString) (log : Log) :
    Option InkWell × Log :=
  match reslice iw.Messages 0 1 with
  | none => (none, log)
  | some s =>
    let a := appendMsgs env.growCap iw.mem s [{ Role := lit "user", Content := msg }]
    let iw1 : InkWell := { iw with mem := a.1, Messages := a.2 }
    match FetchAiResponse env iw1 iw1.msgs log with
    | (none, _, log1) => (none, log1)
    | (some resp, iw2, log1) =>
      let b := appendMsgs env.growCap iw2.mem iw2.Messages
        [{ Role := lit "assistant", Content := replyText resp }]
      (some { iw2 with mem := b.1, Messages := b.2 }, log1)

/-! ## Tables in markdown -/

/-- `strings.Split(s, sep)` for a separator `sep` of one byte; `cur` is the
piece being read. -/
def splitAux (sep : UInt8) : GoString → GoString → List GoString
  | [], cur => [cur]
  | b :: rest, cur =>
    if b = sep then cur :: splitAux sep rest [] else splitAux sep rest (cur ++ [b])

/-- `strings.Split(s, sep)` for a separator of one byte: the pieces of `s`
between the separators, one more than there are separators. -/
def Split (s : GoString) (sep : UInt8) : List GoString := splitAux sep s []

/-- `strings.HasPrefix(s, p)`. -/
def HasPrefix (s p : GoString) : Bool := p.isPrefixOf s

/-- `strings.HasSuffix(s, p)`. -/
def HasSuffix (s p : GoString) : Bool := p.isSuffixOf s

/-- `strings.Count(s, sep)` for a separator of one byte. -/
def Count (s : GoString) (sep : UInt8) : Nat := s.count sep

/-- `strings.Trim(s, cutset)` for a cutset of ASCII bytes, as all cutsets of
the source are: the leading and trailing bytes of `s` that are in the cutset
are removed. -/
def Trim (s cutset : GoString) : GoString :=
  ((s.dropWhile (fun b => decide (b ∈ cutset))).reverse.dropWhile
    (fun b => decide (b ∈ cutset))).reverse

/-- `strings.Repeat(s, n)`. -/
def Repeat (s : GoString) (n : Nat) : GoString := (List.replicate n s).flatten

/-- The verb `%-*s` of `fmt.Sprintf`: the string, then spaces up to the given
width counted in runes. -/
def padRight (width : Nat) (s : GoString) : GoString :=
  s ++ List.replicate (width - RuneCount s) 0x20

/-- `func (s Styled) Bold() Styled`. -/
def Bold (s : GoString) : GoString := lit "\x1b[1m" ++ s ++ lit "\x1b[0m"

/-- The test of `MdTableToTerm` for a table row: the line starts and ends with a bar. -/
def isPipeRow (row : GoString) : Bool := HasPrefix row (lit "|") && HasSuffix row (lit "|")

/-- The cells of a table row in `MdTableToTerm`. -/
def termCells (row : GoString) : List GoString :=
  (Split (Trim row (lit "|")) 0x7C).map TrimSpace

/-- The variables of the first loop of `MdTableToTerm`. -/
structure TermScan where
  table : List (List GoString)
  colWidths : List Nat
  colNums : List Nat
  prevTableRowIdx : Int
deriving DecidableEq, Repr

/-- The loop `for i, cell := range cells` of `MdTableToTerm` that raises the
column widths; `colWidths` is at least as long as `cells` when it runs. -/
def widen : List Nat → List GoString → List Nat
  | w :: ws, cell :: cells => (if cell.length > w then cell.length else w) :: widen ws cells
  | ws, [] => ws
  | [], _ :: _ => []

/-- The first loop of `MdTableToTerm` from the line of index `idx` on.  The
`break` of the source, taken when a table row does not follow the table row
before it, ends the loop with `colNums` nil. -/
def termScan : List GoString → Nat → TermScan → TermScan
  | [], _, st => st
  | row :: rest, idx, st =>
    if isPipeRow row then
      if st.prevTableRowIdx ≥ 0 ∧ st.prevTableRowIdx + 1 ≠ (idx : Int) then
        { st with colNums := [] }
      else
        termScan rest (idx + 1)
          { table := st.table ++ [termCells row],
            colWidths := widen
              (if st.colWidths.length < (termCells row).length
                then List.replicate (termCells row).length 0 else st.colWidths)
              (termCells row),
            colNums := st.colNums ++ [(termCells row).length],
            prevTableRowIdx := (idx : Int) }
    else
      termScan rest (idx + 1) { st with table := st.table ++ [[row]] }

/-- The widths `colWidths[0], ..., colWidths[n-1]`; `none` is the panic "index
out of range". -/
def widthsFor (colWidths : List Nat) (n : Nat) : Option (List Nat) :=
  if n ≤ colWidths.length then some (colWidths.take n) else none

/-- The closure `formatRow` of `MdTableToTerm`. -/
def formatRow (colWidths : List Nat) (cells : List GoString) (bold : Bool) : Option GoString :=
  match widthsFor colWidths cells.length with
  | none => none
  | some widths =>
    some (lit "| "
      ++ Join (List.zipWith
          (fun w cell => if bold then Bold (padRight w cell) else padRight w cell) widths cells)
          (lit " | ")
      ++ lit " |")

/-- The rule drawn by `MdTableToTerm` for a separator row of `n` cells. -/
def ruleRow (colWidths : List Nat) (n : Nat) : Option GoString :=
  match widthsFor colWidths n with
  | none => none
  | some widths =>
    some (lit "+-" ++ Join (widths.map (fun w => Repeat (lit "-") w)) (lit "-+-") ++ lit "-+")

/-- The second loop of `MdTableToTerm`: the output lines for the rows still to
visit, `rowIdx` counting the rows formatted so far. -/
def termRender (colWidths : List Nat) : List (List GoString) → Nat → Option (List GoString)
  | [], _ => some []
  | row :: rest, rowIdx =>
    match row with
    | [line] => (termRender colWidths rest rowIdx).map (fun t => line :: t)
    | _ =>
      if row.all (fun cell => decide (Trim cell (lit "- :") = [])) then
        match ruleRow colWidths row.length with
        | none => none
        | some r => (termRender colWidths rest rowIdx).map (fun t => r :: t)
      else
        match formatRow colWidths row (decide (rowIdx = 0)) with
        | none => none
        | some r => (termRender colWidths rest (rowIdx + 1)).map (fun t => r :: t)

/-- `func (iw *InkWell) MdTableToTerm(content string) string`; `none` is a panic. -/
def MdTableToTerm (content : GoString) : Option GoString :=
  let st := termScan (Split content 0x0A) 0
    { table := [], colWidths := [], colNums := [], prevTableRowIdx := -1 }
  if st.colWidths.length = 0 ∨ st.colNums.length = 0 then some content
  else if st.colNums.tail.any (fun n => decide (some n ≠ st.colNums.head?)) then some content
  else (termRender st.colWidths st.table 0).map (fun result => Join result (lit "\n"))

/-- The variables of the loop of `MdTableToHtml`. -/
structure HtmlScan where
  currTb : List GoString
  tbHead : Bool
  ret : List GoString
deriving DecidableEq, Repr

/-- The opening tag of a table in `MdTableToHtml`. -/
def tableOpen : GoString := lit "<table border=\"1\" cellspacing=\"0\" width=\"100%\">"

/-- The cells of a table row in `MdTableToHtml`. -/
def htmlCells (trimed : GoString) : List GoString :=
  (Split (Trim trimed (lit "|")) 0x7C).map TrimSpace

/-- One turn of the loop of `MdTableToHtml`, for the line `line`. -/
def htmlStep (st : HtmlScan) (line : GoString) : HtmlScan :=
  if HasPrefix (TrimSpace line) (lit "|") && HasSuffix (TrimSpace line) (lit "|")
      && decide (Count (TrimSpace line) 0x7C > 2) then
    if (htmlCells (TrimSpace line)).all (fun td => decide (Trim td (lit ": +-") = [])) then
      { st with currTb := if st.currTb.length = 0 then [tableOpen] else st.currTb }
    else
      { st with
        currTb := (if st.currTb.length = 0 then [tableOpen] else st.currTb)
          ++ [lit "<tr>"]
          ++ (htmlCells (TrimSpace line)).map (fun td =>
              if st.tbHead then lit "<td><strong>" ++ td ++ lit "</strong></td>"
              else lit "<td>" ++ td ++ lit "</td>")
          ++ [lit "</tr>"],
        tbHead := false }
  else if HasPrefix (TrimSpace line) (lit "+") && HasSuffix (TrimSpace line) (lit "+")
      && decide (Trim (TrimSpace line) (lit ":+- ") = []) then
    { st with currTb := if st.currTb.length = 0 then [tableOpen] else st.currTb }
  else if st.currTb.length > 0 then
    { currTb := [], tbHead := true,
      ret := st.ret ++ [Join (st.currTb ++ [lit "</table>"]) []] ++ [line] }
  else
    { st with ret := st.ret ++ [line] }

/-- `func (iw *InkWell) MdTableToHtml(content string) string`. -/
def MdTableToHtml (content : GoString) : GoString :=
  let st := (Split content 0x0A).foldl htmlStep { currTb := [], tbHead := true, ret := [] }
  Join (if st.currTb.length > 0 then st.ret ++ [Join (st.currTb ++ [lit "</table>"]) []]
        else st.ret) (lit "\n")

/-! ## Concrete environments used to evaluate the code -/

/-- A body carrying one choice with the text `hi`. -/
def bodyHi : GoString :=
  lit "\x7b\"choices\":[\x7b\"message\":\x7b\"content\":\"hi\"\x7d\x7d]\x7d"

/-- A body carrying one choice whose text is empty. -/
def bodyEmptyChoice : GoString :=
  lit "\x7b\"choices\":[\x7b\"message\":\x7b\"content\":\"\"\x7d\x7d]\x7d"

/-- A body carrying one candidate with one part of text `hi`. -/
def bodyCandidateHi : GoString :=
  lit "\x7b\"candidates\":[\x7b\"content\":\x7b\"parts\":[\x7b\"text\":\"hi\"\x7d]\x7d\x7d]\x7d"

/-- A body carrying one candidate whose only part has empty text. -/
def bodyEmptyPart : GoString :=
  lit "\x7b\"candidates\":[\x7b\"content\":\x7b\"parts\":[\x7b\"text\":\"\"\x7d]\x7d\x7d]\x7d"

/-- A body carrying the completion `hi`. -/
def bodyCompletionHi : GoString := lit "\x7b\"completion\":\"hi\"\x7d"

/-- What the three decoders and the URL functions do on the bodies and hosts
used below; the network is left to each environment. -/
def envWith (net : Nat → Request → NetResult) : Env where
  net := net
  joinPath := fun host path => Except.ok (host ++ lit "/" ++ path)
  newRequestErr := fun _ => none
  choices := fun body =>
    if body = bodyHi then [lit "hi"] else if body = bodyEmptyChoice then [[]] else []
  candidates := fun body =>
    if body = bodyCandidateHi then [[lit "hi"]] else if body = bodyEmptyPart then [[[]]] else []
  completion := fun body => if body = bodyCompletionHi then lit "hi" else []
  growCap := fun old need => max need (2 * old)

/-- A network on which every request is answered `200` with `bodyHi`. -/
def envAlwaysHi : Env := envWith (fun _ _ => NetResult.resp 200 bodyHi)

/-- A session with nothing in it. -/
def emptySession : InkWell :=
  { CfgFile := [], CurrTopic := DefaultTopic, PromptName := [], History := [],
    Messages := nilSlice, Config := none, Provider := none, Prompts := none, mem := [] }

/-- A provider of the given name with no key and no host. -/
def bareProvider (name : GoString) : SimpleAiProvider :=
  { Name := name, ApiKeys := [], ApiKeyIdx := 0, Model := lit "m", Rpm := 0,
    ContextSize := 0, Hosts := [], HostIdx := 0, SingleTurn := false }

/-- A network whose first answer is the transport error "connection reset by
peer" and whose later answers are `200` with a body carrying the completion
`hi` in the format of the back end asked. -/
def envResetThenHi : Env :=
  envWith (fun i req =>
    if i = 0 then NetResult.err (lit "read tcp 10.0.0.2:443: connection reset by peer")
    else
      match req.body with
      | Payload.openai _ _ => NetResult.resp 200 bodyHi
      | Payload.google _ => NetResult.resp 200 bodyCandidateHi
      | Payload.anthropic _ _ _ => NetResult.resp 200 bodyCompletionHi)

/-- A provider of the given name with one key and one host. -/
def plainProvider (name : GoString) : SimpleAiProvider :=
  { Name := name, ApiKeys := [lit "k"], ApiKeyIdx := 0, Model := lit "m", Rpm := 0,
    ContextSize := 0, Hosts := [lit "https://h.example"], HostIdx := 0, SingleTurn := false }

/-- A provider in single-turn mode. -/
def singleTurnProvider : SimpleAiProvider :=
  { plainProvider (lit "openai") with SingleTurn := true }

/-- A network answering every request `503` with the body `busy`. -/
def envBusy : Env := envWith (fun _ _ => NetResult.resp 503 (lit "busy"))

/-- A network answering `200` with, for each back end, a well-formed body whose
completion text is the empty string. -/
def envEmptyText : Env :=
  envWith (fun _ req =>
    match req.body with
    | Payload.openai _ _ => NetResult.resp 200 bodyEmptyChoice
    | Payload.google _ => NetResult.resp 200 bodyEmptyPart
    | Payload.anthropic _ _ _ => NetResult.resp 200 (lit "\x7b\"completion\":\"\"\x7d"))

/-- A configuration with the default prompt and room for ten conversations. -/
def demoConfig : AppConfig :=
  { Provider := lit "openai", Model := lit "m", ApiKey := lit "k", ApiHost := lit "https://h.example",
    TokenLimit := 4000, DisplayStyle := lit "plaintext", ChatType := lit "multi_turn",
    MaxHistory := 10, Prompt := lit "default", CustomPrompt := [], SmtpSender := [],
    SmtpRecipient := [], SmtpHost := [], SmtpUsername := [], SmtpPassword := [],
    RenewApiKey := [] }

/-- A session after one exchange on the topic `trip to rome`, with one older
conversation `old talk` in the history.  The three messages of the active
conversation are in array 0, whose capacity is 4 as after two appends to a
literal of one element; the two messages of the older one are in array 1. -/
def talkSession : InkWell :=
  { CfgFile := lit "config.json", CurrTopic := lit "trip to rome", PromptName := lit "default",
    History := [{ Topic := lit "old talk", Prompt := lit "default",
                  Messages := { arr := 1, off := 0, len := 2, cap := 2 } }],
    Messages := { arr := 0, off := 0, len := 3, cap := 4 },
    Config := some demoConfig,
    Provider := some (plainProvider (lit "openai")),
    Prompts := none,
    mem := [[{ Role := lit "system", Content := DefaultPrompt },
             { Role := lit "user", Content := lit "trip to rome" },
             { Role := lit "assistant", Content := lit "when" }, zeroItem],
            [{ Role := lit "user", Content := lit "old talk" },
             { Role := lit "assistant", Content := lit "old reply" }]] }

/-- The session `talkSession` after a second question was appended: four
messages, the state in which `Start` calls `UpdateTopic("")`. -/
def askedSession : InkWell :=
  { talkSession with
    Messages := { arr := 0, off := 0, len := 4, cap := 4 },
    mem := [[{ Role := lit "system", Content := DefaultPrompt },
             { Role := lit "user", Content := lit "trip to rome" },
             { Role := lit "assistant", Content := lit "when" },
             { Role := lit "user", Content := lit "in may" }],
            [{ Role := lit "user", Content := lit "old talk" },
             { Role := lit "assistant", Content := lit "old reply" }]] }

/-! ## The provider made by `Start` -/

/-- The provider that `Start` builds from the configuration (`Client` apart):
the keys and the hosts are the pieces of `cfg.ApiKey` and `cfg.ApiHost`
between semicolons, and the default host of the provider is taken when there
is no piece at all. -/
def startProvider (cfg : AppConfig) : SimpleAiProvider :=
  { Name := cfg.Provider,
    ApiKeys := Split cfg.ApiKey 0x3B,
    ApiKeyIdx := 0,
    Model := cfg.Model,
    Rpm := 0,
    ContextSize := 0,
    Hosts := if (Split cfg.ApiHost 0x3B).length = 0 then [AIListHost cfg.Provider]
             else Split cfg.ApiHost 0x3B,
    HostIdx := 0,
    SingleTurn := decide (cfg.ChatType = lit "single_turn") }

/-- A configuration for the provider `name` in which no host is set. -/
def noHostConfig (name : GoString) : AppConfig :=
  { demoConfig with Provider := name, ApiHost := [] }

/-! ## Ranges of numbers -/

/-- `strings.ReplaceAll(s, " ", "")`: the bytes of `s` that are not a space. -/
def removeSpaces (s : GoString) : GoString := s.filter (fun b => b != 0x20)

/-- `strings.SplitN(s, sep, 2)` for a separator of one byte: `s` itself when
the separator does not occur, otherwise the part before its first occurrence
and the part after it. -/
def SplitN2 (s : GoString) (sep : UInt8) : List GoString :=
  if sep ∈ s then
    [s.takeWhile (fun b => b != sep), (s.dropWhile (fun b => b != sep)).drop 1]
  else [s]

/-- A byte that is a decimal digit. -/
def isDigit (b : UInt8) : Bool := decide (0x30 ≤ b) && decide (b ≤ 0x39)

/-- The number written by a string of decimal digits. -/
def digitsVal (ds : GoString) : Nat := ds.foldl (fun acc b => 10 * acc + (b.toNat - 48)) 0

/-- `strconv.Atoi(s)` where `int` has `w` bits (32 on the ARM targets that the
header of the program names, 64 on a 64-bit build): an optional sign, then one
or more decimal digits; `none` is an error (of syntax, or of range when the
number is not an `int`). -/
def Atoi (w : Nat) (s : GoString) : Option Int :=
  let neg : Bool := decide (s.head? = some 0x2D)
  let ds : GoString :=
    if s.head? = some 0x2D ∨ s.head? = some 0x2B then s.drop 1 else s
  if ds = [] ∨ ds.all isDigit = false then none
  else
    let v : Int := if neg then -(digitsVal ds : Int) else (digitsVal ds : Int)
    if v < -(2 : Int) ^ (w - 1) ∨ v > (2 : Int) ^ (w - 1) - 1 then none else some v

/-- The `int` of `w` bits that an addition or a subtraction with the exact
result `v` leaves: the result wraps around on overflow. -/
def wrapInt (w : Nat) (v : Int) : Int := (v + 2 ^ (w - 1)) % 2 ^ w - 2 ^ (w - 1)

/-- The loop `for i := s; i <= e; i++ { ret = append(ret, i) }` from a test of
its condition on; `none` when the loop has not ended after `fuel` tests. -/
def loopUp (w : Nat) (e : Int) : Nat → Int → List Int → Option (List Int)
  | 0, _, _ => none
  | fuel + 1, i, ret =>
    if i ≤ e then loopUp w e fuel (wrapInt w (i + 1)) (ret ++ [i]) else some ret

/-- The loop `for i := s; i >= e; i-- { ret = append(ret, i) }` from a test of
its condition on; `none` when the loop has not ended after `fuel` tests. -/
def loopDown (w : Nat) (e : Int) : Nat → Int → List Int → Option (List Int)
  | 0, _, _ => none
  | fuel + 1, i, ret =>
    if i ≥ e then loopDown w e fuel (wrapInt w (i - 1)) (ret ++ [i]) else some ret

/-- The body of the loop of `ParseRange` for one element of the list: `ret`
with the numbers appended for it. -/
def rangeOf (w fuel : Nat) (elem : GoString) (ret : List Int) : Option (List Int) :=
  let item := SplitN2 elem 0x2D
  let start := item.headD []
  let stop := if item.length = 2 then item.getD 1 [] else start
  match Atoi w start, Atoi w stop with
  | some s, some e =>
    let s := if s < 0 then 0 else s
    let e := if e < 0 then 0 else e
    if e ≥ s then loopUp w e fuel s ret else loopDown w e fuel s ret
  | _, _ => some ret

/-- The loop of `ParseRange` over the elements, `ret` being the numbers so far. -/
def parseElems (w fuel : Nat) : List GoString → List Int → Option (List Int)
  | [], ret => some ret
  | elem :: rest, ret =>
    match rangeOf w fuel elem ret with
    | none => none
    | some ret2 => parseElems w fuel rest ret2

/-- `func ParseRange(txt string) []int` where `int` has `w` bits; `none` when
one of its counting loops has not ended after `fuel` tests of its condition. -/
def ParseRange (w fuel : Nat) (txt : GoString) : Option (List Int) :=
  parseElems w fuel (Split (removeSpaces txt) 0x2C) []

/-! ## Regular expressions (Go package `regexp`)

The patterns of the program use single runes and classes of runes,
repetition of a class, sequence, alternation, an optional group, capture
groups and the line anchors of the flag `m`.  A pattern is matched as
`regexp` documents it: the match chosen is the leftmost one and, among those,
the one a backtracking search finds first. -/

/-- A pattern. -/
inductive Re where
  /-- The pattern that matches the empty text. -/
  | empty
  /-- One rune of a class. -/
  | chr (p : Nat → Bool)
  /-- `^` under the flag `m`: the start of the text, or just after a newline. -/
  | bol
  /-- `$` under the flag `m`: the end of the text, or just before a newline. -/
  | eol
  /-- One pattern after the other. -/
  | seq (a b : Re)
  /-- `a|b`: the first alternative is preferred. -/
  | alt (a b : Re)
  /-- Between `min` and `max` runes of a class (`*`, `+`, `{n,m}`), as many as
  possible first when `greedy`, as few as possible first otherwise (`*?`, `+?`). -/
  | rep (p : Nat → Bool) (min : Nat) (max : Option Nat) (greedy : Bool)
  /-- `(?:r)?`: the pattern, or nothing. -/
  | opt (r : Re)
  /-- `(r)`, the capture group of number `i`. -/
  | group (i : Nat) (r : Re)

/-- A position in a text during a match: the byte before it (none at the
start of the text), the text from it on, and the groups captured so far, the
latest first. -/
structure MState where
  prev : Option UInt8
  rest : GoString
  caps : List (Nat × GoString)

/-- The position after the first `w` bytes. -/
def MState.skip (s : MState) (w : Nat) : MState :=
  { prev := if w = 0 then s.prev else (s.rest.take w).getLast?,
    rest := s.rest.drop w,
    caps := s.caps }

/-- The position after one rune of the class `p`, if the text goes on with one. -/
def MState.step (p : Nat → Bool) (s : MState) : Option MState :=
  match s.rest with
  | [] => none
  | b :: t =>
    if p (DecodeRuneInString (b :: t)).1 then
      some (s.skip (DecodeRuneInString (b :: t)).2)
    else none

/-- The positions reached from `s` by 0, 1, 2, ... runes of the class `p`, at
most `n` of them. -/
def spans (p : Nat → Bool) : Nat → MState → List MState
  | 0, s => [s]
  | n + 1, s =>
    s :: (match s.step p with
          | none => []
          | some s2 => spans p n s2)

/-- The text between the position `s` and the later position `e`. -/
def between (s e : MState) : GoString := s.rest.take (s.rest.length - e.rest.length)

/-- The positions at which a match of the pattern that starts at `s` can end,
in the order in which a backtracking search finds them. -/
def Re.run : Re → MState → List MState
  | Re.empty, s => [s]
  | Re.chr p, s => (s.step p).toList
  | Re.bol, s => if s.prev = none ∨ s.prev = some 0x0A then [s] else []
  | Re.eol, s => if s.rest = [] ∨ s.rest.head? = some 0x0A then [s] else []
  | Re.seq a b, s => (a.run s).flatMap b.run
  | Re.alt a b, s => a.run s ++ b.run s
  | Re.rep p min max greedy, s =>
    if greedy then ((spans p (max.getD s.rest.length) s).drop min).reverse
    else (spans p (max.getD s.rest.length) s).drop min
  | Re.opt r, s => r.run s ++ [s]
  | Re.group i r, s => (r.run s).map (fun e => { e with caps := (i, between s e) :: e.caps })

/-- The text captured by the group `i` in a match that ended at `e`; the empty
string when the group took no part. -/
def MState.cap (e : MState) (i : Nat) : GoString := (e.caps.lookup i).getD []

/-- The leftmost match at or after the position `s`: the text skipped before
it, the position where it starts and the position where it ends.  The search
moves on by one rune at a time; `fuel` is more than the number of bytes left. -/
def Re.find (re : Re) : Nat → MState → GoString → Option (GoString × MState × MState)
  | 0, _, _ => none
  | fuel + 1, s, skipped =>
    match (re.run { s with caps := [] }).head? with
    | some e => some (skipped, s, e)
    | none =>
      match s.rest with
      | [] => none
      | b :: t =>
        re.find fuel (s.skip (DecodeRuneInString (b :: t)).2)
          (skipped ++ (b :: t).take (DecodeRuneInString (b :: t)).2)

/-- The start of a text. -/
def MState.start (src : GoString) : MState := { prev := none, rest := src, caps := [] }

/-- The loop of `(*Regexp).replaceAll`: `gap` is the text between the end of
the last match and the position `s` where the search goes on (a rune, after
an empty match, or nothing), `st` is the state of the callback `repl`, which
gets the start and the end of each match.  A replacement is left out for an
empty match right after another match, and the search moves on by at least
one rune.  `none` is a panic of the callback. -/
def Re.replaceLoop {σ : Type} (re : Re) (repl : σ → MState → MState → Option (GoString × σ)) :
    Nat → σ → GoString → MState → Option (GoString × σ)
  | 0, st, gap, s => some (gap ++ s.rest, st)
  | fuel + 1, st, gap, s =>
    match re.find (s.rest.length + 1) s [] with
    | none => some (gap ++ s.rest, st)
    | some (skipped, m0, m1) =>
      match (if gap ≠ [] ∨ skipped ≠ [] ∨ m0.rest.length - m1.rest.length ≠ 0 ∨ m0.prev = none
             then repl st m0 m1 else some ([], st)) with
      | none => none
      | some (r, st2) =>
        if skipped = [] ∧ m0.rest.length - m1.rest.length = 0 then
          match s.rest with
          | [] => some (gap ++ r, st2)
          | b :: t =>
            (re.replaceLoop repl fuel st2 ((b :: t).take (DecodeRuneInString (b :: t)).2)
                (s.skip (DecodeRuneInString (b :: t)).2)).map
              (fun out => (gap ++ r ++ out.1, out.2))
        else
          (re.replaceLoop repl fuel st2 [] { m1 with caps := [] }).map
            (fun out => (gap ++ skipped ++ r ++ out.1, out.2))

/-- A piece of a replacement template: text, or `$i`. -/
inductive Piece where
  | text (t : GoString)
  | sub (i : Nat)

/-- `(*Regexp).expand` on a template: each `$i` becomes the text of group `i`. -/
def expand (tpl : List Piece) (e : MState) : GoString :=
  (tpl.map (fun piece => match piece with
    | Piece.text t => t
    | Piece.sub i => e.cap i)).flatten

/-- `re.ReplaceAllString(src, tpl)`. -/
def Re.ReplaceAllString (re : Re) (src : GoString) (tpl : List Piece) : GoString :=
  match re.replaceLoop (fun (_ : Unit) _ e => some (expand tpl e, ())) (src.length + 1) ()
      [] (MState.start src) with
  | some out => out.1
  | none => src

/-- `re.FindStringSubmatch(s)`: the end of the leftmost match, which holds the
groups; `none` is the nil slice returned when there is no match. -/
def Re.FindStringSubmatch (re : Re) (s : GoString) : Option MState :=
  (re.find (s.length + 1) (MState.start s) []).map (fun m => m.2.2)

/-- `re.ReplaceAllStringFunc(src, f)` for a callback with a state; the callback
gets the text of the match. -/
def Re.ReplaceAllStringFunc {σ : Type} (re : Re) (src : GoString)
    (f : σ → GoString → Option (GoString × σ)) (st : σ) : Option (GoString × σ) :=
  re.replaceLoop (fun st m0 m1 => f st (between m0 m1)) (src.length + 1) st [] (MState.start src)

/-- The class of one rune, given by its code. -/
def isRune (c : Nat) : Nat → Bool := fun r => r == c

/-- The class `.` without the flag `s`: any rune but the newline. -/
def dot : Nat → Bool := fun r => r != 0x0A

/-- The class `.` under the flag `s`: any rune. -/
def anyRune : Nat → Bool := fun _ => true

/-- The class `\s`: tab, newline, form feed, carriage return and space. -/
def reSpace : Nat → Bool := fun r => r == 0x09 || r == 0x0A || r == 0x0C || r == 0x0D || r == 0x20

/-- The class `\d`. -/
def reDigit : Nat → Bool := fun r => decide (0x30 ≤ r) && decide (r ≤ 0x39)

/-- The class `\w`: ASCII letters, digits and the underscore. -/
def reWord : Nat → Bool := fun r =>
  reDigit r || (decide (0x41 ≤ r) && decide (r ≤ 0x5A)) || (decide (0x61 ≤ r) && decide (r ≤ 0x7A))
    || r == 0x5F

/-- The patterns one after the other. -/
def Re.cat : List Re → Re
  | [] => Re.empty
  | [r] => r
  | r :: rest => Re.seq r (Re.cat rest)

/-- The pattern of a literal text of ASCII characters. -/
def Re.str (s : String) : Re := Re.cat ((lit s).map (fun b => Re.chr (isRune b.toNat)))

/-- `p*`. -/
def Re.star (p : Nat → Bool) : Re := Re.rep p 0 none true

/-- `p+`. -/
def Re.plus (p : Nat → Bool) : Re := Re.rep p 1 none true

/-- `p*?`. -/
def Re.starLazy (p : Nat → Bool) : Re := Re.rep p 0 none false

/-- `p+?`. -/
def Re.plusLazy (p : Nat → Bool) : Re := Re.rep p 1 none false

/-! ## Markdown for the terminal -/

/-- The escape sequence `\033[1m`. -/
def escBold : GoString := lit "\x1b[1m"

/-- The escape sequence `\033[3m`. -/
def escItalic : GoString := lit "\x1b[3m"

/-- The escape sequence `\033[90m`. -/
def escGrey : GoString := lit "\x1b[90m"

/-- The escape sequence `\033[0m`. -/
def escReset : GoString := lit "\x1b[0m"

/-- The pattern `(?m)^(#{1,6})\s+?(.*)$`. -/
def termHeader : Re :=
  Re.cat [Re.bol, Re.group 1 (Re.rep (isRune 0x23) 1 (some 6) true), Re.plusLazy reSpace,
    Re.group 2 (Re.star dot), Re.eol]

/-- The pattern `\*\*(.*?)\*\*`. -/
def termBoldStar : Re := Re.cat [Re.str "**", Re.group 1 (Re.starLazy dot), Re.str "**"]

/-- The pattern `__(.*?)__`. -/
def termBoldLine : Re := Re.cat [Re.str "__", Re.group 1 (Re.starLazy dot), Re.str "__"]

/-- The pattern `\*(.*?)\*`. -/
def termItalicStar : Re := Re.cat [Re.str "*", Re.group 1 (Re.starLazy dot), Re.str "*"]

/-- The pattern `_(.*?)_`. -/
def termItalicLine : Re := Re.cat [Re.str "_", Re.group 1 (Re.starLazy dot), Re.str "_"]

/-- The pattern `~~(.*?)~~`. -/
def termStrike : Re := Re.cat [Re.str "~~", Re.group 1 (Re.starLazy dot), Re.str "~~"]

/-- The pattern `(?m)^( *)(\* |\+ |- |[1-9]+\. )(.*)$`. -/
def termItem : Re :=
  Re.cat [Re.bol, Re.group 1 (Re.star (isRune 0x20)),
    Re.group 2 (Re.alt (Re.str "* ") (Re.alt (Re.str "+ ") (Re.alt (Re.str "- ")
      (Re.seq (Re.plus (fun r => decide (0x31 ≤ r) && decide (r ≤ 0x39))) (Re.str ". "))))),
    Re.group 3 (Re.star dot), Re.eol]

/-- The pattern `(?m)^( *>+ .*)$`. -/
def termQuote : Re :=
  Re.cat [Re.bol,
    Re.group 1 (Re.cat [Re.star (isRune 0x20), Re.plus (isRune 0x3E), Re.chr (isRune 0x20),
      Re.star dot]),
    Re.eol]

/-- The pattern ``(?m)^ *```.*$``. -/
def termFence : Re :=
  Re.cat [Re.bol, Re.star (isRune 0x20), Re.str "```", Re.star dot, Re.eol]

/-- The pattern `` `([^`]+)` ``. -/
def inlineCode : Re :=
  Re.cat [Re.chr (isRune 0x60), Re.group 1 (Re.plus (fun r => r != 0x60)), Re.chr (isRune 0x60)]

/-- `func (iw *InkWell) MarkdownToTerm(content string) string`; `none` is a
panic (a nil `iw.Config`, or one inside `MdTableToTerm`). -/
def MarkdownToTerm (iw : InkWell) (content : GoString) : Option GoString :=
  let content := termHeader.ReplaceAllString content
    [Piece.text escBold, Piece.sub 2, Piece.text escReset]
  let content := termBoldStar.ReplaceAllString content
    [Piece.text escBold, Piece.sub 1, Piece.text escReset]
  let content := termBoldLine.ReplaceAllString content
    [Piece.text escBold, Piece.sub 1, Piece.text escReset]
  let content := termItalicStar.ReplaceAllString content
    [Piece.text escItalic, Piece.sub 1, Piece.text escReset]
  let content := termItalicLine.ReplaceAllString content
    [Piece.text escItalic, Piece.sub 1, Piece.text escReset]
  let content := termStrike.ReplaceAllString content
    [Piece.text escItalic, Piece.sub 1, Piece.text escReset]
  let content := termItem.ReplaceAllString content
    [Piece.sub 1, Piece.text escBold, Piece.sub 2, Piece.text escReset, Piece.sub 3]
  let content := termQuote.ReplaceAllString content
    [Piece.text escGrey, Piece.sub 1, Piece.text escReset]
  let content := termFence.ReplaceAllString content []
  let content := inlineCode.ReplaceAllString content
    [Piece.text escBold, Piece.sub 1, Piece.text escReset]
  match iw.Config with
  | none => none
  | some cfg =>
    if cfg.DisplayStyle = lit "markdown_table" then MdTableToTerm content else some content

/-! ## Markdown for HTML -/

/-- `func htmlEscape(s string) string`: the replacer of `strings.NewReplacer`
on the five characters, each a single byte. -/
def htmlEscape (s : GoString) : GoString :=
  (s.map (fun b =>
    if b = 0x26 then lit "&amp;"
    else if b = 0x3C then lit "&lt;"
    else if b = 0x3E then lit "&gt;"
    else if b = 0x22 then lit "&quot;"
    else if b = 0x27 then lit "&#39;"
    else [b])).flatten

/-- `strings.ReplaceAll(s, " ", "&nbsp;")`. -/
def nbspSpaces (s : GoString) : GoString :=
  (s.map (fun b => if b = 0x20 then lit "&nbsp;" else [b])).flatten

/-- The loop of `strings.ReplaceAll(s, old, new)` for a non-empty `old`, over
the text still to read; `fuel` is at least its length. -/
def replaceAux (old new : GoString) : Nat → GoString → GoString
  | 0, s => s
  | _ + 1, [] => []
  | fuel + 1, b :: t =>
    if old.isPrefixOf (b :: t) then new ++ replaceAux old new fuel ((b :: t).drop old.length)
    else b :: replaceAux old new fuel t

/-- `strings.ReplaceAll(s, old, new)`: the occurrences of `old` that do not
overlap, from the left, become `new`; an empty `old` matches before every
rune and at the end. -/
def ReplaceAll (s old new : GoString) : GoString :=
  if old = [] then new ++ ((runes s).map (fun seg => seg.2 ++ new)).flatten
  else replaceAux old new s.length s

/-- The pattern ``(?s)```(?:([\w\-\+]*)\n)?(.*?)``` `` of `reCodeBlock`. -/
def reCodeBlock : Re :=
  Re.cat [Re.str "```",
    Re.opt (Re.seq (Re.group 1 (Re.star (fun r => reWord r || r == 0x2D || r == 0x2B)))
      (Re.chr (isRune 0x0A))),
    Re.group 2 (Re.starLazy anyRune), Re.str "```"]

/-- The pattern `(?m)^(#{1,6})\\s+(.+)$` of `reHeader`, a raw string: after
the `#` it asks for a backslash and one or more letters `s`. -/
def reHeader : Re :=
  Re.cat [Re.bol, Re.group 1 (Re.rep (isRune 0x23) 1 (some 6) true), Re.chr (isRune 0x5C),
    Re.plus (isRune 0x73), Re.group 2 (Re.plus dot), Re.eol]

/-- The pattern `\*\*(.+?)\*\*|__(.+?)__` of `reBold`. -/
def reBold : Re :=
  Re.alt (Re.cat [Re.str "**", Re.group 1 (Re.plusLazy dot), Re.str "**"])
    (Re.cat [Re.str "__", Re.group 2 (Re.plusLazy dot), Re.str "__"])

/-- The pattern `\*(.+?)\*|_(.+?)_` of `reItalic`. -/
def reItalic : Re :=
  Re.alt (Re.cat [Re.str "*", Re.group 1 (Re.plusLazy dot), Re.str "*"])
    (Re.cat [Re.str "_", Re.group 2 (Re.plusLazy dot), Re.str "_"])

/-- The pattern `~~(.+?)~~` of `reStrike`. -/
def reStrike : Re := Re.cat [Re.str "~~", Re.group 1 (Re.plusLazy dot), Re.str "~~"]

/-- The pattern `(?m)^\s*[\*\-]\s+(.+)$` of `reUL`. -/
def reUL : Re :=
  Re.cat [Re.bol, Re.star reSpace, Re.chr (fun r => r == 0x2A || r == 0x2D), Re.plus reSpace,
    Re.group 1 (Re.plus dot), Re.eol]

/-- The pattern `(?m)^\s*(\d+)\.\s+(.+)$` of `reOL`. -/
def reOL : Re :=
  Re.cat [Re.bol, Re.star reSpace, Re.group 1 (Re.plus reDigit), Re.chr (isRune 0x2E),
    Re.plus reSpace, Re.group 2 (Re.plus dot), Re.eol]

/-- The pattern `(?m)^\s*>\s+(.+)$` of `reQuote`. -/
def reQuote : Re :=
  Re.cat [Re.bol, Re.star reSpace, Re.chr (isRune 0x3E), Re.plus reSpace,
    Re.group 1 (Re.plus dot), Re.eol]

/-- The pattern `\[(.+?)\]\((.+?)\)` of `reLink`. -/
def reLink : Re :=
  Re.cat [Re.chr (isRune 0x5B), Re.group 1 (Re.plusLazy dot), Re.str "](",
    Re.group 2 (Re.plusLazy dot), Re.chr (isRune 0x29)]

/-- An entry of the map `codeBlocks`. -/
structure CodeBlock where
  lang : GoString
  code : GoString
deriving DecidableEq, Repr

/-- The map `codeBlocks`, as the list of its keys with their values. -/
abbrev CodeMap := List (GoString × CodeBlock)

/-- The assignment `codeBlocks[key] = block`. -/
def CodeMap.set (m : CodeMap) (key : GoString) (block : CodeBlock) : CodeMap :=
  if m.any (fun e => decide (e.1 = key)) then
    m.map (fun e => if e.1 = key then (key, block) else e)
  else m ++ [(key, block)]

/-- The callback given to `reCodeBlock.ReplaceAllStringFunc`: `st.1` counts the
calls of `generateUID` so far, and `uid n` is what its call of number `n`
returns.  `none` is the panic of `parts[1]` on a nil slice. -/
def extractBlock (uid : Nat → GoString) (st : Nat × CodeMap) (m : GoString) :
    Option (GoString × (Nat × CodeMap)) :=
  match reCodeBlock.FindStringSubmatch m with
  | none => none
  | some parts =>
    some (lit "[[CODEBLOCK" ++ uid st.1 ++ lit "]]",
      (st.1 + 1,
       st.2.set (lit "[[CODEBLOCK" ++ uid st.1 ++ lit "]]")
         { lang := TrimSpace (parts.cap 1), code := parts.cap 2 }))

/-- The callback given to `reHeader.ReplaceAllStringFunc`. -/
def headerHtml (m : GoString) : Option GoString :=
  match reHeader.FindStringSubmatch m with
  | none => none
  | some parts =>
    some (lit "<h" ++ fmtInt (parts.cap 1).length ++ lit ">" ++ TrimSpace (parts.cap 2)
      ++ lit "</h" ++ fmtInt (parts.cap 1).length ++ lit ">")

/-- The callback given to `reBold.ReplaceAllStringFunc` and, with the tag
`em`, to `reItalic.ReplaceAllStringFunc`. -/
def emphasisHtml (re : Re) (tag : GoString) (m : GoString) : Option GoString :=
  match re.FindStringSubmatch m with
  | none => none
  | some parts =>
    if parts.cap 1 ≠ [] then some (lit "<" ++ tag ++ lit ">" ++ parts.cap 1 ++ lit "</" ++ tag ++ lit ">")
    else some (lit "<" ++ tag ++ lit ">" ++ parts.cap 2 ++ lit "</" ++ tag ++ lit ">")

/-- The body of the loop that wraps the lines in paragraphs. -/
def wrapLine (line : GoString) : GoString :=
  if TrimSpace line = [] then line
  else if HasPrefix (TrimSpace line) (lit "<h") || HasPrefix (TrimSpace line) (lit "<pre")
      || HasPrefix (TrimSpace line) (lit "<blockquote")
      || HasPrefix (TrimSpace line) (lit "<div>")
      || HasPrefix (TrimSpace line) (lit "<table") then line
  else lit "<div>" ++ TrimSpace line ++ lit "</div>"

/-- `fmt.Sprintf(codeTpl, langAttr, escaped)` for the two templates. -/
def codeHtml (wrapCode : Bool) (langAttr escaped : GoString) : GoString :=
  if wrapCode then
    lit ("<table border=\"1\" bordercolor=\"silver\" cellspacing=\"0\" width=\"100%\" "
        ++ "style=\"background-color:#f9f9f9;border:1px solid silver;\">\n"
        ++ "\t\t<tr><td style=\"padding:10px;\"><pre><code class=\"")
      ++ langAttr ++ lit "\">" ++ escaped ++ lit "</code></pre></td></tr></table>"
  else
    lit "<pre style=\"border:1px solid silver;padding:10px;background-color:#f9f9f9;\"><code"
      ++ langAttr ++ lit ">" ++ escaped ++ lit "</code></pre>"

/-- The loop `for uid, block := range codeBlocks` over the entries in the
order in which they are visited. -/
def restoreBlocks (wrapCode : Bool) : CodeMap → GoString → GoString
  | [], content => content
  | (key, block) :: rest, content =>
    restoreBlocks wrapCode rest
      (ReplaceAll content key
        (codeHtml wrapCode (if block.lang ≠ [] then lit "lang" else block.lang)
          (nbspSpaces (htmlEscape block.code))))

/-- A step of `MarkdownToHtml` that may panic, applied to the text so far. -/
def thenFunc (re : Re) (f : GoString → Option GoString) (content : Option GoString) :
    Option GoString :=
  match content with
  | none => none
  | some c =>
    (re.ReplaceAllStringFunc c (fun (_ : Unit) m => (f m).map (fun r => (r, ()))) ()).map
      (fun out => out.1)

/-- `func (iw *InkWell) MarkdownToHtml(content string, wrapCode bool) string`
(the receiver is not used).  `uid n` is what the call of number `n` of
`generateUID` returns, `visit` gives the order in which `range` visits the
map `codeBlocks`, which the language leaves open; `none` is a panic. -/
def MarkdownToHtml (uid : Nat → GoString) (visit : CodeMap → CodeMap) (content : GoString)
    (wrapCode : Bool) : Option GoString :=
  match reCodeBlock.ReplaceAllStringFunc content (extractBlock uid) (0, []) with
  | none => none
  | some (content, _, codeBlocks) =>
    let content := inlineCode.ReplaceAllString content
      [Piece.text (lit "<code>"), Piece.sub 1, Piece.text (lit "</code>")]
    let content := reLink.ReplaceAllString content
      [Piece.text (lit "<a href=\""), Piece.sub 2, Piece.text (lit "\">"), Piece.sub 1,
       Piece.text (lit "</a>")]
    let content := thenFunc reHeader headerHtml (some content)
    let content := content.map (fun c => reQuote.ReplaceAllString c
      [Piece.text (lit "<blockquote>"), Piece.sub 1, Piece.text (lit "</blockquote>")])
    let content := content.map (fun c => reUL.ReplaceAllString c
      [Piece.text (lit "<div><strong>• </strong>"), Piece.sub 1, Piece.text (lit "</div>")])
    let content := content.map (fun c => reOL.ReplaceAllString c
      [Piece.text (lit "<div><strong>"), Piece.sub 1, Piece.text (lit ". </strong>"),
       Piece.sub 2, Piece.text (lit "</div>")])
    let content := thenFunc reBold (emphasisHtml reBold (lit "strong")) content
    let content := thenFunc reItalic (emphasisHtml reItalic (lit "em")) content
    let content := content.map (fun c => reStrike.ReplaceAllString c
      [Piece.text (lit "<s>"), Piece.sub 1, Piece.text (lit "</s>")])
    let content := content.map (fun c => Join ((Split c 0x0A).map wrapLine) (lit "\n"))
    content.map (fun c => restoreBlocks wrapCode (visit codeBlocks) c)

/-- A session whose display style is `markdown`, the default one. -/
def markdownSession : InkWell :=
  { talkSession with Config := some { demoConfig with DisplayStyle := lit "markdown" } }

/-- A first identifier that `generateUID` can return. -/
def uidA : Nat → GoString := fun _ => lit "k3Xw9PqLm2ZtR7vB"

/-- A second identifier that `generateUID` can return. -/
def uidB : Nat → GoString := fun _ => lit "Yd81sHcN4uJe0GfA"

/-! ## Notions used in the statements -/

/-- The provider names that `Chat` sends to `openaiChat`. -/
def openaiFamily : List GoString :=
  [lit "openai", lit "xai", lit "mistral", lit "groq", lit "perplexity", lit "alibaba"]

/-- The provider names that `Chat` handles. -/
def supportedNames : List GoString :=
  openaiFamily ++ [lit "google", lit "anthropic"]

/-- The host used by the back end of a provider when `NextHost` returns `""`:
`googleChat` and `anthropicChat` take their own entry of `AIList`, `openaiChat`
takes the entry `openai` for every provider it serves. -/
def fallbackHost (name : GoString) : GoString :=
  if name = lit "google" then AIListHost (lit "google")
  else if name = lit "anthropic" then AIListHost (lit "anthropic")
  else AIListHost (lit "openai")

/-- The cursor of a non-empty sequence points into it. -/
def cursorOk (xs : List GoString) (i : Int) : Prop :=
  xs = [] ∨ (0 ≤ i ∧ i < (xs.length : Int))

/-- The test of the retry loop: the error text names `EOF` or a reset connection. -/
def transient (e : GoString) : Bool :=
  Contains e (lit "EOF") || Contains e (lit "connection reset")

/-- The provider after the two rotations differs from the one before only in
its cursors. -/
def sameConfig (p p2 : SimpleAiProvider) : Prop :=
  p2.Name = p.Name ∧ p2.ApiKeys = p.ApiKeys ∧ p2.Model = p.Model ∧ p2.Hosts = p.Hosts ∧
    p2.SingleTurn = p.SingleTurn

/-- The label of an earlier message as the single-turn rule words it:
`background` for `system`, `Your response` for `assistant`, `I asked` for
every other role. -/
def singleTurnLabel (role : GoString) : GoString :=
  if role = lit "system" then lit "background"
  else if role = lit "assistant" then lit "Your response"
  else lit "I asked"

/-- The single-turn text as the rule words it, for the messages `earlier`
followed by the message `last`. -/
def singleTurnText (earlier : List ChatItem) (last : ChatItem) : GoString :=
  Join ([lit "Previous conversations:\n"]
      ++ earlier.map (fun m => singleTurnLabel m.Role ++ lit ":\n" ++ m.Content ++ lit "\n")
      ++ [lit "\nPlease continue this conversation based on the previous information:\n",
          lit "I ask:", last.Content, lit "You Response:\n"]) (lit "\n")

/-! ## Notions used for runes and fields -/

/-- The first byte after the string, if there is one, is not a continuation byte. -/
def leadOk (t : GoString) : Prop :=
  ∀ b tl, t = b :: tl → inRange b 0x80 0xBF = false

/-- A sequence of runes with bytes that is the segmentation of its own bytes. -/
def coherent (L : List Seg) : Prop := runes (bytesOf L) = L

/-- A field: a non-empty string none of whose runes is white space. -/
def Word (w : GoString) : Prop := w ≠ [] ∧ ∀ seg ∈ runes w, segSpace seg = false

/-- The field being read, as `fieldsAux` holds it, for the runes `g` read so far. -/
def curOf (g : List Seg) : Option GoString := if g = [] then none else some (bytesOf g)

/-- The runes of a non-empty sequence are not empty and neither the first nor
the last of them is white space. -/
def edgesOk (L : List Seg) : Prop :=
  L ≠ [] ∧ (∀ seg, L.head? = some seg → segSpace seg = false) ∧
    (∀ seg, L.getLast? = some seg → segSpace seg = false)

/-! ## Notions used for the session -/

/-- A provider on which `Chat` cannot panic: the cursors point into their
sequences and, for the two back ends that discard the error of
`http.NewRequest`, the request can be made. -/
def providerOk (env : Env) (p : SimpleAiProvider) : Prop :=
  cursorOk p.Hosts p.HostIdx ∧ cursorOk p.ApiKeys p.ApiKeyIdx ∧
    (p.Name = lit "google" ∨ p.Name = lit "anthropic" → ∀ u, env.newRequestErr u = none)

/-- A session as `Start` runs it: the configuration is loaded, the slice
`Messages` lies inside its array and the provider, if any, cannot panic. -/
def sessionOk (env : Env) (iw : InkWell) : Prop :=
  iw.Config ≠ none ∧ validSlice iw.mem iw.Messages ∧
    ∀ p, iw.Provider = some p → providerOk env p

/-- The message list is not empty and its first message has role `system`. -/
def SystemFirst (iw : InkWell) : Prop :=
  ∃ first rest, iw.msgs = first :: rest ∧ first.Role = lit "system"

/-- The slice `s[1:]` of a slice with at least one element. -/
def tailSlice (s : MsgSlice) : MsgSlice :=
  { arr := s.arr, off := s.off + 1, len := s.len - 1, cap := s.cap - 1 }

/-- The history entry made of the active conversation: its topic, its prompt
name and its messages after the system prompt. -/
def archivedEntry (iw : InkWell) : HistoryItem :=
  { Topic := iw.CurrTopic, Prompt := iw.PromptName, Messages := tailSlice iw.Messages }

/-- The history with the active conversation merged in, before it is cut to
the maximum: the messages of the last entry are replaced when that entry has
the current topic, otherwise a new entry is appended. -/
def mergedHistory (iw : InkWell) : List HistoryItem :=
  match iw.History.getLast? with
  | some e =>
    if e.Topic = iw.CurrTopic then
      iw.History.dropLast ++ [{ e with Messages := tailSlice iw.Messages }]
    else iw.History ++ [archivedEntry iw]
  | none => iw.History ++ [archivedEntry iw]

/-- The last `m` entries of a history (all of them when there are no more than `m`). -/
def lastEntries (m : Nat) (h : List HistoryItem) : List HistoryItem := h.drop (h.length - m)

/-- The condition under which `AddCurrentConvToHistory` returns at once. -/
def archiveSkipped (iw : InkWell) (cfg : AppConfig) : Prop :=
  cfg.MaxHistory ≤ 0 ∨ iw.CurrTopic = [] ∨ iw.CurrTopic = DefaultTopic ∨ iw.Messages.len < 2

/-- The topic of an entry with the messages it reads in the store. -/
def entryView (mem : Store) (e : HistoryItem) : GoString × List ChatItem :=
  (e.Topic, readSlice mem e.Messages)

/-! ## Notions used for ranges -/

/-- The numbers `i, i+1, ...`, `n` of them. -/
def countUp : Nat → Int → List Int
  | 0, _ => []
  | n + 1, i => i :: countUp n (i + 1)

/-- The numbers `i, i-1, ...`, `n` of them. -/
def countDown : Nat → Int → List Int
  | 0, _ => []
  | n + 1, i => i :: countDown n (i - 1)

/-- A string of one or more decimal digits that writes an `int` of `w` bits. -/
def Numeral (w : Nat) (ds : GoString) : Prop :=
  ds ≠ [] ∧ (∀ b ∈ ds, isDigit b = true) ∧ digitsVal ds < 2 ^ (w - 1)

/-- An item of a list of ranges: a number, a range `a-b`, or a text that does
not parse. -/
inductive RangeItem where
  | num (n : GoString)
  | span (a b : GoString)
  | other (e : GoString)

/-- The text of an item. -/
def RangeItem.text : RangeItem → GoString
  | RangeItem.num n => n
  | RangeItem.span a b => a ++ lit "-" ++ b
  | RangeItem.other e => e

/-- The numbers an item stands for: `n` itself, `a, a+1, ..., b` when
`a <= b`, `a, a-1, ..., b` when `a > b`, nothing for a text that does not parse. -/
def RangeItem.values : RangeItem → List Int
  | RangeItem.num n => [(digitsVal n : Int)]
  | RangeItem.span a b =>
    if digitsVal a ≤ digitsVal b then
      (List.range (digitsVal b - digitsVal a + 1)).map (fun k => ((digitsVal a + k : Nat) : Int))
    else
      (List.range (digitsVal a - digitsVal b + 1)).map (fun k => ((digitsVal a - k : Nat) : Int))
  | RangeItem.other _ => []

/-- The items on which the loops end: numbers and bounds are numerals, a
number alone or the end of a range going up is not the largest `int`, and an
item that does not parse has no comma and one of its two parts is refused by
`Atoi`. -/
def RangeItem.ok (w : Nat) : RangeItem → Prop
  | RangeItem.num n => Numeral w n ∧ digitsVal n < 2 ^ (w - 1) - 1
  | RangeItem.span a b =>
    Numeral w a ∧ Numeral w b ∧ (digitsVal a ≤ digitsVal b → digitsVal b < 2 ^ (w - 1) - 1)
  | RangeItem.other e =>
    (0x2C : UInt8) ∉ e ∧
      (Atoi w ((SplitN2 e 0x2D).headD []) = none ∨
       Atoi w (if (SplitN2 e 0x2D).length = 2 then (SplitN2 e 0x2D).getD 1 []
             else (SplitN2 e 0x2D).headD []) = none)

/-! ## Notions used for tables -/

/-- A row of cells that stands for a rule: every cell is made of `-`, spaces
and `:` only. -/
def isRule (cells : List GoString) : Bool :=
  cells.all (fun cell => decide (Trim cell (lit "- :") = []))

/-- A row of a rendered table: the cells padded to the widths of their
columns, each in bold when `bold` is set, between bars. -/
def rowText (widths : List Nat) (cells : List GoString) (bold : Bool) : GoString :=
  lit "| "
    ++ Join (List.zipWith
        (fun w cell => if bold then Bold (padRight w cell) else padRight w cell) widths cells)
        (lit " | ")
    ++ lit " |"

/-- The rule of a rendered table. -/
def ruleText (widths : List Nat) : GoString :=
  lit "+-" ++ Join (widths.map (fun w => Repeat (lit "-") w)) (lit "-+-") ++ lit "-+"

/-- The lines of a rendered table: a rule for every row that stands for one,
and the other rows padded, the first of them in bold (`headed` tells that it
has been passed). -/
def runLines (widths : List Nat) : List (List GoString) → Bool → List GoString
  | [], _ => []
  | cells :: rest, headed =>
    if isRule cells then ruleText widths :: runLines widths rest headed
    else rowText widths cells (!headed) :: runLines widths rest true

/-- The lines are not table rows of `MdTableToTerm`. -/
def plainLines (ls : List GoString) : Prop := ∀ l ∈ ls, isPipeRow l = false

/-- The lines are table rows of `MdTableToTerm` with `c` cells each. -/
def tableRun (c : Nat) (run : List GoString) : Prop :=
  ∀ r ∈ run, isPipeRow r = true ∧ (termCells r).length = c

/-! ## Notions used for markdown -/

/-- A text of ASCII characters. -/
def asciiText (t : GoString) : Prop := ∀ b ∈ t, b.toNat < 0x80

/-- Every match of the pattern holds a rune of the class `P`. -/
def Re.needs (P : Nat → Bool) : Re → Prop
  | Re.empty => False
  | Re.chr p => ∀ r, p r = true → P r = true
  | Re.bol => False
  | Re.eol => False
  | Re.seq a b => a.needs P ∨ b.needs P
  | Re.alt a b => a.needs P ∧ b.needs P
  | Re.rep p min _ _ => 0 < min ∧ ∀ r, p r = true → P r = true
  | Re.opt _ => False
  | Re.group _ r => r.needs P

/-- An ASCII letter. -/
def isLetter (b : UInt8) : Bool :=
  (decide (0x41 ≤ b.toNat) && decide (b.toNat ≤ 0x5A))
    || (decide (0x61 ≤ b.toNat) && decide (b.toNat ≤ 0x7A))

/-- A text with no markdown syntax: letters, spaces and newlines only. -/
def plainText (x : GoString) : Prop := ∀ b ∈ x, isLetter b = true ∨ b = 0x20 ∨ b = 0x0A

/-- A byte that is a white-space rune by itself. -/
def spaceByte (b : UInt8) : Bool := IsSpace b.toNat

/-- A byte of a text of letters, spaces and newlines once its lines are in
`<div>` containers: those, and `<`, `>`, `/`. -/
def htmlByte (b : UInt8) : Prop :=
  isLetter b = true ∨ b = 0x20 ∨ b = 0x0A ∨ b = 0x3C ∨ b = 0x3E ∨ b = 0x2F

/-- A line in its paragraph container: a blank line is left alone, any other
line is trimmed and put between `<div>` and `</div>`. -/
def paraLine (l : GoString) : GoString :=
  if TrimSpace l = [] then l else lit "<div>" ++ TrimSpace l ++ lit "</div>"

/-- The lines of a text, each in its paragraph container. -/
def paragraphs (x : GoString) : GoString := Join ((Split x 0x0A).map paraLine) (lit "\n")

/-- After white space at its start the text does not go on with `>`. -/
def quoteFree (t : GoString) : Prop :=
  ∀ pre post, t = pre ++ post → (∀ b ∈ pre, reSpace b.toNat = true) → post.head? ≠ some 0x3E

/-- A line of spaces only, or a line that starts with `<`; no newline in it. -/
def boxedLine (m : GoString) : Prop :=
  (0x0A : UInt8) ∉ m ∧ ((∀ b ∈ m, b = 0x20) ∨ ∃ t, m = 0x3C :: t)

/-! # Verified properties -/

/-! ## Rotation lemmas -/

theorem goIndex_natCast {α : Type} (xs : List α) (j : Nat) :
    goIndex xs (j : Int) = xs[j]? := by
  simp [goIndex]

theorem tmod_succ_natCast (j n : Nat) :
    Int.tmod ((j : Int) + 1) (n : Int) = (((j + 1) % n : Nat) : Int) := by
  have h : ((j : Int) + 1) = ((j + 1 : Nat) : Int) := by push_cast; rfl
  rw [h]
  exact (Int.ofNat_tmod (j + 1) n).symm

theorem NextHost_at (p : SimpleAiProvider) (j : Nat) (hj : j < p.Hosts.length)
    (hidx : p.HostIdx = (j : Int)) :
    NextHost p = some (p.Hosts.getD j [],
      { p with HostIdx := (((j + 1) % p.Hosts.length : Nat) : Int) }) := by
  have hne : p.Hosts.length ≠ 0 := by omega
  simp [NextHost, hne, hidx, goIndex_natCast, List.getElem?_eq_getElem hj, tmod_succ_natCast,
    List.getD_eq_getElem?_getD]

theorem NextApiKey_at (p : SimpleAiProvider) (j : Nat) (hj : j < p.ApiKeys.length)
    (hidx : p.ApiKeyIdx = (j : Int)) :
    NextApiKey p = some (p.ApiKeys.getD j [],
      { p with ApiKeyIdx := (((j + 1) % p.ApiKeys.length : Nat) : Int) }) := by
  have hne : p.ApiKeys.length ≠ 0 := by omega
  simp [NextApiKey, hne, hidx, goIndex_natCast, List.getElem?_eq_getElem hj, tmod_succ_natCast,
    List.getD_eq_getElem?_getD]

theorem callsNextHost_from (k : Nat) : ∀ (p : SimpleAiProvider) (j : Nat),
    j < p.Hosts.length → p.HostIdx = (j : Int) →
    callsNextHost k p =
      some ((List.range k).map (fun i => p.Hosts.getD ((j + i) % p.Hosts.length) []),
        { p with HostIdx := (((j + k) % p.Hosts.length : Nat) : Int) }) := by
  induction k with
  | zero =>
    intro p j hj hidx
    simp [callsNextHost, Nat.mod_eq_of_lt hj, ← hidx]
  | succ k ih =>
    intro p j hj hidx
    have hpos : 0 < p.Hosts.length := by omega
    have hlt : (j + 1) % p.Hosts.length < p.Hosts.length := Nat.mod_lt _ hpos
    rw [callsNextHost, NextHost_at p j hj hidx]
    simp only []
    have h := ih { p with HostIdx := (((j + 1) % p.Hosts.length : Nat) : Int) }
      ((j + 1) % p.Hosts.length) hlt rfl
    simp only [] at h
    rw [h]
    simp only [List.range_succ_eq_map, List.map_cons, List.map_map, Nat.add_zero,
      Nat.mod_eq_of_lt hj, Option.some.injEq, Prod.mk.injEq, List.cons.injEq, true_and]
    constructor
    · apply List.map_congr_left
      intro i _
      simp only [Function.comp, Nat.succ_eq_add_one]
      congr 1
      rw [Nat.add_mod, Nat.mod_mod, ← Nat.add_mod]
      congr 1
      omega
    · congr 2
      rw [Nat.add_mod, Nat.mod_mod, ← Nat.add_mod]
      congr 1
      omega

theorem callsNextApiKey_from (k : Nat) : ∀ (p : SimpleAiProvider) (j : Nat),
    j < p.ApiKeys.length → p.ApiKeyIdx = (j : Int) →
    callsNextApiKey k p =
      some ((List.range k).map (fun i => p.ApiKeys.getD ((j + i) % p.ApiKeys.length) []),
        { p with ApiKeyIdx := (((j + k) % p.ApiKeys.length : Nat) : Int) }) := by
  induction k with
  | zero =>
    intro p j hj hidx
    simp [callsNextApiKey, Nat.mod_eq_of_lt hj, ← hidx]
  | succ k ih =>
    intro p j hj hidx
    have hpos : 0 < p.ApiKeys.length := by omega
    have hlt : (j + 1) % p.ApiKeys.length < p.ApiKeys.length := Nat.mod_lt _ hpos
    rw [callsNextApiKey, NextApiKey_at p j hj hidx]
    simp only []
    have h := ih { p with ApiKeyIdx := (((j + 1) % p.ApiKeys.length : Nat) : Int) }
      ((j + 1) % p.ApiKeys.length) hlt rfl
    simp only [] at h
    rw [h]
    simp only [List.range_succ_eq_map, List.map_cons, List.map_map, Nat.add_zero,
      Nat.mod_eq_of_lt hj, Option.some.injEq, Prod.mk.injEq, List.cons.injEq, true_and]
    constructor
    · apply List.map_congr_left
      intro i _
      simp only [Function.comp, Nat.succ_eq_add_one]
      congr 1
      rw [Nat.add_mod, Nat.mod_mod, ← Nat.add_mod]
      congr 1
      omega
    · congr 2
      rw [Nat.add_mod, Nat.mod_mod, ← Nat.add_mod]
      congr 1
      omega

/-! ## Shape of a call -/

theorem NextHost_ok (p : SimpleAiProvider) (h : cursorOk p.Hosts p.HostIdx) :
    ∃ host i, NextHost p = some (host, { p with HostIdx := i }) ∧
      (p.Hosts = [] → host = [] ∧ i = p.HostIdx) := by
  rcases h with h | ⟨h0, h1⟩
  · exact ⟨[], p.HostIdx, by rw [NextHost, if_pos (by simp [h])], fun _ => ⟨rfl, rfl⟩⟩
  · have hj : p.HostIdx.toNat < p.Hosts.length := by omega
    have hidx : p.HostIdx = (p.HostIdx.toNat : Int) := by omega
    refine ⟨_, _, NextHost_at p _ hj hidx, ?_⟩
    intro hnil
    rw [hnil] at hj
    simp at hj

theorem NextApiKey_ok (p : SimpleAiProvider) (h : cursorOk p.ApiKeys p.ApiKeyIdx) :
    ∃ key i, NextApiKey p = some (key, { p with ApiKeyIdx := i }) ∧
      (p.ApiKeys = [] → key = [] ∧ i = p.ApiKeyIdx) := by
  rcases h with h | ⟨h0, h1⟩
  · exact ⟨[], p.ApiKeyIdx, by rw [NextApiKey, if_pos (by simp [h])], fun _ => ⟨rfl, rfl⟩⟩
  · have hj : p.ApiKeyIdx.toNat < p.ApiKeys.length := by omega
    have hidx : p.ApiKeyIdx = (p.ApiKeyIdx.toNat : Int) := by omega
    refine ⟨_, _, NextApiKey_at p _ hj hidx, ?_⟩
    intro hnil
    rw [hnil] at hj
    simp at hj

/-- The four ways the retry loop of `openaiChat` can run. -/
theorem openaiLoop_cases (env : Env) (req : Request) (host : GoString) (log : Log) :
    (∃ c b, env.net log.length req = NetResult.resp c b ∧
        openaiLoop env req host maxRetries 0 log = (LoopEnd.got c b, log ++ [req])) ∨
    (∃ e, env.net log.length req = NetResult.err e ∧ transient e = false ∧
        openaiLoop env req host maxRetries 0 log =
          (LoopEnd.ret { Success := false, Content := [], Error := e, Host := host },
            log ++ [req])) ∨
    (∃ e c b, env.net log.length req = NetResult.err e ∧ transient e = true ∧
        env.net (log.length + 1) req = NetResult.resp c b ∧
        openaiLoop env req host maxRetries 0 log = (LoopEnd.got c b, log ++ [req, req])) ∨
    (∃ e e2, env.net log.length req = NetResult.err e ∧ transient e = true ∧
        env.net (log.length + 1) req = NetResult.err e2 ∧
        openaiLoop env req host maxRetries 0 log =
          (LoopEnd.ret { Success := false, Content := [], Error := e2, Host := host },
            log ++ [req, req])) := by
  cases h0 : env.net log.length req with
  | resp c b =>
    left
    exact ⟨c, b, rfl, by simp [openaiLoop, maxRetries, h0]⟩
  | err e =>
    right
    cases ht : transient e with
    | false =>
      left
      have ht2 : (Contains e (lit "EOF") || Contains e (lit "connection reset")) = false := ht
      refine ⟨e, rfl, ht, ?_⟩
      simp [openaiLoop, maxRetries, h0, ht2]
    | true =>
      right
      have ht2 : (Contains e (lit "EOF") || Contains e (lit "connection reset")) = true := ht
      cases h1 : env.net (log.length + 1) req with
      | resp c b =>
        left
        refine ⟨e, c, b, rfl, ht, rfl, ?_⟩
        simp [openaiLoop, maxRetries, h0, ht2, h1]
      | err e2 =>
        right
        refine ⟨e, e2, rfl, ht, rfl, ?_⟩
        by_cases ht3 : (Contains e2 (lit "EOF") || Contains e2 (lit "connection reset")) = true
        · simp [openaiLoop, maxRetries, h0, ht2, h1, ht3]
        · simp [openaiLoop, maxRetries, h0, ht2, h1, ht3]

theorem NextHost_some {p p1 : SimpleAiProvider} {h : GoString}
    (hs : NextHost p = some (h, p1)) :
    (∃ i, p1 = { p with HostIdx := i }) ∧ (p.Hosts = [] → h = []) := by
  unfold NextHost at hs
  split at hs
  · rename_i h0
    simp only [Option.some.injEq, Prod.mk.injEq] at hs
    exact ⟨⟨p.HostIdx, hs.2.symm⟩, fun _ => hs.1.symm⟩
  · rename_i h0
    split at hs
    · simp at hs
    · simp only [Option.some.injEq, Prod.mk.injEq] at hs
      refine ⟨⟨_, hs.2.symm⟩, fun hnil => ?_⟩
      simp [hnil] at h0

theorem NextApiKey_some {p p1 : SimpleAiProvider} {k : GoString}
    (hs : NextApiKey p = some (k, p1)) :
    (∃ i, p1 = { p with ApiKeyIdx := i }) ∧ (p.ApiKeys = [] → k = []) := by
  unfold NextApiKey at hs
  split at hs
  · rename_i h0
    simp only [Option.some.injEq, Prod.mk.injEq] at hs
    exact ⟨⟨p.ApiKeyIdx, hs.2.symm⟩, fun _ => hs.1.symm⟩
  · rename_i h0
    split at hs
    · simp at hs
    · simp only [Option.some.injEq, Prod.mk.injEq] at hs
      refine ⟨⟨_, hs.2.symm⟩, fun hnil => ?_⟩
      simp [hnil] at h0

/-- Every run of `openaiChat` either issues no request, or builds one request
and runs the retry loop on it in one of its four ways. -/
theorem openaiChat_shape (env : Env) (p : SimpleAiProvider) (messages : List ChatItem)
    (path : GoString) (log : Log) :
    (openaiChat env p messages path log).2.2 = log ∨
    ∃ p2 url apiKey host, sameConfig p p2 ∧
      (∃ host0, env.joinPath host0 path = Except.ok url ∧ (p.Hosts = [] →
          host0 = AIListHost (lit "openai") ∧ host = host0)) ∧
      (p.ApiKeys = [] → apiKey = []) ∧
      ((∃ c b, env.net log.length (openaiRequest p2 url apiKey messages) = NetResult.resp c b ∧
          openaiChat env p messages path log =
            (some (openaiResult env host c b), p2,
              log ++ [openaiRequest p2 url apiKey messages])) ∨
       (∃ e, env.net log.length (openaiRequest p2 url apiKey messages) = NetResult.err e ∧
          transient e = false ∧
          openaiChat env p messages path log =
            (some { Success := false, Content := [], Error := e, Host := host }, p2,
              log ++ [openaiRequest p2 url apiKey messages])) ∨
       (∃ e c b, env.net log.length (openaiRequest p2 url apiKey messages) = NetResult.err e ∧
          transient e = true ∧
          env.net (log.length + 1) (openaiRequest p2 url apiKey messages) = NetResult.resp c b ∧
          openaiChat env p messages path log =
            (some (openaiResult env host c b), p2,
              log ++ [openaiRequest p2 url apiKey messages,
                      openaiRequest p2 url apiKey messages])) ∨
       (∃ e e2, env.net log.length (openaiRequest p2 url apiKey messages) = NetResult.err e ∧
          transient e = true ∧
          env.net (log.length + 1) (openaiRequest p2 url apiKey messages) = NetResult.err e2 ∧
          openaiChat env p messages path log =
            (some { Success := false, Content := [], Error := e2, Host := host }, p2,
              log ++ [openaiRequest p2 url apiKey messages,
                      openaiRequest p2 url apiKey messages]))) := by
  cases h1 : NextHost p with
  | none => left; simp [openaiChat, h1]
  | some hp1 =>
    obtain ⟨host0, p1⟩ := hp1
    obtain ⟨⟨i, hi⟩, hh0⟩ := NextHost_some h1
    cases h2 : NextApiKey p1 with
    | none => left; simp [openaiChat, h1, h2]
    | some kp2 =>
      obtain ⟨apiKey, p2⟩ := kp2
      obtain ⟨⟨j, hj⟩, hk0⟩ := NextApiKey_some h2
      have hcfg : sameConfig p p2 := by
        subst hj; subst hi
        exact ⟨rfl, rfl, rfl, rfl, rfl⟩
      cases h3 : env.joinPath (if host0 = [] then AIListHost (lit "openai") else host0) path with
      | error e => left; simp [openaiChat, h1, h2, h3]
      | ok url =>
        cases h4 : env.newRequestErr url with
        | some e => left; simp [openaiChat, h1, h2, h3, h4]
        | none =>
          right
          refine ⟨p2, url, apiKey,
            (if p2.Hosts.length = 1 then [] else
              (if host0 = [] then AIListHost (lit "openai") else host0)), hcfg,
            ⟨_, h3, ?_⟩, ?_, ?_⟩
          · intro hnil
            have hp2 : p2.Hosts = [] := by rw [hcfg.2.2.2.1]; exact hnil
            simp [hh0 hnil, hp2]
          · intro hnil
            apply hk0
            subst hi
            exact hnil
          · rcases openaiLoop_cases env (openaiRequest p2 url apiKey messages)
              (if p2.Hosts.length = 1 then [] else
                (if host0 = [] then AIListHost (lit "openai") else host0)) log with
              ⟨c, b, hn, hl⟩ | ⟨e, hn, ht, hl⟩ | ⟨e, c, b, hn, ht, hn2, hl⟩ |
              ⟨e, e2, hn, ht, hn2, hl⟩
            · left
              exact ⟨c, b, hn, by simp [openaiChat, h1, h2, h3, h4, hl]⟩
            · right; left
              exact ⟨e, hn, ht, by simp [openaiChat, h1, h2, h3, h4, hl]⟩
            · right; right; left
              exact ⟨e, c, b, hn, ht, hn2, by simp [openaiChat, h1, h2, h3, h4, hl]⟩
            · right; right; right
              exact ⟨e, e2, hn, ht, hn2, by simp [openaiChat, h1, h2, h3, h4, hl]⟩

/-- Every run of `googleChat` either issues no request, or issues exactly one
and returns what `googleResult` makes of the answer. -/
theorem googleChat_shape (env : Env) (p : SimpleAiProvider) (messages : List ChatItem)
    (log : Log) :
    (googleChat env p messages log).2.2 = log ∨
    ∃ p2 url host, sameConfig p p2 ∧ (p.Hosts = [] → host = AIListHost (lit "google")) ∧
      googleChat env p messages log =
        (some (googleResult env host (env.net log.length (googleRequest url messages))), p2,
          log ++ [googleRequest url messages]) := by
  cases h1 : NextHost p with
  | none => left; simp [googleChat, h1]
  | some hp1 =>
    obtain ⟨host0, p1⟩ := hp1
    obtain ⟨⟨i, hi⟩, hh0⟩ := NextHost_some h1
    cases h2 : NextApiKey p1 with
    | none => left; simp [googleChat, h1, h2]
    | some kp2 =>
      obtain ⟨apiKey, p2⟩ := kp2
      obtain ⟨⟨j, hj⟩, _⟩ := NextApiKey_some h2
      have hcfg : sameConfig p p2 := by
        subst hj; subst hi
        exact ⟨rfl, rfl, rfl, rfl, rfl⟩
      cases h4 : env.newRequestErr ((if host0 = [] then AIListHost (lit "google") else host0)
          ++ lit "/v1beta/models/" ++ p2.Model ++ lit ":generateContent?key=" ++ apiKey) with
      | some e => left; simp only [googleChat, h1, h2, h4]
      | none =>
        right
        refine ⟨p2, (if host0 = [] then AIListHost (lit "google") else host0)
            ++ lit "/v1beta/models/" ++ p2.Model ++ lit ":generateContent?key=" ++ apiKey,
          (if p2.Hosts.length = 1 then [] else
              (if host0 = [] then AIListHost (lit "google") else host0)), hcfg, ?_, ?_⟩
        · intro hnil
          have hp2 : p2.Hosts = [] := by rw [hcfg.2.2.2.1]; exact hnil
          simp [hh0 hnil, hp2]
        · simp only [googleChat, h1, h2, h4]

/-- Every run of `anthropicChat` either issues no request, or issues exactly
one and returns what `anthropicResult` makes of the answer. -/
theorem anthropicChat_shape (env : Env) (p : SimpleAiProvider) (messages : List ChatItem)
    (log : Log) :
    (anthropicChat env p messages log).2.2 = log ∨
    ∃ p2 url apiKey host, sameConfig p p2 ∧
      (p.Hosts = [] → host = AIListHost (lit "anthropic")) ∧
      anthropicChat env p messages log =
        (some (anthropicResult env host
            (env.net log.length (anthropicRequest p2 url apiKey messages))), p2,
          log ++ [anthropicRequest p2 url apiKey messages]) := by
  cases h1 : NextHost p with
  | none => left; simp [anthropicChat, h1]
  | some hp1 =>
    obtain ⟨host0, p1⟩ := hp1
    obtain ⟨⟨i, hi⟩, hh0⟩ := NextHost_some h1
    cases h2 : NextApiKey p1 with
    | none => left; simp [anthropicChat, h1, h2]
    | some kp2 =>
      obtain ⟨apiKey, p2⟩ := kp2
      obtain ⟨⟨j, hj⟩, _⟩ := NextApiKey_some h2
      have hcfg : sameConfig p p2 := by
        subst hj; subst hi
        exact ⟨rfl, rfl, rfl, rfl, rfl⟩
      cases h4 : env.newRequestErr ((if host0 = [] then AIListHost (lit "anthropic") else host0)
          ++ lit "/v1/complete") with
      | some e => left; simp only [anthropicChat, h1, h2, h4]
      | none =>
        right
        refine ⟨p2, (if host0 = [] then AIListHost (lit "anthropic") else host0)
            ++ lit "/v1/complete", apiKey, (if p2.Hosts.length = 1 then [] else
              (if host0 = [] then AIListHost (lit "anthropic") else host0)), hcfg, ?_, ?_⟩
        · intro hnil
          have hp2 : p2.Hosts = [] := by rw [hcfg.2.2.2.1]; exact hnil
          simp [hh0 hnil, hp2]
        · simp only [anthropicChat, h1, h2, h4]

/-- With cursors in range and a request that can be built, `openaiChat` issues
at least one request. -/
theorem openaiChat_grows (env : Env) (p : SimpleAiProvider) (messages : List ChatItem)
    (path : GoString) (log : Log)
    (hh : cursorOk p.Hosts p.HostIdx) (hk : cursorOk p.ApiKeys p.ApiKeyIdx)
    (hjoin : ∀ h q, ∃ u, env.joinPath h q = Except.ok u)
    (hreq : ∀ u, env.newRequestErr u = none) :
    (openaiChat env p messages path log).2.2 ≠ log := by
  obtain ⟨host0, i, h1, _⟩ := NextHost_ok p hh
  obtain ⟨apiKey, j, h2, _⟩ := NextApiKey_ok { p with HostIdx := i } hk
  obtain ⟨url, h3⟩ := hjoin (if host0 = [] then AIListHost (lit "openai") else host0) path
  have h4 := hreq url
  simp only [] at h2
  rcases openaiLoop_cases env
      (openaiRequest { p with HostIdx := i, ApiKeyIdx := j } url apiKey messages)
      (if p.Hosts.length = 1 then [] else
        (if host0 = [] then AIListHost (lit "openai") else host0)) log with
    ⟨c, b, hn, hl⟩ | ⟨e, hn, ht, hl⟩ | ⟨e, c, b, hn, ht, hn2, hl⟩ | ⟨e, e2, hn, ht, hn2, hl⟩ <;>
  simp [openaiChat, h1, h2, h3, h4, hl]

/-- With cursors in range and a request that can be built, `googleChat` issues a request. -/
theorem googleChat_grows (env : Env) (p : SimpleAiProvider) (messages : List ChatItem)
    (log : Log)
    (hh : cursorOk p.Hosts p.HostIdx) (hk : cursorOk p.ApiKeys p.ApiKeyIdx)
    (hreq : ∀ u, env.newRequestErr u = none) :
    (googleChat env p messages log).2.2 ≠ log := by
  obtain ⟨host0, i, h1, _⟩ := NextHost_ok p hh
  obtain ⟨apiKey, j, h2, _⟩ := NextApiKey_ok { p with HostIdx := i } hk
  simp only [] at h2
  simp [googleChat, h1, h2, hreq]

/-- With cursors in range and a request that can be built, `anthropicChat` issues a request. -/
theorem anthropicChat_grows (env : Env) (p : SimpleAiProvider) (messages : List ChatItem)
    (log : Log)
    (hh : cursorOk p.Hosts p.HostIdx) (hk : cursorOk p.ApiKeys p.ApiKeyIdx)
    (hreq : ∀ u, env.newRequestErr u = none) :
    (anthropicChat env p messages log).2.2 ≠ log := by
  obtain ⟨host0, i, h1, _⟩ := NextHost_ok p hh
  obtain ⟨apiKey, j, h2, _⟩ := NextApiKey_ok { p with HostIdx := i } hk
  simp only [] at h2
  simp [anthropicChat, h1, h2, hreq]

/-- Where `Chat` sends a non-empty message list. -/
theorem Chat_dispatch (env : Env) (p : SimpleAiProvider) (messages : List ChatItem)
    (log : Log) (hmsg : messages ≠ []) :
    (p.Name ∈ openaiFamily ∧
        ∃ path, Chat env p messages log = openaiChat env p messages path log) ∨
    (p.Name = lit "google" ∧ Chat env p messages log = googleChat env p messages log) ∨
    (p.Name = lit "anthropic" ∧ Chat env p messages log = anthropicChat env p messages log) ∨
    (p.Name ∉ supportedNames ∧ (Chat env p messages log).2.2 = log) := by
  have hlen : ¬ messages.length = 0 := by
    intro h
    exact hmsg (List.length_eq_zero.mp h)
  by_cases h1 : p.Name = lit "openai"
  · left
    exact ⟨by simp [openaiFamily, h1], _, by rw [Chat, if_neg hlen, if_pos h1]⟩
  by_cases h2 : p.Name = lit "google"
  · right; left
    exact ⟨h2, by rw [Chat, if_neg hlen, if_neg h1, if_pos h2]⟩
  by_cases h3 : p.Name = lit "xai"
  · left
    exact ⟨by simp [openaiFamily, h3], _,
      by rw [Chat, if_neg hlen, if_neg h1, if_neg h2, if_pos h3]⟩
  by_cases h4 : p.Name = lit "mistral"
  · left
    exact ⟨by simp [openaiFamily, h4], _,
      by rw [Chat, if_neg hlen, if_neg h1, if_neg h2, if_neg h3, if_pos h4]⟩
  by_cases h5 : p.Name = lit "groq"
  · left
    exact ⟨by simp [openaiFamily, h5], _,
      by rw [Chat, if_neg hlen, if_neg h1, if_neg h2, if_neg h3, if_neg h4, if_pos h5]⟩
  by_cases h6 : p.Name = lit "perplexity"
  · left
    exact ⟨by simp [openaiFamily, h6], _,
      by rw [Chat, if_neg hlen, if_neg h1, if_neg h2, if_neg h3, if_neg h4, if_neg h5,
        if_pos h6]⟩
  by_cases h7 : p.Name = lit "alibaba"
  · left
    exact ⟨by simp [openaiFamily, h7], _,
      by rw [Chat, if_neg hlen, if_neg h1, if_neg h2, if_neg h3, if_neg h4, if_neg h5,
        if_neg h6, if_pos h7]⟩
  by_cases h8 : p.Name = lit "anthropic"
  · right; right; left
    exact ⟨h8, by rw [Chat, if_neg hlen, if_neg h1, if_neg h2, if_neg h3, if_neg h4, if_neg h5,
        if_neg h6, if_neg h7, if_pos h8]⟩
  right; right; right
  refine ⟨by simp [supportedNames, openaiFamily, h1, h2, h3, h4, h5, h6, h7, h8], ?_⟩
  rw [Chat, if_neg hlen, if_neg h1, if_neg h2, if_neg h3, if_neg h4, if_neg h5,
        if_neg h6, if_neg h7, if_neg h8]

theorem fallbackHost_openaiFamily {name : GoString} (h : name ∈ openaiFamily) :
    fallbackHost name = AIListHost (lit "openai") := by
  have hg : name ≠ lit "google" := by
    intro hg
    rw [hg] at h
    revert h
    decide
  have ha : name ≠ lit "anthropic" := by
    intro ha
    rw [ha] at h
    revert h
    decide
  simp [fallbackHost, hg, ha]

theorem openaiResult_Host (env : Env) (host : GoString) (c : Int) (b : GoString) :
    (openaiResult env host c b).Host = host := by
  unfold openaiResult
  split
  · rfl
  · split <;> rfl

theorem googleResult_Host (env : Env) (host : GoString) (n : NetResult) :
    (googleResult env host n).Host = host := by
  unfold googleResult
  split
  · rfl
  · split
    · rfl
    · split <;> rfl

theorem anthropicResult_Host (env : Env) (host : GoString) (n : NetResult) :
    (anthropicResult env host n).Host = host := by
  unfold anthropicResult
  split
  · rfl
  · split
    · rfl
    · split <;> rfl

/-! ## C1: empty message list -/

/-- C1: for every provider state, `Chat` called with an empty message list
returns the failure result with error "Empty messages" (empty content and
host), leaves the provider, hence both cursors, unchanged and issues no
request: the log of requests is the one it was given. -/
theorem C1_chat_empty_messages (env : Env) (p : SimpleAiProvider) (log : Log) :
    Chat env p [] log =
      (some { Success := false, Content := [], Error := lit "Empty messages", Host := [] },
        p, log) := by
  simp [Chat]

/-! ## C2: round-robin cursors -/

/-- C2: for a provider `p` with at least one host and `HostIdx = 0`, any
number `k` of sequential calls of `NextHost` all return (no panic), the
`i`-th of them (`i = 0, 1, ...`) returns `Hosts[i mod n]`, and afterwards
`HostIdx = k mod n`, so `0 <= HostIdx < n`; the hosts themselves are not
changed.  The same holds for a provider `q` with at least one key and
`ApiKeyIdx = 0` under `NextApiKey`.  With hosts `[H1, H2]` three calls return
`H1, H2, H1`. -/
theorem C2_round_robin (p q : SimpleAiProvider) (k : Nat)
    (hp : p.Hosts ≠ []) (hp0 : p.HostIdx = 0)
    (hq : q.ApiKeys ≠ []) (hq0 : q.ApiKeyIdx = 0) :
    (∃ hs p', callsNextHost k p = some (hs, p') ∧ hs.length = k ∧
        (∀ i, i < k → hs[i]? = p.Hosts[i % p.Hosts.length]?) ∧
        p' = { p with HostIdx := ((k % p.Hosts.length : Nat) : Int) } ∧
        0 ≤ p'.HostIdx ∧ p'.HostIdx < (p.Hosts.length : Int)) ∧
    (∃ ks q', callsNextApiKey k q = some (ks, q') ∧ ks.length = k ∧
        (∀ i, i < k → ks[i]? = q.ApiKeys[i % q.ApiKeys.length]?) ∧
        q' = { q with ApiKeyIdx := ((k % q.ApiKeys.length : Nat) : Int) } ∧
        0 ≤ q'.ApiKeyIdx ∧ q'.ApiKeyIdx < (q.ApiKeys.length : Int)) ∧
    (∀ H1 H2 : GoString, p.Hosts = [H1, H2] →
        (callsNextHost 3 p).map Prod.fst = some [H1, H2, H1]) := by
  have hpn : 0 < p.Hosts.length := List.length_pos.mpr hp
  have hqn : 0 < q.ApiKeys.length := List.length_pos.mpr hq
  have hH := fun k => callsNextHost_from k p 0 hpn (by simpa using hp0)
  have hK := callsNextApiKey_from k q 0 hqn (by simpa using hq0)
  simp only [Nat.zero_add] at hH hK
  refine ⟨⟨_, _, hH k, by simp, ?_, rfl, ?_, ?_⟩, ⟨_, _, hK, by simp, ?_, rfl, ?_, ?_⟩, ?_⟩
  · intro i hi
    have hlt : i % p.Hosts.length < p.Hosts.length := Nat.mod_lt _ hpn
    simp [hi, List.getD_eq_getElem?_getD, List.getElem?_eq_getElem hlt]
  · exact Int.natCast_nonneg _
  · exact Int.ofNat_lt.mpr (Nat.mod_lt _ hpn)
  · intro i hi
    have hlt : i % q.ApiKeys.length < q.ApiKeys.length := Nat.mod_lt _ hqn
    simp [hi, List.getD_eq_getElem?_getD, List.getElem?_eq_getElem hlt]
  · exact Int.natCast_nonneg _
  · exact Int.ofNat_lt.mpr (Nat.mod_lt _ hqn)
  · intro H1 H2 h12
    rw [hH 3, h12]
    simp [List.range_succ]

/-- C2 at a provider with hosts `a`, `b` and a single key, after three calls. -/
theorem C2_round_robin_witness :
    (∃ hs p', callsNextHost 3
        { Name := lit "openai", ApiKeys := [lit "k"], ApiKeyIdx := 0, Model := [], Rpm := 0,
          ContextSize := 0, Hosts := [lit "a", lit "b"], HostIdx := 0, SingleTurn := false }
          = some (hs, p') ∧ hs = [lit "a", lit "b", lit "a"] ∧ p'.HostIdx = 1) := by
  obtain ⟨⟨hs, p', h1, _, _, h4, _, _⟩, _, h3⟩ := C2_round_robin
    { Name := lit "openai", ApiKeys := [lit "k"], ApiKeyIdx := 0, Model := [], Rpm := 0,
      ContextSize := 0, Hosts := [lit "a", lit "b"], HostIdx := 0, SingleTurn := false }
    { Name := lit "openai", ApiKeys := [lit "k"], ApiKeyIdx := 0, Model := [], Rpm := 0,
      ContextSize := 0, Hosts := [lit "a", lit "b"], HostIdx := 0, SingleTurn := false }
    3 (by simp) rfl (by simp) rfl
  refine ⟨hs, p', h1, ?_, ?_⟩
  · have := h3 (lit "a") (lit "b") rfl
    rw [h1] at this
    simpa using this
  · rw [h4]
    rfl

/-! ## C3: empty key or host sequence -/

/-- C3, the claim fails: an `openai` provider with no key and no host, given
one message, issues a request (to the default host, with an empty bearer
token) and returns the success the network gave. -/
theorem C3_counterexample :
    Chat envAlwaysHi (bareProvider (lit "openai")) [{ Role := lit "user", Content := lit "q" }] []
      = (some { Success := true, Content := lit "hi", Error := [],
                Host := lit "https://api.openai.com" },
         bareProvider (lit "openai"),
         [{ method := lit "POST", url := lit "https://api.openai.com/v1/chat/completions",
            headers := [(lit "Authorization", lit "Bearer "),
                        (lit "Content-Type", lit "application/json")],
            body := Payload.openai (lit "m") [{ Role := lit "user", Content := lit "q" }] }]) := by
  decide

/-- C3 (amended): an empty key or host sequence is not a configuration error.
On an empty sequence `NextHost` and `NextApiKey` return `""` and leave the
provider as it is.  For a supported provider with an empty `ApiKeys` or
`Hosts`, cursors of the non-empty sequences in range, a non-empty message
list and a request that can be built, `Chat` returns a result (no panic)
after issuing at least one request, only the cursors of the provider may
have moved, and with an empty `Hosts` the result names the default host of
the back end. -/
theorem C3_empty_config_dispatches (env : Env) (p : SimpleAiProvider)
    (messages : List ChatItem) (log : Log)
    (hempty : p.ApiKeys = [] ∨ p.Hosts = [])
    (hh : cursorOk p.Hosts p.HostIdx) (hk : cursorOk p.ApiKeys p.ApiKeyIdx)
    (hmsg : messages ≠ []) (hname : p.Name ∈ supportedNames)
    (hjoin : ∀ h q, ∃ u, env.joinPath h q = Except.ok u)
    (hreq : ∀ u, env.newRequestErr u = none) :
    (p.Hosts = [] → NextHost p = some ([], p)) ∧
    (p.ApiKeys = [] → NextApiKey p = some ([], p)) ∧
    ∃ r p2 req reqs, Chat env p messages log = (some r, p2, log ++ req :: reqs) ∧
      sameConfig p p2 ∧ (p.Hosts = [] → r.Host = fallbackHost p.Name) := by
  refine ⟨fun h => by rw [NextHost, if_pos (by simp [h])],
    fun h => by rw [NextApiKey, if_pos (by simp [h])], ?_⟩
  have _ := hempty
  rcases Chat_dispatch env p messages log hmsg with
    ⟨hfam, path, hc⟩ | ⟨hg, hc⟩ | ⟨ha, hc⟩ | ⟨hno, _⟩
  · rw [hc, fallbackHost_openaiFamily hfam]
    have hgrow := openaiChat_grows env p messages path log hh hk hjoin hreq
    rcases openaiChat_shape env p messages path log with hsame | ⟨p2, url, apiKey, host, hcfg,
      ⟨host0, _, hhost⟩, _, hcases⟩
    · exact absurd hsame hgrow
    · rcases hcases with ⟨c, b, _, hl⟩ | ⟨e, _, _, hl⟩ | ⟨e, c, b, _, _, _, hl⟩ |
        ⟨e, e2, _, _, _, hl⟩
      · exact ⟨_, p2, _, [], hl, hcfg, fun h => by
          rw [openaiResult_Host, (hhost h).2, (hhost h).1]⟩
      · exact ⟨_, p2, _, [], hl, hcfg, fun h => by
          rw [(hhost h).2, (hhost h).1]⟩
      · exact ⟨_, p2, _, [_], hl, hcfg, fun h => by
          rw [openaiResult_Host, (hhost h).2, (hhost h).1]⟩
      · exact ⟨_, p2, _, [_], hl, hcfg, fun h => by
          rw [(hhost h).2, (hhost h).1]⟩
  · rw [hc]
    have hgrow := googleChat_grows env p messages log hh hk hreq
    rcases googleChat_shape env p messages log with hsame | ⟨p2, url, host, hcfg, hhost, hl⟩
    · exact absurd hsame hgrow
    · exact ⟨_, p2, _, [], hl, hcfg, fun h => by
        rw [googleResult_Host, hhost h, hg]; rfl⟩
  · rw [hc]
    have hgrow := anthropicChat_grows env p messages log hh hk hreq
    rcases anthropicChat_shape env p messages log with
      hsame | ⟨p2, url, apiKey, host, hcfg, hhost, hl⟩
    · exact absurd hsame hgrow
    · exact ⟨_, p2, _, [], hl, hcfg, fun h => by
        rw [anthropicResult_Host, hhost h, ha]; rfl⟩
  · exact absurd hname hno

/-- C3 (amended) at the `openai` provider with no key and no host. -/
theorem C3_empty_config_dispatches_witness :
    ∃ r p2 req reqs,
      Chat envAlwaysHi (bareProvider (lit "openai"))
        [{ Role := lit "user", Content := lit "q" }] [] = (some r, p2, [] ++ req :: reqs) ∧
      r.Host = lit "https://api.openai.com" := by
  obtain ⟨_, _, r, p2, req, reqs, h, _, hhost⟩ := C3_empty_config_dispatches envAlwaysHi
    (bareProvider (lit "openai")) [{ Role := lit "user", Content := lit "q" }] []
    (Or.inl rfl) (Or.inl rfl) (Or.inl rfl) (by simp) (by decide)
    (fun h q => ⟨h ++ lit "/" ++ q, rfl⟩) (fun _ => rfl)
  exact ⟨r, p2, req, reqs, h, by rw [hhost rfl]; decide⟩

/-! ## C4: single-turn collapse -/

theorem roleText_eq_label (role : GoString) : roleText role = singleTurnLabel role := by
  unfold roleText roleMap singleTurnLabel
  by_cases h1 : role = lit "system"
  · rw [if_pos h1, if_pos h1]
    rw [if_neg (by decide)]
  · rw [if_neg h1, if_neg h1]
    by_cases h2 : role = lit "assistant"
    · rw [if_pos h2, if_pos h2]
      rw [if_neg (by decide)]
    · rw [if_neg h2, if_neg h2]
      simp

theorem openaiMessages_sameConfig {p p2 : SimpleAiProvider} (h : sameConfig p p2)
    (messages : List ChatItem) : openaiMessages p2 messages = openaiMessages p messages := by
  unfold openaiMessages
  rw [h.2.2.2.2]

/-- C4: in `openaiChat` with `SingleTurn` set, a message list of length above
one (some `earlier` messages, not none, then the message `last`) is
translated to exactly one message, of role `user`, whose content is the
newline-join of the opening line, one labelled block per earlier message in
order, the continuation line, `I ask:`, the content of `last` and
`You Response:`; every request the call issues carries that single message.
For `[system S, user A, assistant B, user C]` the content is the displayed
text, which embeds `A`, `B` and `C`. -/
theorem C4_single_turn_collapse (env : Env) (p : SimpleAiProvider)
    (earlier : List ChatItem) (last : ChatItem) (path : GoString) (log : Log)
    (hst : p.SingleTurn = true) (hne : earlier ≠ []) :
    openaiMessages p (earlier ++ [last])
      = [{ Role := lit "user", Content := singleTurnText earlier last }] ∧
    (∃ reqs, (openaiChat env p (earlier ++ [last]) path log).2.2 = log ++ reqs ∧
      ∀ req ∈ reqs, req.body =
        Payload.openai p.Model [{ Role := lit "user", Content := singleTurnText earlier last }]) ∧
    (∀ S A B C : GoString,
      earlier = [{ Role := lit "system", Content := S }, { Role := lit "user", Content := A },
                 { Role := lit "assistant", Content := B }] →
      last = { Role := lit "user", Content := C } →
      singleTurnText earlier last =
        lit "Previous conversations:\n" ++ lit "\n"
          ++ (lit "background:\n" ++ S ++ lit "\n") ++ lit "\n"
          ++ (lit "I asked:\n" ++ A ++ lit "\n") ++ lit "\n"
          ++ (lit "Your response:\n" ++ B ++ lit "\n") ++ lit "\n"
          ++ lit "\nPlease continue this conversation based on the previous information:\n"
          ++ lit "\n" ++ lit "I ask:" ++ lit "\n" ++ C ++ lit "\n" ++ lit "You Response:\n") := by
  have hmsgs : openaiMessages p (earlier ++ [last])
      = [{ Role := lit "user", Content := singleTurnText earlier last }] := by
    have hlen : (earlier ++ [last]).length > 1 := by
      have := List.length_pos.mpr hne
      simp only [List.length_append, List.length_singleton]
      omega
    unfold openaiMessages
    rw [hst]
    simp only [Bool.true_and, decide_eq_true_eq]
    rw [if_pos hlen]
    unfold singleTurnParts singleTurnText
    simp [roleText_eq_label]
  refine ⟨hmsgs, ?_, ?_⟩
  · rcases openaiChat_shape env p (earlier ++ [last]) path log with hsame |
      ⟨p2, url, apiKey, host, hcfg, _, _, hcases⟩
    · exact ⟨[], by simpa using hsame, by simp⟩
    · have hbody : (openaiRequest p2 url apiKey (earlier ++ [last])).body =
          Payload.openai p.Model
            [{ Role := lit "user", Content := singleTurnText earlier last }] := by
        unfold openaiRequest
        simp only []
        rw [openaiMessages_sameConfig hcfg, hmsgs, hcfg.2.2.1]
      rcases hcases with ⟨c, b, _, hl⟩ | ⟨e, _, _, hl⟩ | ⟨e, c, b, _, _, _, hl⟩ |
        ⟨e, e2, _, _, _, hl⟩
      · exact ⟨_, by rw [hl], by simpa using hbody⟩
      · exact ⟨_, by rw [hl], by simpa using hbody⟩
      · exact ⟨_, by rw [hl], by simpa using hbody⟩
      · exact ⟨_, by rw [hl], by simpa using hbody⟩
  · intro S A B C he hl
    have h1 : lit "user" ≠ lit "system" := by decide
    have h2 : lit "user" ≠ lit "assistant" := by decide
    have h3 : lit "assistant" ≠ lit "system" := by decide
    have e1 : lit "background:\n" = lit "background" ++ lit ":\n" := by decide
    have e2 : lit "I asked:\n" = lit "I asked" ++ lit ":\n" := by decide
    have e3 : lit "Your response:\n" = lit "Your response" ++ lit ":\n" := by decide
    subst he hl
    simp [singleTurnText, singleTurnLabel, Join, h1, h2, h3, e1, e2, e3]

/-- C4 at a system prompt followed by one question. -/
theorem C4_single_turn_collapse_witness :
    openaiMessages singleTurnProvider
        ([{ Role := lit "system", Content := lit "be brief" }]
          ++ [{ Role := lit "user", Content := lit "q" }])
      = [{ Role := lit "user",
           Content := singleTurnText [{ Role := lit "system", Content := lit "be brief" }]
             { Role := lit "user", Content := lit "q" } }] :=
  (C4_single_turn_collapse envAlwaysHi singleTurnProvider
    [{ Role := lit "system", Content := lit "be brief" }]
    { Role := lit "user", Content := lit "q" } (lit "v1/chat/completions") [] rfl (by simp)).1

/-! ## Retry and completion text, in general -/

/-- `googleChat` never retries: whatever the network, it issues at most one request. -/
theorem googleChat_one_request (env : Env) (p : SimpleAiProvider) (messages : List ChatItem)
    (log : Log) : (googleChat env p messages log).2.2.length ≤ log.length + 1 := by
  rcases googleChat_shape env p messages log with hsame | ⟨p2, url, host, _, _, hl⟩
  · rw [hsame]
    exact Nat.le_succ _
  · rw [hl]
    simp

/-- `anthropicChat` never retries: whatever the network, it issues at most one request. -/
theorem anthropicChat_one_request (env : Env) (p : SimpleAiProvider)
    (messages : List ChatItem) (log : Log) :
    (anthropicChat env p messages log).2.2.length ≤ log.length + 1 := by
  rcases anthropicChat_shape env p messages log with hsame | ⟨p2, url, apiKey, host, _, _, hl⟩
  · rw [hsame]
    exact Nat.le_succ _
  · rw [hl]
    simp

/-- `openaiChat` does retry: when the request can be built, the first answer is
a transport error naming `EOF` or a reset connection and the second answer is a
2xx response with a choice, the call makes both attempts and returns the
success with the text of the first choice. -/
theorem openaiChat_retries (env : Env) (p : SimpleAiProvider) (messages : List ChatItem)
    (path : GoString) (log : Log) (e b c0 : GoString) (cs : List GoString) (c : Int)
    (hh : cursorOk p.Hosts p.HostIdx) (hk : cursorOk p.ApiKeys p.ApiKeyIdx)
    (hjoin : ∀ h q, ∃ u, env.joinPath h q = Except.ok u)
    (hreq : ∀ u, env.newRequestErr u = none)
    (h1 : ∀ req, env.net log.length req = NetResult.err e) (ht : transient e = true)
    (h2 : ∀ req, env.net (log.length + 1) req = NetResult.resp c b)
    (hc : 200 ≤ c ∧ c < 300) (hb : env.choices b = c0 :: cs) :
    ∃ host p2 req, openaiChat env p messages path log =
      (some { Success := true, Content := c0, Error := [], Host := host }, p2,
        log ++ [req, req]) := by
  have hgrow := openaiChat_grows env p messages path log hh hk hjoin hreq
  have hres : ∀ host, openaiResult env host c b =
      { Success := true, Content := c0, Error := [], Host := host } := by
    intro host
    have hnot : ¬ (c < 200 ∨ c ≥ 300) := by omega
    rw [openaiResult, if_neg hnot, hb]
  rcases openaiChat_shape env p messages path log with hsame |
    ⟨p2, url, apiKey, host, _, _, _, hcases⟩
  · exact absurd hsame hgrow
  · rcases hcases with ⟨c1, b1, hn, _⟩ | ⟨e1, hn, ht1, _⟩ | ⟨e1, c1, b1, _, _, hn2, hl⟩ |
      ⟨e1, e2, _, _, hn2, _⟩
    · rw [h1] at hn
      exact NetResult.noConfusion hn
    · rw [h1] at hn
      injection hn with he
      rw [he, ht1] at ht
      exact Bool.noConfusion ht
    · rw [h2] at hn2
      injection hn2 with hc1 hb1
      subst hc1; subst hb1
      exact ⟨host, p2, _, by rw [hl, hres]⟩
    · rw [h2] at hn2
      exact NetResult.noConfusion hn2

/-- The completion test of `anthropicChat`: a success never has empty content. -/
theorem anthropicResult_success (env : Env) (host : GoString) (n : NetResult)
    (h : (anthropicResult env host n).Success = true) :
    (anthropicResult env host n).Content ≠ [] := by
  cases n with
  | err e => simp [anthropicResult] at h
  | resp c b =>
    by_cases h1 : c < 200 ∨ c ≥ 300
    · simp [anthropicResult, h1] at h
    · by_cases h2 : env.completion b = []
      · simp [anthropicResult, h1, h2] at h
      · simp only [anthropicResult, if_neg h1, ne_eq, h2, not_false_eq_true, if_true]

/-- The test of `openaiChat` looks at the number of choices only: a 2xx
response with a first choice is a success with the text of that choice,
whatever the text, and a response without choices is the failure "no response". -/
theorem openaiResult_choices (env : Env) (host b : GoString) (c : Int)
    (hc : 200 ≤ c ∧ c < 300) :
    (∀ c0 cs, env.choices b = c0 :: cs → openaiResult env host c b =
        { Success := true, Content := c0, Error := [], Host := host }) ∧
    (env.choices b = [] → openaiResult env host c b =
        { Success := false, Content := [], Error := lit "no response", Host := host }) := by
  have hnot : ¬ (c < 200 ∨ c ≥ 300) := by omega
  constructor
  · intro c0 cs h
    rw [openaiResult, if_neg hnot, h]
  · intro h
    rw [openaiResult, if_neg hnot, h]

/-! ## C5: retry after a reset connection -/

/-- C5, evaluation at the failing input: on a network whose first answer is
"connection reset by peer" and whose second answer would be a `200` with a
usable completion, `google` and `anthropic` providers make one attempt only
and return the failure carrying the transport error, while an `openai`
provider makes the second attempt and returns the success. -/
theorem C5_retry_only_in_openaiChat :
    Chat envResetThenHi (plainProvider (lit "google"))
        [{ Role := lit "user", Content := lit "q" }] []
      = (some { Success := false, Content := [],
                Error := lit "read tcp 10.0.0.2:443: connection reset by peer", Host := [] },
         plainProvider (lit "google"),
         [googleRequest (lit "https://h.example/v1beta/models/m:generateContent?key=k")
            [{ Role := lit "user", Content := lit "q" }]]) ∧
    Chat envResetThenHi (plainProvider (lit "anthropic"))
        [{ Role := lit "user", Content := lit "q" }] []
      = (some { Success := false, Content := [],
                Error := lit "read tcp 10.0.0.2:443: connection reset by peer", Host := [] },
         plainProvider (lit "anthropic"),
         [anthropicRequest (plainProvider (lit "anthropic")) (lit "https://h.example/v1/complete")
            (lit "k") [{ Role := lit "user", Content := lit "q" }]]) ∧
    Chat envResetThenHi (plainProvider (lit "openai"))
        [{ Role := lit "user", Content := lit "q" }] []
      = (some { Success := true, Content := lit "hi", Error := [], Host := [] },
         plainProvider (lit "openai"),
         [openaiRequest (plainProvider (lit "openai"))
            (lit "https://h.example/v1/chat/completions") (lit "k")
            [{ Role := lit "user", Content := lit "q" }],
          openaiRequest (plainProvider (lit "openai"))
            (lit "https://h.example/v1/chat/completions") (lit "k")
            [{ Role := lit "user", Content := lit "q" }]]) := by
  decide

/-! ## C6: responses outside 200..299 -/

theorem openaiResult_http (env : Env) (host : GoString) (c : Int) (b : GoString)
    (hc : c < 200 ∨ c > 299) :
    openaiResult env host c b =
      { Success := false, Content := [],
        Error := lit "HTTP " ++ fmtInt c ++ lit ": " ++ b, Host := host } := by
  have h : c < 200 ∨ c ≥ 300 := by omega
  rw [openaiResult, if_pos h]

theorem googleResult_http (env : Env) (host : GoString) (c : Int) (b : GoString)
    (hc : c < 200 ∨ c > 299) :
    googleResult env host (NetResult.resp c b) =
      { Success := false, Content := [],
        Error := lit "HTTP " ++ fmtInt c ++ lit ": " ++ b, Host := host } := by
  have h : c < 200 ∨ c ≥ 300 := by omega
  rw [googleResult, if_pos h]

theorem anthropicResult_http (env : Env) (host : GoString) (c : Int) (b : GoString)
    (hc : c < 200 ∨ c > 299) :
    anthropicResult env host (NetResult.resp c b) =
      { Success := false, Content := [],
        Error := lit "HTTP " ++ fmtInt c ++ lit ": " ++ b, Host := host } := by
  have h : c < 200 ∨ c ≥ 300 := by omega
  rw [anthropicResult, if_pos h]

theorem getElem?_append_one {α : Type} (log : List α) (a req : α) (i : Nat)
    (hi : log.length ≤ i) (h : (log ++ [a])[i]? = some req) :
    i = log.length ∧ req = a := by
  rw [List.getElem?_append_right hi] at h
  have hlt : i - log.length < 1 := by
    by_contra hge
    rw [List.getElem?_eq_none (by simp only [List.length_singleton]; omega)] at h
    exact Option.noConfusion h
  have hi0 : i - log.length = 0 := by omega
  rw [hi0] at h
  simp only [List.getElem?_cons_zero, Option.some.injEq] at h
  exact ⟨by omega, h.symm⟩

theorem getElem?_append_two {α : Type} (log : List α) (a req : α) (i : Nat)
    (hi : log.length ≤ i) (h : (log ++ [a, a])[i]? = some req) :
    (i = log.length ∨ i = log.length + 1) ∧ req = a := by
  rw [List.getElem?_append_right hi] at h
  have hlt : i - log.length < 2 := by
    by_contra hge
    rw [List.getElem?_eq_none (by simp only [List.length_cons, List.length_nil]; omega)] at h
    exact Option.noConfusion h
  have hcases : i - log.length = 0 ∨ i - log.length = 1 := by omega
  rcases hcases with h0 | h1
  · rw [h0] at h
    simp only [List.getElem?_cons_zero, Option.some.injEq] at h
    exact ⟨Or.inl (by omega), h.symm⟩
  · rw [h1] at h
    simp only [List.getElem?_cons_succ, List.getElem?_cons_zero, Option.some.injEq] at h
    exact ⟨Or.inr (by omega), h.symm⟩

/-- C6: for every provider and every non-empty message list, if a request
issued during the call (the `i`-th request of the log, `i` not below the
length of the log before the call) is answered with a response whose status
`c` is outside `200..299` and whose body is `b`, then `Chat` returns
`Success = false`, empty `Content` and the error `HTTP <c>: <b>` with `c` in
decimal, and that request is the last one of the call. -/
theorem C6_http_error_is_terminal (env : Env) (p : SimpleAiProvider)
    (messages : List ChatItem) (log : Log) (i : Nat) (req : Request) (c : Int) (b : GoString)
    (hmsg : messages ≠ []) (hi : log.length ≤ i)
    (hreq : (Chat env p messages log).2.2[i]? = some req)
    (hnet : env.net i req = NetResult.resp c b)
    (hc : c < 200 ∨ c > 299) :
    ∃ r, (Chat env p messages log).1 = some r ∧ r.Success = false ∧ r.Content = [] ∧
      r.Error = lit "HTTP " ++ fmtInt c ++ lit ": " ++ b ∧
      (Chat env p messages log).2.2.length = i + 1 := by
  have hnone : ∀ R : ChatResult, R.2.2 = log → R.2.2[i]? = some req → False := by
    intro R hR hget
    rw [hR, List.getElem?_eq_none hi] at hget
    exact Option.noConfusion hget
  rcases Chat_dispatch env p messages log hmsg with
    ⟨_, path, hd⟩ | ⟨_, hd⟩ | ⟨_, hd⟩ | ⟨_, hsame⟩
  · rw [hd] at hreq ⊢
    rcases openaiChat_shape env p messages path log with hsame |
      ⟨p2, url, apiKey, host, _, _, _, hcases⟩
    · exact absurd hreq (fun h => hnone _ hsame h)
    · rcases hcases with ⟨c1, b1, hn, hl⟩ | ⟨e, hn, _, hl⟩ | ⟨e, c1, b1, hn, _, hn2, hl⟩ |
        ⟨e, e2, hn, _, hn2, hl⟩
      · rw [hl] at hreq ⊢
        obtain ⟨hi1, hr⟩ := getElem?_append_one _ _ _ _ hi hreq
        subst hr; subst hi1
        rw [hn] at hnet
        injection hnet with hc1 hb1
        subst hc1; subst hb1
        rw [openaiResult_http env host _ _ hc]
        exact ⟨_, rfl, rfl, rfl, rfl, by simp⟩
      · rw [hl] at hreq
        obtain ⟨hi1, hr⟩ := getElem?_append_one _ _ _ _ hi hreq
        subst hr; subst hi1
        rw [hn] at hnet
        exact NetResult.noConfusion hnet
      · rw [hl] at hreq ⊢
        obtain ⟨hi1 | hi1, hr⟩ := getElem?_append_two _ _ _ _ hi hreq
        · subst hr; subst hi1
          rw [hn] at hnet
          exact NetResult.noConfusion hnet
        · subst hr; subst hi1
          rw [hn2] at hnet
          injection hnet with hc1 hb1
          subst hc1; subst hb1
          rw [openaiResult_http env host _ _ hc]
          exact ⟨_, rfl, rfl, rfl, rfl, by simp⟩
      · rw [hl] at hreq
        obtain ⟨hi1 | hi1, hr⟩ := getElem?_append_two _ _ _ _ hi hreq
        · subst hr; subst hi1
          rw [hn] at hnet
          exact NetResult.noConfusion hnet
        · subst hr; subst hi1
          rw [hn2] at hnet
          exact NetResult.noConfusion hnet
  · rw [hd] at hreq ⊢
    rcases googleChat_shape env p messages log with hsame | ⟨p2, url, host, _, _, hl⟩
    · exact absurd hreq (fun h => hnone _ hsame h)
    · rw [hl] at hreq ⊢
      obtain ⟨hi1, hr⟩ := getElem?_append_one _ _ _ _ hi hreq
      subst hr; subst hi1
      rw [hnet, googleResult_http env host _ _ hc]
      exact ⟨_, rfl, rfl, rfl, rfl, by simp⟩
  · rw [hd] at hreq ⊢
    rcases anthropicChat_shape env p messages log with hsame |
      ⟨p2, url, apiKey, host, _, _, hl⟩
    · exact absurd hreq (fun h => hnone _ hsame h)
    · rw [hl] at hreq ⊢
      obtain ⟨hi1, hr⟩ := getElem?_append_one _ _ _ _ hi hreq
      subst hr; subst hi1
      rw [hnet, anthropicResult_http env host _ _ hc]
      exact ⟨_, rfl, rfl, rfl, rfl, by simp⟩
  · exact absurd hreq (fun h => hnone _ hsame h)

/-- C6 at an `openai` provider whose only request is answered `503 busy`. -/
theorem C6_http_error_is_terminal_witness :
    ∃ r, (Chat envBusy (plainProvider (lit "openai"))
            [{ Role := lit "user", Content := lit "q" }] []).1 = some r ∧
      r.Success = false ∧ r.Error = lit "HTTP 503: busy" ∧
      (Chat envBusy (plainProvider (lit "openai"))
            [{ Role := lit "user", Content := lit "q" }] []).2.2.length = 1 := by
  obtain ⟨r, h1, h2, _, h4, h5⟩ := C6_http_error_is_terminal envBusy
    (plainProvider (lit "openai")) [{ Role := lit "user", Content := lit "q" }] [] 0
    (openaiRequest (plainProvider (lit "openai")) (lit "https://h.example/v1/chat/completions")
      (lit "k") [{ Role := lit "user", Content := lit "q" }])
    503 (lit "busy") (by simp) (Nat.le_refl _) (by decide) rfl (Or.inr (by decide))
  exact ⟨r, h1, h2, by rw [h4]; decide, h5⟩

/-! ## C7: a 2xx response without completion text -/

/-- C7, evaluation at the failing input: when the `200` response carries one
choice (one candidate with one part) whose text is the empty string,
`openai` and `google` providers return `Success = true` with empty
`Content`; the `anthropic` provider, which tests the completion against the
empty string, returns the failure "no response". -/
theorem C7_empty_text_success :
    (Chat envEmptyText (plainProvider (lit "openai"))
        [{ Role := lit "user", Content := lit "q" }] []).1
      = some { Success := true, Content := [], Error := [], Host := [] } ∧
    (Chat envEmptyText (plainProvider (lit "google"))
        [{ Role := lit "user", Content := lit "q" }] []).1
      = some { Success := true, Content := [], Error := [], Host := [] } ∧
    (Chat envEmptyText (plainProvider (lit "anthropic"))
        [{ Role := lit "user", Content := lit "q" }] []).1
      = some { Success := false, Content := [], Error := lit "no response", Host := [] } := by
  decide

/-! ## C8: the contents sent by googleChat -/

theorem googleContent_role (m : ChatItem) :
    (googleContent m).1 ≠ lit "system" ∧ (googleContent m).1 ≠ lit "assistant" := by
  unfold googleContent
  by_cases h1 : m.Role = lit "system"
  · rw [if_pos h1]
    exact ⟨show lit "user" ≠ lit "system" by decide,
      show lit "user" ≠ lit "assistant" by decide⟩
  · rw [if_neg h1]
    by_cases h2 : m.Role = lit "assistant"
    · rw [if_pos h2]
      exact ⟨show lit "model" ≠ lit "system" by decide,
        show lit "model" ≠ lit "assistant" by decide⟩
    · rw [if_neg h2]
      exact ⟨h1, h2⟩

/-- C8: for every message list, the `contents` built by `googleChat` has the
length and the order of the input: entry `i` is made from message `i` alone,
as role `user` with text `System Instructions:` plus newline plus the content
for a `system` message, role `model` with the content unchanged for an
`assistant` message, and the role and content of the message otherwise.  No
entry has role `system` or `assistant`, and every request issued by
`googleChat` carries exactly these contents. -/
theorem C8_google_contents (env : Env) (p : SimpleAiProvider) (messages : List ChatItem)
    (log : Log) :
    (googleContents messages).length = messages.length ∧
    (∀ i : Nat, (googleContents messages)[i]? =
      (messages[i]?).map (fun m =>
        if m.Role = lit "system" then (lit "user", lit "System Instructions:\n" ++ m.Content)
        else if m.Role = lit "assistant" then (lit "model", m.Content)
        else (m.Role, m.Content))) ∧
    (∀ e ∈ googleContents messages, e.1 ≠ lit "system" ∧ e.1 ≠ lit "assistant") ∧
    (∃ reqs, (googleChat env p messages log).2.2 = log ++ reqs ∧
      ∀ req ∈ reqs, req.body = Payload.google (googleContents messages)) := by
  refine ⟨by simp [googleContents], ?_, ?_, ?_⟩
  · intro i
    simp only [googleContents, List.getElem?_map]
    rfl
  · intro e he
    simp only [googleContents, List.mem_map] at he
    obtain ⟨m, _, hm⟩ := he
    rw [← hm]
    exact googleContent_role m
  · rcases googleChat_shape env p messages log with hsame | ⟨p2, url, host, _, _, hl⟩
    · exact ⟨[], by simpa using hsame, by simp⟩
    · exact ⟨_, by rw [hl], by simp [googleRequest]⟩

/-! ## C9: the prompt sent by anthropicChat -/

theorem Join_nil_sep (xs : List GoString) : Join xs [] = xs.flatten := by
  induction xs with
  | nil => rfl
  | cons a rest ih =>
    cases rest with
    | nil => simp [Join]
    | cons b rest2 =>
      rw [Join, ih]
      simp

/-- C9: for every message list, the prompt built by `anthropicChat` is the
concatenation, in message order, of two newlines, `Assistant` for a message
of role `assistant` and `Human` for any other role, a colon, a space and the
content, followed by the cue of two newlines and `Assistant:`.  So the cue is
a suffix of the prompt, the prompt is the contents of the messages in order,
each preceded by a gap, then the cue, and every request issued by
`anthropicChat` carries this prompt. -/
theorem C9_anthropic_prompt (env : Env) (p : SimpleAiProvider) (messages : List ChatItem)
    (log : Log) :
    anthropicPrompt messages =
      (messages.map (fun m =>
        (if m.Role = lit "assistant" then lit "\n\nAssistant: " else lit "\n\nHuman: ")
          ++ m.Content)).flatten ++ lit "\n\nAssistant:" ∧
    lit "\n\nAssistant:" <:+ anthropicPrompt messages ∧
    (∃ gaps : List GoString, gaps.length = messages.length ∧
      anthropicPrompt messages =
        (List.zipWith (fun g c => g ++ c) gaps (messages.map (fun m => m.Content))).flatten
          ++ lit "\n\nAssistant:") ∧
    (∃ reqs, (anthropicChat env p messages log).2.2 = log ++ reqs ∧
      ∀ req ∈ reqs, req.body = Payload.anthropic (anthropicPrompt messages) p.Model 256) := by
  have hpart : ∀ m : ChatItem, anthropicPart m =
      (if m.Role = lit "assistant" then lit "\n\nAssistant: " else lit "\n\nHuman: ")
        ++ m.Content := by
    intro m
    have e1 : lit "\n\nAssistant: " = lit "\n\n" ++ lit "Assistant" ++ lit ": " := by decide
    have e2 : lit "\n\nHuman: " = lit "\n\n" ++ lit "Human" ++ lit ": " := by decide
    unfold anthropicPart
    by_cases h : m.Role = lit "assistant"
    · rw [if_pos h, if_pos h, e1]
    · rw [if_neg h, if_neg h, e2]
  have hmain : anthropicPrompt messages =
      (messages.map (fun m =>
        (if m.Role = lit "assistant" then lit "\n\nAssistant: " else lit "\n\nHuman: ")
          ++ m.Content)).flatten ++ lit "\n\nAssistant:" := by
    unfold anthropicPrompt
    rw [Join_nil_sep]
    congr 2
    exact List.map_congr_left (fun m _ => hpart m)
  refine ⟨hmain, ⟨_, hmain.symm⟩, ?_, ?_⟩
  · refine ⟨messages.map (fun m =>
        if m.Role = lit "assistant" then lit "\n\nAssistant: " else lit "\n\nHuman: "),
      by simp, ?_⟩
    rw [hmain]
    congr 2
    induction messages with
    | nil => rfl
    | cons m rest ih => simp [List.zipWith, List.map]
  · rcases anthropicChat_shape env p messages log with hsame |
      ⟨p2, url, apiKey, host, hcfg, _, hl⟩
    · exact ⟨[], by simpa using hsame, by simp⟩
    · exact ⟨_, by rw [hl], by simp [anthropicRequest, hcfg.2.2.1]⟩

/-! ## C10: topic from the first words of a message -/

theorem inRange_second_false {b : UInt8} (x : Nat) (h : inRange b 0x80 0xBF = false) :
    inRange b (secondLo x) (secondHi x) = false := by
  unfold inRange secondLo secondHi at *
  simp only [Bool.and_eq_false_iff, decide_eq_false_iff_not] at h ⊢
  split_ifs <;> omega

theorem decode_width (b : UInt8) (rest : GoString) :
    1 ≤ (DecodeRuneInString (b :: rest)).2 ∧
      (DecodeRuneInString (b :: rest)).2 ≤ (b :: rest).length := by
  unfold DecodeRuneInString
  rcases rest with _ | ⟨s1, _ | ⟨s2, _ | ⟨s3, rest⟩⟩⟩ <;>
    simp only [List.length_cons, List.length_nil] <;> split_ifs <;> simp

/-- A decoded rune that is white space does not start with a continuation byte. -/
theorem decode_space_lead (b : UInt8) (rest : GoString)
    (h : IsSpace (DecodeRuneInString (b :: rest)).1 = true) :
    inRange b 0x80 0xBF = false := by
  by_contra hc
  have hc2 : inRange b 0x80 0xBF = true := by simpa using hc
  unfold inRange at hc2
  simp only [Bool.and_eq_true, decide_eq_true_eq] at hc2
  have h1 : ¬ b.toNat < 0x80 := by omega
  have h2 : b.toNat < 0xC2 := by omega
  simp only [DecodeRuneInString, if_neg h1, if_pos h2] at h
  revert h
  decide

/-- Decoding does not look past a byte that is not a continuation byte. -/
theorem decode_append (b : UInt8) (rest t : GoString) (ht : leadOk t) :
    DecodeRuneInString (b :: rest ++ t) = DecodeRuneInString (b :: rest) := by
  rcases t with _ | ⟨t0, t⟩
  · simp
  have h0 : inRange t0 0x80 0xBF = false := ht t0 t rfl
  have h1 := inRange_second_false b.toNat h0
  rcases rest with _ | ⟨s1, _ | ⟨s2, _ | ⟨s3, rest⟩⟩⟩ <;>
    rcases t with _ | ⟨t1, _ | ⟨t2, t⟩⟩ <;>
    simp [DecodeRuneInString, h0, h1]

theorem runesAux_fuel : ∀ (n m : Nat) (s : GoString), s.length ≤ n → s.length ≤ m →
    runesAux n s = runesAux m s := by
  intro n
  induction n with
  | zero =>
    intro m s hn _
    have hs : s = [] := List.length_eq_zero.mp (Nat.le_zero.mp hn)
    subst hs
    cases m <;> rfl
  | succ n ih =>
    intro m s hn hm
    cases s with
    | nil => cases m <;> rfl
    | cons b rest =>
      cases m with
      | zero => simp at hm
      | succ m =>
        have hw := decode_width b rest
        simp only [runesAux]
        congr 1
        apply ih
        · simp only [List.length_drop, List.length_cons] at hn ⊢
          omega
        · simp only [List.length_drop, List.length_cons] at hm ⊢
          omega

theorem runes_nil : runes [] = [] := rfl

theorem runes_cons (b : UInt8) (rest : GoString) :
    runes (b :: rest) =
      ((DecodeRuneInString (b :: rest)).1, (b :: rest).take (DecodeRuneInString (b :: rest)).2)
        :: runes ((b :: rest).drop (DecodeRuneInString (b :: rest)).2) := by
  have hw := decode_width b rest
  unfold runes
  simp only [List.length_cons, runesAux]
  congr 1
  apply runesAux_fuel
  · simp only [List.length_drop, List.length_cons]
    omega
  · exact Nat.le_refl _

/-- Induction on the length of a string. -/
theorem length_induction {P : GoString → Prop}
    (h : ∀ s, (∀ t, t.length < s.length → P t) → P s) : ∀ s, P s := by
  have key : ∀ n, ∀ s : GoString, s.length < n → P s := by
    intro n
    induction n with
    | zero => intro s hs; omega
    | succ n ih =>
      intro s hs
      apply h
      intro t ht
      exact ih t (by omega)
  intro s
  exact key (s.length + 1) s (Nat.lt_succ_self _)

theorem bytesOf_cons (seg : Seg) (segs : List Seg) :
    bytesOf (seg :: segs) = seg.2 ++ bytesOf segs := by
  simp [bytesOf]

theorem bytesOf_append (a b : List Seg) : bytesOf (a ++ b) = bytesOf a ++ bytesOf b := by
  simp [bytesOf]

theorem bytesOf_runes : ∀ s : GoString, bytesOf (runes s) = s := by
  apply length_induction
  intro s ih
  cases s with
  | nil => rfl
  | cons b rest =>
    have hw := decode_width b rest
    rw [runes_cons, bytesOf_cons, ih]
    · exact List.take_append_drop _ _
    · simp only [List.length_drop, List.length_cons]
      omega

theorem runes_append (t : GoString) (ht : leadOk t) :
    ∀ s : GoString, runes (s ++ t) = runes s ++ runes t := by
  apply length_induction
  intro s ih
  cases s with
  | nil => simp [runes_nil]
  | cons b rest =>
    have hw := decode_width b rest
    have hd := decode_append b rest t ht
    have hcons : b :: rest ++ t = b :: (rest ++ t) := rfl
    rw [hcons, runes_cons b (rest ++ t), ← hcons, hd, runes_cons b rest,
      List.take_append_of_le_length hw.2, List.drop_append_of_le_length hw.2, ih]
    · rfl
    · simp only [List.length_drop, List.length_cons]
      omega

/-- Every rune of a string has at least one byte, and a white-space rune does
not start with a continuation byte. -/
theorem runes_seg : ∀ (s : GoString) (seg : Seg), seg ∈ runes s →
    seg.2 ≠ [] ∧ (segSpace seg = true → leadOk seg.2) := by
  apply length_induction
  intro s ih seg hseg
  cases s with
  | nil => simp [runes_nil] at hseg
  | cons b rest =>
    have hw := decode_width b rest
    rw [runes_cons] at hseg
    rcases List.mem_cons.mp hseg with h | h
    · obtain ⟨k, hk⟩ : ∃ k, (DecodeRuneInString (b :: rest)).2 = k + 1 :=
        ⟨(DecodeRuneInString (b :: rest)).2 - 1, by omega⟩
      rw [h, hk]
      simp only [List.take_succ_cons]
      refine ⟨by simp, ?_⟩
      intro hsp b2 tl hbt
      simp only [List.cons.injEq] at hbt
      rw [← hbt.1]
      exact decode_space_lead b rest hsp
    · exact ih _ (by simp only [List.length_drop, List.length_cons]; omega) seg h

theorem runes_length_le : ∀ s : GoString, (runes s).length ≤ s.length := by
  apply length_induction
  intro s ih
  cases s with
  | nil => simp [runes_nil]
  | cons b rest =>
    have hw := decode_width b rest
    rw [runes_cons]
    have := ih ((b :: rest).drop (DecodeRuneInString (b :: rest)).2)
      (by simp only [List.length_drop, List.length_cons]; omega)
    simp only [List.length_cons, List.length_drop] at this ⊢
    omega

theorem coherent_runes (s : GoString) : coherent (runes s) := by
  unfold coherent
  rw [bytesOf_runes]

theorem coherent_tail (x : Seg) (L : List Seg) (h : coherent (x :: L)) : coherent L := by
  unfold coherent at h ⊢
  have hx : x ∈ runes (bytesOf (x :: L)) := by rw [h]; exact List.mem_cons_self _ _
  have hne := (runes_seg _ x hx).1
  rw [bytesOf_cons] at h
  obtain ⟨b, tl, hb⟩ : ∃ b tl, x.2 = b :: tl := by
    cases hx2 : x.2 with
    | nil => exact absurd hx2 hne
    | cons b tl => exact ⟨b, tl, rfl⟩
  have hw := decode_width b (tl ++ bytesOf L)
  rw [hb, List.cons_append, runes_cons] at h
  simp only [List.cons.injEq] at h
  obtain ⟨hhead, htail⟩ := h
  have hlen : (DecodeRuneInString (b :: (tl ++ bytesOf L))).2 = (b :: tl).length := by
    have h2 : ((b :: (tl ++ bytesOf L)).take (DecodeRuneInString (b :: (tl ++ bytesOf L))).2)
        = b :: tl := by
      rw [← hb, ← hhead]
    have h3 := congrArg List.length h2
    rw [List.length_take] at h3
    omega
  rw [hlen] at htail
  have hdrop : List.drop (b :: tl).length (b :: (tl ++ bytesOf L)) = bytesOf L := by
    rw [← List.cons_append]
    exact List.drop_left _ _
  rw [hdrop] at htail
  exact htail

theorem coherent_suffix (a b : List Seg) (h : coherent (a ++ b)) : coherent b := by
  induction a with
  | nil => exact h
  | cons x a ih => exact ih (coherent_tail x (a ++ b) h)

theorem coherent_left (a b : List Seg) (h : coherent (a ++ b)) (hb : leadOk (bytesOf b)) :
    coherent a := by
  have hsuf := coherent_suffix a b h
  unfold coherent at h hsuf ⊢
  rw [bytesOf_append, runes_append _ hb, hsuf] at h
  exact List.append_cancel_right h

theorem word_of_coherent (g : List Seg) (hg : g ≠ []) (hc : coherent g)
    (hns : ∀ seg ∈ g, segSpace seg = false) : Word (bytesOf g) := by
  unfold coherent at hc
  refine ⟨?_, by rw [hc]; exact hns⟩
  intro hnil
  rw [hnil, runes_nil] at hc
  exact hg hc.symm

theorem curOf_snoc (g : List Seg) (seg : Seg) :
    some ((curOf g).getD [] ++ seg.2) = curOf (g ++ [seg]) := by
  unfold curOf
  by_cases hg : g = []
  · subst hg
    simp [bytesOf]
  · simp [hg, bytesOf_append, bytesOf]

theorem fieldsAux_words : ∀ (L g : List Seg), coherent (g ++ L) →
    (∀ seg ∈ g, segSpace seg = false) → ∀ w ∈ fieldsAux L (curOf g), Word w := by
  intro L
  induction L with
  | nil =>
    intro g hc hns w hw
    by_cases hg : g = []
    · subst hg
      simp [curOf, fieldsAux] at hw
    · simp only [curOf, if_neg hg, fieldsAux, List.mem_singleton] at hw
      rw [hw]
      rw [List.append_nil] at hc
      exact word_of_coherent g hg hc hns
  | cons seg rest ih =>
    intro g hc hns w hw
    have hrest : coherent rest := by
      have := coherent_suffix (g ++ [seg]) rest (by simpa using hc)
      exact this
    by_cases hsp : segSpace seg = true
    · have hnil : ∀ w ∈ fieldsAux rest none, Word w := by
        have := ih [] (by simpa using hrest) (by simp)
        simpa [curOf] using this
      by_cases hg : g = []
      · subst hg
        simp only [curOf, fieldsAux, hsp, if_true] at hw
        exact hnil w hw
      · simp only [curOf, if_neg hg, fieldsAux, hsp, if_true, List.mem_cons] at hw
        rcases hw with hw | hw
        · rw [hw]
          have hmem : seg ∈ runes (bytesOf (g ++ seg :: rest)) := by
            rw [hc]
            simp
          have hseg := runes_seg _ seg hmem
          have hlead : leadOk (bytesOf (seg :: rest)) := by
            intro b tl hbt
            rw [bytesOf_cons] at hbt
            cases hs2 : seg.2 with
            | nil => exact absurd hs2 hseg.1
            | cons b2 tl2 =>
              rw [hs2, List.cons_append] at hbt
              simp only [List.cons.injEq] at hbt
              rw [← hbt.1]
              exact hseg.2 hsp b2 tl2 hs2
          exact word_of_coherent g hg (coherent_left g (seg :: rest) hc hlead) hns
        · exact hnil w hw
    · have hsp2 : segSpace seg = false := by simpa using hsp
      simp only [fieldsAux, hsp2, Bool.false_eq_true, if_false] at hw
      rw [curOf_snoc] at hw
      apply ih (g ++ [seg]) (by simpa using hc) _ w hw
      intro x hx
      rcases List.mem_append.mp hx with h | h
      · exact hns x h
      · rw [List.mem_singleton.mp h]
        exact hsp2

theorem fields_words (s : GoString) : ∀ w ∈ Fields s, Word w := by
  have := fieldsAux_words (runes s) [] (by simpa using coherent_runes s) (by simp)
  simpa [curOf, Fields] using this

theorem dropWhile_head {α : Type} (p : α → Bool) (L : List α)
    (h : ∀ x, L.head? = some x → p x = false) : L.dropWhile p = L := by
  cases L with
  | nil => rfl
  | cons x rest => simp [List.dropWhile, h x rfl]

/-- Trimming leaves alone a string whose first and last runes are not white space. -/
theorem TrimSpace_of_edges (x : GoString)
    (hhead : ∀ seg, (runes x).head? = some seg → segSpace seg = false)
    (hlast : ∀ seg, (runes x).getLast? = some seg → segSpace seg = false) :
    TrimSpace x = x := by
  unfold TrimSpace
  rw [dropWhile_head segSpace (runes x) hhead,
    dropWhile_head segSpace (runes x).reverse (by simpa using hlast),
    List.reverse_reverse, bytesOf_runes]

/-- Trimming cuts a part off each end of the string. -/
theorem TrimSpace_infix (x : GoString) : ∃ pre post, x = pre ++ TrimSpace x ++ post := by
  have h1 := List.takeWhile_append_dropWhile segSpace (runes x)
  have h2 := List.takeWhile_append_dropWhile segSpace ((runes x).dropWhile segSpace).reverse
  refine ⟨bytesOf ((runes x).takeWhile segSpace),
    bytesOf (((runes x).dropWhile segSpace).reverse.takeWhile segSpace).reverse, ?_⟩
  unfold TrimSpace
  rw [List.append_assoc, ← bytesOf_append, ← List.reverse_append, h2, List.reverse_reverse,
    ← bytesOf_append, h1, bytesOf_runes]

theorem decode_ascii (b : UInt8) (J : GoString) (h : b.toNat < 0x80) :
    DecodeRuneInString (b :: J) = (b.toNat, 1) := by
  simp only [DecodeRuneInString, if_pos h]

theorem runes_space_cons (J : GoString) :
    runes ((0x20 : UInt8) :: J) = ((0x20, [0x20]) : Seg) :: runes J := by
  rw [runes_cons]
  have hd : DecodeRuneInString ((0x20 : UInt8) :: J) = (0x20, 1) := by
    rw [decode_ascii _ _ (by decide)]
    rfl
  rw [hd]
  rfl

theorem leadOk_space_cons (J : GoString) : leadOk ((0x20 : UInt8) :: J) := by
  intro b tl h
  simp only [List.cons.injEq] at h
  rw [← h.1]
  decide

theorem edgesOk_word (w : GoString) (hw : Word w) : edgesOk (runes w) := by
  obtain ⟨hne, hns⟩ := hw
  refine ⟨?_, ?_, ?_⟩
  · intro h
    have := bytesOf_runes w
    rw [h] at this
    exact hne this.symm
  · intro seg h
    exact hns seg (List.mem_of_mem_head? h)
  · intro seg h
    exact hns seg (List.mem_of_mem_getLast? h)

theorem edgesOk_append (A B : List Seg) (mid : Seg) (hA : edgesOk A) (hB : edgesOk B) :
    edgesOk (A ++ mid :: B) := by
  obtain ⟨hA0, hA1, _⟩ := hA
  obtain ⟨hB0, _, hB2⟩ := hB
  refine ⟨by simp, ?_, ?_⟩
  · intro seg h
    cases A with
    | nil => exact absurd rfl hA0
    | cons a A2 => exact hA1 seg (by simpa using h)
  · intro seg h
    have hcons : A ++ mid :: B = (A ++ [mid]) ++ B := by simp
    rw [hcons, List.getLast?_append_of_ne_nil _ hB0] at h
    exact hB2 seg h

theorem lit_space : lit " " = [0x20] := by decide

theorem join_edges : ∀ ws : List GoString, ws ≠ [] → (∀ w ∈ ws, Word w) →
    edgesOk (runes (Join ws (lit " "))) := by
  intro ws
  induction ws with
  | nil => intro h; exact absurd rfl h
  | cons w rest ih =>
    intro _ hw
    cases rest with
    | nil =>
      rw [Join]
      exact edgesOk_word w (hw w (List.mem_cons_self _ _))
    | cons w2 rest2 =>
      have hrest := ih (by simp) (fun x hx => hw x (List.mem_cons_of_mem _ hx))
      rw [Join, lit_space, List.append_assoc, List.singleton_append,
        runes_append _ (leadOk_space_cons _), runes_space_cons]
      rw [lit_space] at hrest
      exact edgesOk_append _ _ _ (edgesOk_word w (hw w (List.mem_cons_self _ _))) hrest

/-- Joining fields with single spaces gives a string that trimming leaves alone. -/
theorem TrimSpace_join (ws : List GoString) (hw : ∀ w ∈ ws, Word w) :
    TrimSpace (Join ws (lit " ")) = Join ws (lit " ") := by
  cases ws with
  | nil => rfl
  | cons w rest =>
    obtain ⟨_, h1, h2⟩ := join_edges (w :: rest) (by simp) hw
    exact TrimSpace_of_edges _ h1 h2

theorem mem_fieldsAux : ∀ (L : List Seg) (cur : Option GoString) (w : GoString),
    w ∈ fieldsAux L cur → ∀ b ∈ w, b ∈ cur.getD [] ∨ b ∈ bytesOf L := by
  intro L
  induction L with
  | nil =>
    intro cur w hw b hb
    cases cur with
    | none => simp [fieldsAux] at hw
    | some c =>
      simp only [fieldsAux, List.mem_singleton] at hw
      left
      rw [hw] at hb
      exact hb
  | cons seg rest ih =>
    intro cur w hw b hb
    rw [bytesOf_cons]
    by_cases hsp : segSpace seg = true
    · cases cur with
      | none =>
        simp only [fieldsAux, hsp, if_true] at hw
        rcases ih none w hw b hb with h | h
        · simp at h
        · right
          exact List.mem_append_right _ h
      | some c =>
        simp only [fieldsAux, hsp, if_true, List.mem_cons] at hw
        rcases hw with hw | hw
        · left
          rw [hw] at hb
          exact hb
        · rcases ih none w hw b hb with h | h
          · simp at h
          · right
            exact List.mem_append_right _ h
    · have hsp2 : segSpace seg = false := by simpa using hsp
      simp only [fieldsAux, hsp2, Bool.false_eq_true, if_false] at hw
      rcases ih _ w hw b hb with h | h
      · simp only [Option.getD_some, List.mem_append] at h
        rcases h with h | h
        · left; exact h
        · right; exact List.mem_append_left _ h
      · right
        exact List.mem_append_right _ h

theorem mem_fields (s w : GoString) (hw : w ∈ Fields s) (b : UInt8) (hb : b ∈ w) : b ∈ s := by
  rcases mem_fieldsAux (runes s) none w hw b hb with h | h
  · simp at h
  · rw [bytesOf_runes] at h
    exact h

theorem mem_join : ∀ (ws : List GoString) (sep : GoString) (b : UInt8),
    b ∈ Join ws sep → b ∈ sep ∨ ∃ w ∈ ws, b ∈ w := by
  intro ws
  induction ws with
  | nil => intro sep b h; simp [Join] at h
  | cons w rest ih =>
    intro sep b h
    cases rest with
    | nil =>
      rw [Join] at h
      exact Or.inr ⟨w, by simp, h⟩
    | cons w2 rest2 =>
      rw [Join] at h
      rcases List.mem_append.mp h with h | h
      · rcases List.mem_append.mp h with h | h
        · exact Or.inr ⟨w, by simp, h⟩
        · exact Or.inl h
      · rcases ih sep b h with h | ⟨x, hx, hbx⟩
        · exact Or.inl h
        · exact Or.inr ⟨x, List.mem_cons_of_mem _ hx, hbx⟩

theorem titleReplace_clean (s : GoString) : ∀ b ∈ titleReplace s, b ∉ strippedBytes := by
  intro b hb
  simp only [titleReplace, List.mem_map] at hb
  obtain ⟨c, _, hc⟩ := hb
  by_cases h : c ∈ strippedBytes
  · rw [if_pos h] at hc
    rw [← hc]
    decide
  · rw [if_neg h] at hc
    rw [← hc]
    exact h

/-- C10: for every non-empty `msg`, `UpdateTopic(msg)` issues no request and
computes the topic as the first (at most) five fields of `msg` after the
stripped bytes (newline, double quote, slash, backslash, single quote,
backtick) are replaced by spaces, joined by single spaces, cut to its first
40 bytes and trimmed.  A non-empty topic becomes `CurrTopic` and nothing else
changes; an empty topic leaves the session as it was.  The topic has at most
40 bytes, hence at most 40 runes, and none of the stripped bytes.  For
`hello there my good friend today` the topic is `hello there my good friend`. -/
theorem C10_update_topic (env : Env) (iw : InkWell) (msg : GoString) (log : Log)
    (hmsg : msg ≠ []) :
    ∃ topic : GoString,
      topic = TrimSpace ((Join ((Fields (titleReplace msg)).take 5) (lit " ")).take 40) ∧
      UpdateTopic env iw msg log =
        (some (if topic ≠ [] then { iw with CurrTopic := topic } else iw), log) ∧
      topic.length ≤ 40 ∧ RuneCount topic ≤ 40 ∧ (∀ b ∈ topic, b ∉ strippedBytes) ∧
      (msg = lit "hello there my good friend today" → topic = lit "hello there my good friend") := by
  refine ⟨_, rfl, ?_, ?_⟩
  · have hwords : (if (Fields (titleReplace msg)).length > 5
        then (Fields (titleReplace msg)).take 5 else Fields (titleReplace msg))
        = (Fields (titleReplace msg)).take 5 := by
      split
      · rfl
      · exact (List.take_of_length_le (by omega)).symm
    have hW : ∀ w ∈ (Fields (titleReplace msg)).take 5, Word w :=
      fun w hw => fields_words _ w (List.mem_of_mem_take hw)
    have htopic : (if (Join ((Fields (titleReplace msg)).take 5) (lit " ")).length > 40
        then TrimSpace ((Join ((Fields (titleReplace msg)).take 5) (lit " ")).take 40)
        else Join ((Fields (titleReplace msg)).take 5) (lit " "))
        = TrimSpace ((Join ((Fields (titleReplace msg)).take 5) (lit " ")).take 40) := by
      split
      · rfl
      · rename_i hle
        have h40 : (Join ((Fields (titleReplace msg)).take 5) (lit " ")).take 40
            = Join ((Fields (titleReplace msg)).take 5) (lit " ") :=
          List.take_of_length_le (by omega)
        rw [h40, TrimSpace_join _ hW]
    unfold UpdateTopic
    rw [if_pos hmsg]
    simp only [hwords, storeTopic, htopic]
  · obtain ⟨pre, post, hpp⟩ :=
      TrimSpace_infix ((Join ((Fields (titleReplace msg)).take 5) (lit " ")).take 40)
    have hlen : (TrimSpace ((Join ((Fields (titleReplace msg)).take 5) (lit " ")).take 40)).length
        ≤ 40 := by
      have h := congrArg List.length hpp
      simp only [List.length_append, List.length_take] at h
      omega
    refine ⟨hlen, Nat.le_trans (runes_length_le _) hlen, ?_, ?_⟩
    · intro b hb
      have hb1 : b ∈ (Join ((Fields (titleReplace msg)).take 5) (lit " ")).take 40 := by
        rw [hpp]
        simp [hb]
      rcases mem_join _ _ _ (List.mem_of_mem_take hb1) with h | ⟨w, hw, hbw⟩
      · rw [lit_space, List.mem_singleton] at h
        rw [h]
        decide
      · exact titleReplace_clean msg b (mem_fields _ w (List.mem_of_mem_take hw) b hbw)
    · intro h
      rw [h]
      decide

/-- C10 at the message of the specification. -/
theorem C10_update_topic_witness :
    ∃ topic : GoString,
      UpdateTopic envAlwaysHi emptySession (lit "hello there my good friend today") []
        = (some (if topic ≠ [] then { emptySession with CurrTopic := topic }
            else emptySession), []) ∧
      topic = lit "hello there my good friend" := by
  obtain ⟨topic, _, h2, _, _, _, h6⟩ := C10_update_topic envAlwaysHi emptySession
    (lit "hello there my good friend today") [] (by decide)
  exact ⟨topic, h2, h6 rfl⟩

/-! ## Slices of messages: reading after writing -/

theorem getD_set_self (mem : Store) (a : Nat) (x : List ChatItem) (h : a < mem.length) :
    (mem.set a x).getD a [] = x := by
  simp [List.getD_eq_getElem?_getD, List.getElem?_set, h]

theorem getD_out (mem : Store) (a : Nat) (h : mem.length ≤ a) : mem.getD a [] = [] := by
  simp [List.getD_eq_getElem?_getD, List.getElem?_eq_none h]

theorem getD_append_length (mem : Store) (x : List ChatItem) :
    (mem ++ [x]).getD mem.length [] = x := by
  simp [List.getD_eq_getElem?_getD]

theorem writeAt_length (xs : List ChatItem) (i : Nat) (items : List ChatItem)
    (h : i + items.length ≤ xs.length) : (writeAt xs i items).length = xs.length := by
  simp only [writeAt, List.length_append, List.length_take, List.length_drop]
  omega

/-- Writing after the first `off + len` elements leaves the window
`off .. off + len` as it was and puts the new elements right after it. -/
theorem writeAt_window (xs : List ChatItem) (off len : Nat) (items : List ChatItem)
    (h : off + len + items.length ≤ xs.length) :
    ((writeAt xs (off + len) items).drop off).take (len + items.length)
      = (xs.drop off).take len ++ items := by
  have h1 : (xs.take (off + len)).length = off + len := by
    rw [List.length_take]; omega
  have h2 : ((xs.take (off + len)).drop off).length = len := by
    rw [List.length_drop, h1]; omega
  have h3 : (xs.take (off + len)).drop off = (xs.drop off).take len := by
    rw [List.drop_take]
    congr 1
    omega
  unfold writeAt
  rw [List.append_assoc, List.drop_append_of_le_length (by omega), h3]
  rw [← List.append_assoc, List.take_append_of_le_length (by
    rw [List.length_append, ← h3, h2])]
  rw [List.take_of_length_le (by rw [List.length_append, ← h3, h2])]

theorem writeAt_window_frame (xs : List ChatItem) (off len : Nat) (items : List ChatItem)
    (h : off + len + items.length ≤ xs.length) :
    ((writeAt xs (off + len) items).drop off).take len = (xs.drop off).take len := by
  have hlen : ((xs.drop off).take len).length = len := by
    rw [List.length_take, List.length_drop]; omega
  have e : ((writeAt xs (off + len) items).drop off).take len
      = (((writeAt xs (off + len) items).drop off).take (len + items.length)).take len := by
    rw [List.take_take, Nat.min_eq_left (Nat.le_add_right _ _)]
  rw [e, writeAt_window xs off len items h, List.take_append_of_le_length (by omega),
    List.take_of_length_le (by omega)]

theorem readSlice_nil_of_len (mem : Store) (s : MsgSlice) (h : s.len = 0) :
    readSlice mem s = [] := by
  simp [readSlice, h]

/-- After `append` the new slice reads as the old one followed by the new
elements, and lies inside its array. -/
theorem readSlice_append (g : Nat → Nat → Nat) (mem : Store) (s : MsgSlice)
    (items : List ChatItem) (hv : validSlice mem s) :
    readSlice (appendMsgs g mem s items).1 (appendMsgs g mem s items).2
        = readSlice mem s ++ items ∧
      validSlice (appendMsgs g mem s items).1 (appendMsgs g mem s items).2 := by
  obtain ⟨hlc, hoff⟩ := hv
  unfold appendMsgs
  by_cases hfit : s.len + items.length ≤ s.cap
  · rw [if_pos hfit]
    by_cases ha : s.arr < mem.length
    · simp only [readSlice, validSlice, getD_set_self mem _ _ ha]
      refine ⟨writeAt_window _ _ _ _ (by omega), hfit, ?_⟩
      rw [writeAt_length _ _ _ (by omega)]
      exact hoff
    · have hout := getD_out mem s.arr (by omega)
      rw [hout] at hoff
      simp only [List.length_nil] at hoff
      have hk : items = [] := List.length_eq_zero.mp (by omega)
      subst hk
      rw [List.set_eq_of_length_le (by omega)]
      simp only [readSlice, validSlice, hout, List.length_nil, List.append_nil,
        Nat.add_zero]
      exact ⟨trivial, hfit, by omega⟩
  · rw [if_neg hfit]
    have hrl : (readSlice mem s).length = s.len := by
      simp only [readSlice, List.length_take, List.length_drop]
      omega
    generalize readSlice mem s = old at hrl ⊢
    simp only [readSlice, validSlice, getD_append_length]
    refine ⟨?_, Nat.le_max_left _ _, ?_⟩
    · simp only [List.drop_zero]
      rw [List.take_append_of_le_length (by simp only [List.length_append]; omega)]
      rw [List.take_of_length_le (by simp only [List.length_append]; omega)]
    · simp only [List.length_append, List.length_replicate, hrl]
      omega

/-- `append` does not change what the slice it is given reads, and leaves it valid. -/
theorem readSlice_append_frame (g : Nat → Nat → Nat) (mem : Store) (s : MsgSlice)
    (items : List ChatItem) (hv : validSlice mem s) :
    readSlice (appendMsgs g mem s items).1 s = readSlice mem s ∧
      validSlice (appendMsgs g mem s items).1 s := by
  obtain ⟨hlc, hoff⟩ := hv
  unfold appendMsgs
  by_cases hfit : s.len + items.length ≤ s.cap
  · rw [if_pos hfit]
    by_cases ha : s.arr < mem.length
    · simp only [readSlice, validSlice, getD_set_self mem _ _ ha]
      refine ⟨writeAt_window_frame _ _ _ _ (by omega), hlc, ?_⟩
      rw [writeAt_length _ _ _ (by omega)]
      exact hoff
    · rw [List.set_eq_of_length_le (by omega)]
      exact ⟨rfl, hlc, hoff⟩
  · rw [if_neg hfit]
    by_cases ha : s.arr < mem.length
    · have hget : ∀ x : List ChatItem, (mem ++ [x]).getD s.arr [] = mem.getD s.arr [] := by
        intro x
        simp [List.getD_eq_getElem?_getD, List.getElem?_append_left ha]
      simp only [readSlice, validSlice, hget]
      exact ⟨trivial, hlc, hoff⟩
    · have hout := getD_out mem s.arr (by omega)
      rw [hout] at hoff
      simp only [List.length_nil] at hoff
      have hlen0 : s.len = 0 := by omega
      simp only [readSlice, validSlice, hlen0, List.take_zero]
      exact ⟨trivial, Nat.zero_le _, by omega⟩

/-- `s[:1]` of a slice with an element reads as its first element. -/
theorem reslice_first (mem : Store) (s : MsgSlice) (hv : validSlice mem s) (hlen : 1 ≤ s.len) :
    reslice s 0 1 = some { arr := s.arr, off := s.off, len := 1, cap := s.cap } ∧
      readSlice mem { arr := s.arr, off := s.off, len := 1, cap := s.cap }
        = (readSlice mem s).take 1 ∧
      validSlice mem { arr := s.arr, off := s.off, len := 1, cap := s.cap } := by
  obtain ⟨hlc, hoff⟩ := hv
  refine ⟨?_, ?_, ?_, hoff⟩
  · have h : 0 ≤ 1 ∧ 1 ≤ s.cap := ⟨Nat.zero_le _, by omega⟩
    simp [reslice, h]
  · simp only [readSlice, List.take_take]
    rw [Nat.min_eq_left hlen]
  · show 1 ≤ s.cap
    omega

/-- `s[1:]` of a slice with an element reads as the rest after its first element. -/
theorem reslice_rest (mem : Store) (s : MsgSlice) (hv : validSlice mem s) (hlen : 1 ≤ s.len) :
    reslice s 1 s.len
        = some { arr := s.arr, off := s.off + 1, len := s.len - 1, cap := s.cap - 1 } ∧
      readSlice mem { arr := s.arr, off := s.off + 1, len := s.len - 1, cap := s.cap - 1 }
        = (readSlice mem s).drop 1 := by
  obtain ⟨hlc, hoff⟩ := hv
  refine ⟨?_, ?_⟩
  · have h : 1 ≤ s.len ∧ s.len ≤ s.cap := ⟨hlen, hlc⟩
    simp [reslice, h]
  · simp only [readSlice]
    rw [List.drop_take, List.drop_drop]

theorem readSlice_length (mem : Store) (s : MsgSlice) (hv : validSlice mem s) :
    (readSlice mem s).length = s.len := by
  obtain ⟨hlc, hoff⟩ := hv
  simp only [readSlice, List.length_take, List.length_drop]
  omega

/-- The assignment to the content of the first element changes that content only. -/
theorem setContent0_read (mem : Store) (s : MsgSlice) (c : GoString) (first : ChatItem)
    (rest : List ChatItem) (hv : validSlice mem s) (h : readSlice mem s = first :: rest) :
    ∃ mem2, setContent0 mem s c = some mem2 ∧
      readSlice mem2 s = { first with Content := c } :: rest ∧ validSlice mem2 s := by
  have hlen := readSlice_length mem s hv
  rw [h] at hlen
  simp only [List.length_cons] at hlen
  obtain ⟨hlc, hoff⟩ := hv
  have ha : s.arr < mem.length := by
    by_contra hcon
    rw [getD_out mem s.arr (by omega)] at hoff
    simp only [List.length_nil] at hoff
    omega
  refine ⟨mem.set s.arr (writeAt (mem.getD s.arr []) s.off [{ first with Content := c }]),
    by simp only [setContent0, h], ?_, hlc, ?_⟩
  · simp only [readSlice, getD_set_self mem _ _ ha]
    have hw := writeAt_window (mem.getD s.arr []) s.off 0 [{ first with Content := c }]
      (by simp only [List.length_singleton]; omega)
    simp only [Nat.add_zero, List.take_zero, List.nil_append, List.length_singleton,
      Nat.zero_add] at hw
    -- the elements after the first are not touched
    have hrest : ((writeAt (mem.getD s.arr []) s.off [{ first with Content := c }]).drop
        (s.off + 1)) = (mem.getD s.arr []).drop (s.off + 1) := by
      unfold writeAt
      have h1 : ((mem.getD s.arr []).take s.off).length = s.off := by
        rw [List.length_take]; omega
      rw [List.drop_append_of_le_length (by
        simp only [List.length_append, List.length_singleton, h1]; omega)]
      rw [List.drop_of_length_le (by
        simp only [List.length_append, List.length_singleton, h1]; omega)]
      simp
    have hsplit : ∀ xs : List ChatItem, (xs.drop s.off).take s.len
        = (xs.drop s.off).take 1 ++ ((xs.drop (s.off + 1)).take (s.len - 1)) := by
      intro xs
      have e : s.len = 1 + (s.len - 1) := by omega
      conv_lhs => rw [e]
      rw [List.take_add, List.drop_drop]
    rw [hsplit, hw, hrest]
    have h0 := h
    simp only [readSlice] at h0
    rw [hsplit] at h0
    have hfirst : ((mem.getD s.arr []).drop s.off).take 1 = [first] := by
      have := congrArg (List.take 1) h0
      rw [List.take_append_of_le_length (by
        rw [List.length_take, List.length_drop]; omega), List.take_take] at this
      simpa using this
    rw [hfirst] at h0
    simp only [List.singleton_append, List.cons.injEq, true_and] at h0
    rw [h0]
    rfl
  · rw [getD_set_self mem _ _ ha, writeAt_length _ _ _ (by
      simp only [List.length_singleton]; omega)]
    exact hoff

/-- The literal of one element reads as that element. -/
theorem newSlice_read (mem : Store) (item : ChatItem) :
    readSlice (newSlice mem item).1 (newSlice mem item).2 = [item] ∧
      validSlice (newSlice mem item).1 (newSlice mem item).2 := by
  simp [newSlice, readSlice, validSlice, getD_append_length]

/-! ## Calls that cannot panic -/

theorem cursorOk_next (xs : List GoString) (j : Nat) (h : 0 < xs.length) :
    cursorOk xs (((j + 1) % xs.length : Nat) : Int) := by
  right
  exact ⟨Int.natCast_nonneg _, Int.ofNat_lt.mpr (Nat.mod_lt _ h)⟩

theorem NextHost_total (p : SimpleAiProvider) (h : cursorOk p.Hosts p.HostIdx) :
    ∃ host i, NextHost p = some (host, { p with HostIdx := i }) ∧ cursorOk p.Hosts i := by
  rcases h with h | ⟨h0, h1⟩
  · exact ⟨[], p.HostIdx, by rw [NextHost, if_pos (by simp [h])], Or.inl h⟩
  · have hj : p.HostIdx.toNat < p.Hosts.length := by omega
    have hidx : p.HostIdx = (p.HostIdx.toNat : Int) := by omega
    exact ⟨_, _, NextHost_at p _ hj hidx, cursorOk_next _ _ (by omega)⟩

theorem NextApiKey_total (p : SimpleAiProvider) (h : cursorOk p.ApiKeys p.ApiKeyIdx) :
    ∃ key i, NextApiKey p = some (key, { p with ApiKeyIdx := i }) ∧ cursorOk p.ApiKeys i := by
  rcases h with h | ⟨h0, h1⟩
  · exact ⟨[], p.ApiKeyIdx, by rw [NextApiKey, if_pos (by simp [h])], Or.inl h⟩
  · have hj : p.ApiKeyIdx.toNat < p.ApiKeys.length := by omega
    have hidx : p.ApiKeyIdx = (p.ApiKeyIdx.toNat : Int) := by omega
    exact ⟨_, _, NextApiKey_at p _ hj hidx, cursorOk_next _ _ (by omega)⟩

theorem openaiChat_total (env : Env) (p : SimpleAiProvider) (messages : List ChatItem)
    (path : GoString) (log : Log)
    (hh : cursorOk p.Hosts p.HostIdx) (hk : cursorOk p.ApiKeys p.ApiKeyIdx) :
    ∃ r i j log2, openaiChat env p messages path log
        = (some r, { p with HostIdx := i, ApiKeyIdx := j }, log2) ∧
      cursorOk p.Hosts i ∧ cursorOk p.ApiKeys j := by
  obtain ⟨host0, i, h1, hi⟩ := NextHost_total p hh
  obtain ⟨apiKey, j, h2, hj⟩ := NextApiKey_total { p with HostIdx := i } hk
  simp only [] at h2 hj
  cases h3 : env.joinPath (if host0 = [] then AIListHost (lit "openai") else host0) path with
  | error e =>
    simp only [openaiChat, h1, h2, h3]
    exact ⟨_, i, j, _, rfl, hi, hj⟩
  | ok url =>
    cases h4 : env.newRequestErr url with
    | some e =>
      simp only [openaiChat, h1, h2, h3, h4]
      exact ⟨_, i, j, _, rfl, hi, hj⟩
    | none =>
      rcases openaiLoop_cases env
          (openaiRequest { p with HostIdx := i, ApiKeyIdx := j } url apiKey messages)
          (if p.Hosts.length = 1 then [] else
            (if host0 = [] then AIListHost (lit "openai") else host0)) log with
        ⟨c, b, _, hl⟩ | ⟨e, _, _, hl⟩ | ⟨e, c, b, _, _, _, hl⟩ | ⟨e, e2, _, _, _, hl⟩ <;>
      · simp only [openaiChat, h1, h2, h3, h4, hl]
        exact ⟨_, i, j, _, rfl, hi, hj⟩

theorem googleChat_total (env : Env) (p : SimpleAiProvider) (messages : List ChatItem)
    (log : Log) (hh : cursorOk p.Hosts p.HostIdx) (hk : cursorOk p.ApiKeys p.ApiKeyIdx)
    (hreq : ∀ u, env.newRequestErr u = none) :
    ∃ r i j log2, googleChat env p messages log
        = (some r, { p with HostIdx := i, ApiKeyIdx := j }, log2) ∧
      cursorOk p.Hosts i ∧ cursorOk p.ApiKeys j := by
  obtain ⟨host0, i, h1, hi⟩ := NextHost_total p hh
  obtain ⟨apiKey, j, h2, hj⟩ := NextApiKey_total { p with HostIdx := i } hk
  simp only [] at h2 hj
  simp only [googleChat, h1, h2, hreq]
  exact ⟨_, i, j, _, rfl, hi, hj⟩

theorem anthropicChat_total (env : Env) (p : SimpleAiProvider) (messages : List ChatItem)
    (log : Log) (hh : cursorOk p.Hosts p.HostIdx) (hk : cursorOk p.ApiKeys p.ApiKeyIdx)
    (hreq : ∀ u, env.newRequestErr u = none) :
    ∃ r i j log2, anthropicChat env p messages log
        = (some r, { p with HostIdx := i, ApiKeyIdx := j }, log2) ∧
      cursorOk p.Hosts i ∧ cursorOk p.ApiKeys j := by
  obtain ⟨host0, i, h1, hi⟩ := NextHost_total p hh
  obtain ⟨apiKey, j, h2, hj⟩ := NextApiKey_total { p with HostIdx := i } hk
  simp only [] at h2 hj
  simp only [anthropicChat, h1, h2, hreq]
  exact ⟨_, i, j, _, rfl, hi, hj⟩

theorem Chat_unsupported (env : Env) (p : SimpleAiProvider) (messages : List ChatItem)
    (log : Log) (hmsg : messages ≠ []) (hno : p.Name ∉ supportedNames) :
    Chat env p messages log =
      (some { Success := false, Content := [],
              Error := lit "unsupported provider: " ++ p.Name, Host := [] }, p, log) := by
  have hlen : ¬ messages.length = 0 := fun h => hmsg (List.length_eq_zero.mp h)
  simp only [supportedNames, openaiFamily, List.cons_append, List.nil_append, List.mem_cons,
    List.mem_singleton, not_or, List.not_mem_nil, not_false_eq_true, and_true] at hno
  obtain ⟨h1, h3, h4, h5, h6, h7, h2, h8⟩ := hno
  rw [Chat, if_neg hlen, if_neg h1, if_neg h2, if_neg h3, if_neg h4, if_neg h5, if_neg h6,
    if_neg h7, if_neg h8]

/-- On a provider that is in order `Chat` returns a result, and the provider
it leaves is in order. -/
theorem Chat_total (env : Env) (p : SimpleAiProvider) (messages : List ChatItem) (log : Log)
    (hp : providerOk env p) :
    ∃ r p2 log2, Chat env p messages log = (some r, p2, log2) ∧ providerOk env p2 := by
  obtain ⟨hh, hk, hreq⟩ := hp
  by_cases hmsg : messages = []
  · subst hmsg
    exact ⟨_, p, log, C1_chat_empty_messages env p log, hh, hk, hreq⟩
  rcases Chat_dispatch env p messages log hmsg with
    ⟨_, path, hd⟩ | ⟨hg, hd⟩ | ⟨ha, hd⟩ | ⟨hno, _⟩
  · obtain ⟨r, i, j, log2, h, hi, hj⟩ := openaiChat_total env p messages path log hh hk
    exact ⟨r, { p with HostIdx := i, ApiKeyIdx := j }, log2, by rw [hd, h], hi, hj, hreq⟩
  · obtain ⟨r, i, j, log2, h, hi, hj⟩ :=
      googleChat_total env p messages log hh hk (hreq (Or.inl hg))
    exact ⟨r, { p with HostIdx := i, ApiKeyIdx := j }, log2, by rw [hd, h], hi, hj, hreq⟩
  · obtain ⟨r, i, j, log2, h, hi, hj⟩ :=
      anthropicChat_total env p messages log hh hk (hreq (Or.inr ha))
    exact ⟨r, { p with HostIdx := i, ApiKeyIdx := j }, log2, by rw [hd, h], hi, hj, hreq⟩
  · exact ⟨_, p, log, Chat_unsupported env p messages log hmsg hno, hh, hk, hreq⟩

/-! ## The session: provider calls and the topic -/

theorem FetchAiResponse_total (env : Env) (iw : InkWell) (messages : List ChatItem) (log : Log)
    (hp : ∀ p, iw.Provider = some p → providerOk env p) :
    ∃ r prov log1, FetchAiResponse env iw messages log
        = (some r, { iw with Provider := prov }, log1) ∧
      (∀ p, prov = some p → providerOk env p) := by
  cases hprov : iw.Provider with
  | none =>
    refine ⟨(⟨false, [], lit "The provider is empty", []⟩ : AiResponse), none, log, ?_,
      fun p h => Option.noConfusion h⟩
    simp only [FetchAiResponse, hprov]
    rw [← hprov]
  | some p =>
    obtain ⟨r, p2, log2, hc, hok⟩ := Chat_total env p messages log (hp p hprov)
    refine ⟨r, some p2, log2, ?_, ?_⟩
    · simp only [FetchAiResponse, hprov, hc]
    · intro q hq
      injection hq with hq
      rw [← hq]
      exact hok

theorem storeTopic_eq (iw : InkWell) (topic : GoString) :
    ∃ t, storeTopic iw topic = { iw with CurrTopic := t } := by
  unfold storeTopic
  simp only []
  generalize (if topic.length > 40 then TrimSpace (topic.take 40) else topic) = t
  by_cases h : t ≠ []
  · exact ⟨t, by rw [if_pos h]⟩
  · exact ⟨iw.CurrTopic, by rw [if_neg h]⟩

theorem storeTopic_default (iw : InkWell) :
    storeTopic iw DefaultTopic = { iw with CurrTopic := DefaultTopic } := by
  have h1 : ¬ DefaultTopic.length > 40 := by decide
  have h2 : DefaultTopic ≠ [] := by decide
  simp only [storeTopic, if_neg h1, if_pos h2]

/-- `UpdateTopic` in a session that is in order returns, and changes nothing
but the topic, the cursors of the provider and the store outside the
messages. -/
theorem UpdateTopic_frame (env : Env) (iw : InkWell) (msg : GoString) (log : Log)
    (hok : sessionOk env iw) :
    ∃ topic prov mem1 log1, UpdateTopic env iw msg log
        = (some { iw with CurrTopic := topic, Provider := prov, mem := mem1 }, log1) ∧
      (∀ p, prov = some p → providerOk env p) ∧
      readSlice mem1 iw.Messages = readSlice iw.mem iw.Messages ∧
      validSlice mem1 iw.Messages := by
  obtain ⟨_, hv, hp⟩ := hok
  by_cases hmsg : msg = []
  · subst hmsg
    obtain ⟨hread, hvalid⟩ := readSlice_append_frame env.growCap iw.mem iw.Messages
      [{ Role := lit "user", Content := PromptGetTopic }] hv
    obtain ⟨r, prov, log1, hf, hprov⟩ := FetchAiResponse_total env
      { iw with mem := (topicMessages env iw).1 }
      (readSlice (topicMessages env iw).1 (topicMessages env iw).2) log hp
    obtain ⟨t, ht⟩ := storeTopic_eq
      { iw with mem := (topicMessages env iw).1, Provider := prov }
      (if r.Success then titleReplace r.Content else DefaultTopic)
    refine ⟨t, prov, (topicMessages env iw).1, log1, ?_, hprov, hread, hvalid⟩
    have hne : ¬ (([] : GoString) ≠ []) := fun h => h rfl
    simp only [UpdateTopic, if_neg hne, hf]
    rw [ht]
  · obtain ⟨t, ht⟩ := storeTopic_eq iw
      (Join (if (Fields (titleReplace msg)).length > 5
        then (Fields (titleReplace msg)).take 5 else Fields (titleReplace msg)) (lit " "))
    refine ⟨t, iw.Provider, iw.mem, log, ?_, hp, rfl, hv⟩
    simp only [UpdateTopic, if_pos hmsg]
    rw [ht]

/-! ## C11: the topic after a failed title request -/

/-- C11, the claim fails: in the session `askedSession`, whose topic is
`trip to rome`, the title request is answered `503` and `UpdateTopic("")`
leaves the topic `New chat`. -/
theorem C11_counterexample :
    askedSession.CurrTopic = lit "trip to rome" ∧
    (UpdateTopic envBusy askedSession [] []).1.map (fun iw => iw.CurrTopic)
      = some (lit "New chat") := by
  decide

/-- C11 (amended): when `UpdateTopic` is called with an empty `msg` and the
provider call for the title returns a failure, the topic becomes the default
topic `New chat`, whatever it was; nothing else changes but what the provider
call changed. -/
theorem C11_failure_sets_default_topic (env : Env) (iw : InkWell) (log : Log)
    (resp : AiResponse)
    (hcall : (FetchAiResponse env { iw with mem := (topicMessages env iw).1 }
      (readSlice (topicMessages env iw).1 (topicMessages env iw).2) log).1 = some resp)
    (hfail : resp.Success = false) :
    UpdateTopic env iw [] log =
      (some { (FetchAiResponse env { iw with mem := (topicMessages env iw).1 }
          (readSlice (topicMessages env iw).1 (topicMessages env iw).2) log).2.1
          with CurrTopic := DefaultTopic },
        (FetchAiResponse env { iw with mem := (topicMessages env iw).1 }
          (readSlice (topicMessages env iw).1 (topicMessages env iw).2) log).2.2) := by
  have hne : ¬ (([] : GoString) ≠ []) := fun h => h rfl
  generalize hF : FetchAiResponse env { iw with mem := (topicMessages env iw).1 }
      (readSlice (topicMessages env iw).1 (topicMessages env iw).2) log = F at hcall ⊢
  obtain ⟨o, iw1, log1⟩ := F
  simp only [] at hcall
  subst hcall
  simp only [UpdateTopic, if_neg hne, hF, hfail, Bool.false_eq_true, if_false,
    storeTopic_default]

/-- C11 (amended) at the session `askedSession` on a network that answers `503`. -/
theorem C11_failure_sets_default_topic_witness :
    (UpdateTopic envBusy askedSession [] []).1.map (fun iw => iw.CurrTopic)
      = some DefaultTopic := by
  rw [C11_failure_sets_default_topic envBusy askedSession []
    { Success := false, Content := [], Error := lit "HTTP 503: busy", Host := [] }
    (by decide) rfl]
  rfl

/-! ## The archive step -/

theorem setLastMessages_eq (m : MsgSlice) : ∀ (H : List HistoryItem) (e : HistoryItem),
    H.getLast? = some e →
    setLastMessages H m = some (H.dropLast ++ [{ e with Messages := m }]) := by
  intro H
  induction H with
  | nil => intro e h; simp at h
  | cons x rest ih =>
    intro e h
    cases rest with
    | nil =>
      simp only [List.getLast?_singleton, Option.some.injEq] at h
      subst h
      simp [setLastMessages]
    | cons y rest2 =>
      have h2 : (y :: rest2).getLast? = some e := by
        rw [List.getLast?_cons_cons] at h
        exact h
      rw [setLastMessages, ih e h2]
      simp

theorem archive_skip (iw : InkWell) (cfg : AppConfig) (hcfg : iw.Config = some cfg)
    (hskip : archiveSkipped iw cfg) : AddCurrentConvToHistory iw = some iw := by
  unfold archiveSkipped at hskip
  simp only [AddCurrentConvToHistory, hcfg, if_pos hskip]

theorem lastEntries_of_le (m : Nat) (h : List HistoryItem) (hle : h.length ≤ m) :
    lastEntries m h = h := by
  unfold lastEntries
  rw [Nat.sub_eq_zero_of_le hle, List.drop_zero]

/-- When the archive step is not skipped, the new history is the merged
history cut to its last `MaxHistory` entries. -/
theorem archive_done (iw : InkWell) (cfg : AppConfig) (hcfg : iw.Config = some cfg)
    (hno : ¬ archiveSkipped iw cfg) (hcap : iw.Messages.len ≤ iw.Messages.cap) :
    AddCurrentConvToHistory iw
      = some { iw with History := lastEntries cfg.MaxHistory.toNat (mergedHistory iw) } := by
  have hno2 := hno
  unfold archiveSkipped at hno2
  simp only [not_or, not_le, not_lt] at hno2
  obtain ⟨hmax, htopic, _, hlen⟩ := hno2
  have hres : reslice iw.Messages 1 iw.Messages.len = some (tailSlice iw.Messages) := by
    have h : 1 ≤ iw.Messages.len ∧ iw.Messages.len ≤ iw.Messages.cap := ⟨by omega, hcap⟩
    simp only [reslice, h, and_self, if_true, tailSlice]
  unfold archiveSkipped at hno
  simp only [AddCurrentConvToHistory, hcfg, if_neg hno, hres]
  cases hlast : iw.History.getLast? with
  | none =>
    have hne : ¬ (([] : GoString) = iw.CurrTopic) := fun h => htopic h.symm
    simp only [if_neg hne, mergedHistory, hlast, archivedEntry]
    split
    · rfl
    · rename_i hle
      rw [lastEntries_of_le _ _ (by omega)]
  | some e =>
    by_cases heq : e.Topic = iw.CurrTopic
    · simp only [if_pos heq, setLastMessages_eq _ _ _ hlast, mergedHistory, hlast]
      split
      · rfl
      · rename_i hle
        rw [lastEntries_of_le _ _ (by omega)]
    · simp only [if_neg heq, mergedHistory, hlast, archivedEntry]
      split
      · rfl
      · rename_i hle
        rw [lastEntries_of_le _ _ (by omega)]

theorem lastEntries_length (m : Nat) (h : List HistoryItem) :
    (lastEntries m h).length ≤ m := by
  simp only [lastEntries, List.length_drop]
  omega

theorem lastEntries_suffix (m : Nat) (h : List HistoryItem) : lastEntries m h <:+ h :=
  List.drop_suffix _ _

theorem mergedHistory_last (iw : InkWell) :
    ∃ init e, mergedHistory iw = init ++ [e] ∧ e.Topic = iw.CurrTopic ∧
      e.Messages = tailSlice iw.Messages := by
  unfold mergedHistory
  cases hlast : iw.History.getLast? with
  | none => exact ⟨_, _, rfl, rfl, rfl⟩
  | some e =>
    by_cases heq : e.Topic = iw.CurrTopic
    · simp only [if_pos heq]
      exact ⟨_, _, rfl, heq, rfl⟩
    · simp only [if_neg heq]
      exact ⟨_, _, rfl, rfl, rfl⟩

theorem lastEntries_concat (m : Nat) (hm : 0 < m) (init : List HistoryItem) (e : HistoryItem) :
    ∃ init2, lastEntries m (init ++ [e]) = init2 ++ [e] := by
  unfold lastEntries
  rw [List.drop_append_of_le_length (by simp only [List.length_append, List.length_singleton]; omega)]
  exact ⟨_, rfl⟩

theorem lastEntries_two (L : List HistoryItem) (x y : HistoryItem) :
    lastEntries 2 (L ++ [x, y]) = [x, y] := by
  unfold lastEntries
  simp only [List.length_append, List.length_cons, List.length_nil]
  have h : L.length + (0 + 1 + 1) - 2 = L.length := by omega
  rw [h]
  exact List.drop_left _ _

theorem mergedHistory_other (iw : InkWell) (init : List HistoryItem) (e : HistoryItem)
    (hH : iw.History = init ++ [e]) (hne : e.Topic ≠ iw.CurrTopic) :
    mergedHistory iw = init ++ [e, archivedEntry iw] := by
  unfold mergedHistory
  rw [hH, List.getLast?_concat]
  simp only [if_neg hne, List.append_assoc, List.singleton_append]

/-- With room for two conversations, archiving a conversation whose topic is
not that of the last entry leaves that entry and the new one. -/
theorem archive_other (s : InkWell) (cfg : AppConfig) (init : List HistoryItem)
    (e : HistoryItem) (hcfg : s.Config = some cfg) (hH : s.History = init ++ [e])
    (hne : e.Topic ≠ s.CurrTopic) (hmax : cfg.MaxHistory = 2)
    (ht1 : s.CurrTopic ≠ []) (ht2 : s.CurrTopic ≠ DefaultTopic)
    (hlen : 2 ≤ s.Messages.len) (hcap : s.Messages.len ≤ s.Messages.cap) :
    AddCurrentConvToHistory s = some { s with History := [e, archivedEntry s] } := by
  have hskip : ¬ archiveSkipped s cfg := by
    unfold archiveSkipped
    simp only [not_or, not_le, not_lt]
    exact ⟨by omega, ht1, ht2, hlen⟩
  have h := archive_done s cfg hcfg hskip hcap
  have hm : cfg.MaxHistory.toNat = 2 := by omega
  rw [hm, mergedHistory_other s init e hH hne, lastEntries_two] at h
  exact h

/-! ## C12: the archive step and the cap on the history -/

/-- C12: in a state with `MaxHistory = m > 0`, a topic that is neither empty
nor `New chat` and at least two messages, `AddCurrentConvToHistory` returns
and sets `History` to the last `m` entries of the merged history: the old
history with the messages of its last entry replaced by `Messages[1:]` when
that entry has the current topic, and otherwise with the entry of the current
topic, prompt name and `Messages[1:]` appended.  `Messages[1:]` reads as the
messages after the first.  Afterwards the history has at most `m` entries, it
is an end piece of the merged history (the entries dropped are the oldest) and
its last entry is the active conversation.  With `m = 2`, archiving this
conversation and then two more of other topics leaves exactly the last two,
in order. -/
theorem C12_archive_caps_history (iw : InkWell) (cfg : AppConfig) (m : Nat)
    (hcfg : iw.Config = some cfg) (hm : cfg.MaxHistory = (m : Int)) (hpos : 0 < m)
    (ht1 : iw.CurrTopic ≠ []) (ht2 : iw.CurrTopic ≠ DefaultTopic)
    (hlen : 2 ≤ iw.Messages.len) (hcap : iw.Messages.len ≤ iw.Messages.cap) :
    AddCurrentConvToHistory iw
      = some { iw with History := lastEntries m (mergedHistory iw) } ∧
    readSlice iw.mem (tailSlice iw.Messages) = iw.msgs.drop 1 ∧
    (lastEntries m (mergedHistory iw)).length ≤ m ∧
    lastEntries m (mergedHistory iw) <:+ mergedHistory iw ∧
    (∃ init e, lastEntries m (mergedHistory iw) = init ++ [e] ∧ e.Topic = iw.CurrTopic ∧
      e.Messages = tailSlice iw.Messages) ∧
    (∀ (T2 T3 : GoString) (M2 M3 : MsgSlice), m = 2 →
      T2 ≠ [] → T2 ≠ DefaultTopic → T3 ≠ [] → T3 ≠ DefaultTopic →
      T2 ≠ iw.CurrTopic → T3 ≠ T2 →
      2 ≤ M2.len → M2.len ≤ M2.cap → 2 ≤ M3.len → M3.len ≤ M3.cap →
      ∃ s1 s2 s3, AddCurrentConvToHistory iw = some s1 ∧
        AddCurrentConvToHistory { s1 with CurrTopic := T2, Messages := M2 } = some s2 ∧
        AddCurrentConvToHistory { s2 with CurrTopic := T3, Messages := M3 } = some s3 ∧
        s3.History = [{ Topic := T2, Prompt := iw.PromptName, Messages := tailSlice M2 },
                      { Topic := T3, Prompt := iw.PromptName, Messages := tailSlice M3 }]) := by
  have hskip : ∀ (s : InkWell), s.CurrTopic ≠ [] → s.CurrTopic ≠ DefaultTopic → 2 ≤ s.Messages.len →
      ¬ archiveSkipped s cfg := by
    intro s h1 h2 h3
    unfold archiveSkipped
    simp only [not_or, not_le, not_lt]
    exact ⟨by omega, h1, h2, h3⟩
  have hmax : cfg.MaxHistory.toNat = m := by omega
  have hmain := archive_done iw cfg hcfg (hskip iw ht1 ht2 hlen) hcap
  rw [hmax] at hmain
  obtain ⟨init, e, hmerged, heT, heM⟩ := mergedHistory_last iw
  obtain ⟨init2, hlast⟩ := lastEntries_concat m hpos init e
  refine ⟨hmain, ?_, lastEntries_length _ _, lastEntries_suffix _ _,
    ⟨init2, e, by rw [hmerged, hlast], heT, heM⟩, ?_⟩
  · simp only [readSlice, tailSlice, InkWell.msgs]
    rw [List.drop_take, List.drop_drop]
  · intro T2 T3 M2 M3 hm2 hT2 hT2d hT3 hT3d h21 h32 hl2 hc2 hl3 hc3
    subst hm2
    have hH1 : lastEntries 2 (mergedHistory iw) = init2 ++ [e] := by rw [hmerged, hlast]
    rw [hH1] at hmain
    exact ⟨_, _, _, hmain,
      archive_other _ cfg init2 e hcfg rfl (by rw [heT]; exact fun h => h21 h.symm)
        hm hT2 hT2d hl2 hc2,
      archive_other _ cfg [e] _ hcfg rfl (fun h => h32 h.symm) hm hT3 hT3d hl3 hc3, rfl⟩

/-- C12 at the session `talkSession` with room for ten conversations. -/
theorem C12_archive_caps_history_witness :
    (AddCurrentConvToHistory talkSession).map (fun iw => iw.History.map (entryView iw.mem))
      = some [(lit "old talk", [{ Role := lit "user", Content := lit "old talk" },
                                { Role := lit "assistant", Content := lit "old reply" }]),
              (lit "trip to rome", [{ Role := lit "user", Content := lit "trip to rome" },
                                    { Role := lit "assistant", Content := lit "when" }])] := by
  rw [(C12_archive_caps_history talkSession demoConfig 10 rfl rfl (by decide) (by decide)
    (by decide) (by decide) (by decide)).1]
  decide

/-! ## C13: topics in the history -/

/-- C13, the claim fails: the history holds the topics `trip to rome` and
`old talk`, pairwise distinct, the active conversation has the topic
`trip to rome` again, and the archive step appends a second entry of that
topic, because only the last entry is compared. -/
theorem C13_counterexample :
    (({ talkSession with
        History := [{ Topic := lit "trip to rome", Prompt := lit "default",
                      Messages := { arr := 1, off := 0, len := 2, cap := 2 } },
                    { Topic := lit "old talk", Prompt := lit "default",
                      Messages := { arr := 1, off := 0, len := 2, cap := 2 } }] }
        : InkWell).History.map (fun e => e.Topic)).Nodup ∧
    (AddCurrentConvToHistory
      { talkSession with
        History := [{ Topic := lit "trip to rome", Prompt := lit "default",
                      Messages := { arr := 1, off := 0, len := 2, cap := 2 } },
                    { Topic := lit "old talk", Prompt := lit "default",
                      Messages := { arr := 1, off := 0, len := 2, cap := 2 } }] }).map
        (fun iw => iw.History.map (fun e => e.Topic))
      = some [lit "trip to rome", lit "old talk", lit "trip to rome"] := by
  decide

/-- C13 (amended): only the most recent entry is merged.  If the topics of the
history are pairwise distinct and the current topic does not occur among the
entries before the last, then `AddCurrentConvToHistory` returns and the
topics of the history are still pairwise distinct: a last entry with the
current topic has its message list replaced instead of a second entry being
added. -/
theorem C13_distinct_topics_kept (iw : InkWell) (cfg : AppConfig)
    (hcfg : iw.Config = some cfg) (hcap : iw.Messages.len ≤ iw.Messages.cap)
    (hnd : (iw.History.map (fun e => e.Topic)).Nodup)
    (hnot : iw.CurrTopic ∉ iw.History.dropLast.map (fun e => e.Topic)) :
    ∃ H, AddCurrentConvToHistory iw = some { iw with History := H } ∧
      (H.map (fun e => e.Topic)).Nodup := by
  by_cases hskip : archiveSkipped iw cfg
  · exact ⟨iw.History, archive_skip iw cfg hcfg hskip, hnd⟩
  · refine ⟨_, archive_done iw cfg hcfg hskip hcap, ?_⟩
    have hmerged : ((mergedHistory iw).map (fun e => e.Topic)).Nodup := by
      unfold mergedHistory
      cases hlast : iw.History.getLast? with
      | none =>
        have hnil : iw.History = [] := List.getLast?_eq_none_iff.mp hlast
        simp [hnil]
      | some e =>
        have hH : iw.History = iw.History.dropLast ++ [e] :=
          (List.dropLast_append_getLast? e hlast).symm
        by_cases heq : e.Topic = iw.CurrTopic
        · simp only [if_pos heq, List.map_append, List.map_cons, List.map_nil]
          rw [hH] at hnd
          simpa using hnd
        · simp only [if_neg heq, List.map_append, List.map_cons, List.map_nil, archivedEntry]
          rw [List.nodup_append]
          refine ⟨hnd, by simp, ?_⟩
          intro t ht1 ht2
          simp only [List.mem_singleton] at ht2
          subst ht2
          rw [hH, List.map_append, List.mem_append] at ht1
          rcases ht1 with h | h
          · exact hnot h
          · simp only [List.map_cons, List.map_nil, List.mem_singleton] at h
            exact heq h.symm
    exact hmerged.sublist ((List.drop_sublist _ _).map _)

/-- C13 (amended) at the session `talkSession`. -/
theorem C13_distinct_topics_kept_witness :
    ∃ H, AddCurrentConvToHistory talkSession = some { talkSession with History := H } ∧
      (H.map (fun e => e.Topic)).Nodup :=
  C13_distinct_topics_kept talkSession demoConfig rfl (by decide) (by decide) (by decide)

/-! ## C14: when nothing is archived -/

/-- C14: in a state whose topic is empty or `New chat`, or whose message list
has fewer than two entries, or whose `MaxHistory` is not positive,
`AddCurrentConvToHistory` returns and leaves the session, hence `History`,
exactly as it was. -/
theorem C14_archive_skipped (iw : InkWell) (cfg : AppConfig) (hcfg : iw.Config = some cfg)
    (h : iw.CurrTopic = [] ∨ iw.CurrTopic = DefaultTopic ∨ iw.Messages.len < 2
      ∨ cfg.MaxHistory ≤ 0) :
    AddCurrentConvToHistory iw = some iw := by
  apply archive_skip iw cfg hcfg
  unfold archiveSkipped
  rcases h with h | h | h | h
  · exact Or.inr (Or.inl h)
  · exact Or.inr (Or.inr (Or.inl h))
  · exact Or.inr (Or.inr (Or.inr h))
  · exact Or.inl h

/-- C14 at the session `talkSession` with its topic set back to `New chat`. -/
theorem C14_archive_skipped_witness :
    AddCurrentConvToHistory { talkSession with CurrTopic := DefaultTopic }
      = some { talkSession with CurrTopic := DefaultTopic } :=
  C14_archive_skipped { talkSession with CurrTopic := DefaultTopic } demoConfig rfl
    (Or.inr (Or.inl rfl))

/-! ## C15: switching to a history entry -/

set_option maxRecDepth 100000

/-- C15, evaluation at the failing input: in `talkSession` the menu choice `1`
takes the entry `old talk` out of the history, archives the active
conversation `trip to rome` and switches.  The topic and the messages are as
the claim says, but the entry archived for `trip to rome` reads the messages
of `old talk`: `append(iw.Messages[:1], item.Messages...)` wrote them into the
array that the archived slice `iw.Messages[1:]` shares.  The archive step
alone gives that entry the messages of `trip to rome`. -/
theorem C15_archived_entry_overwritten :
    (menuSwitch envAlwaysHi talkSession 1).map
        (fun iw => (iw.CurrTopic, iw.msgs, iw.History.map (entryView iw.mem)))
      = some (lit "old talk",
          [{ Role := lit "system", Content := DefaultPrompt },
           { Role := lit "user", Content := lit "old talk" },
           { Role := lit "assistant", Content := lit "old reply" }],
          [(lit "trip to rome", [{ Role := lit "user", Content := lit "old talk" },
                                 { Role := lit "assistant", Content := lit "old reply" }])]) ∧
    (AddCurrentConvToHistory { talkSession with History := removeAt talkSession.History 0 }).map
        (fun iw => iw.History.map (entryView iw.mem))
      = some [(lit "trip to rome", [{ Role := lit "user", Content := lit "trip to rome" },
                                    { Role := lit "assistant", Content := lit "when" }])] := by
  decide

/-! ## C16: the resend command -/

/-- With no line typed so far and more than two messages, the input `r` or `R`
is turned into the empty input, and an empty input with no line typed sends
nothing: the session is unchanged and no request is issued. -/
theorem startDefault_resend (env : Env) (iw : InkWell) (input : GoString) (log : Log)
    (hin : input = lit "r" ∨ input = lit "R") (hlen : iw.Messages.len > 2) :
    startDefault env iw [] input log = (some (iw, []), log) := by
  have hre : ((decide (input = lit "r") || decide (input = lit "R"))
      && decide (([] : List GoString).length = 0) && decide (iw.Messages.len > 2)) = true := by
    rcases hin with h | h <;> simp [h, hlen]
  unfold startDefault
  simp only [hre]
  simp

/-- C16, evaluation at the failing input: in `talkSession`, with no line typed
and three messages, the input `r` (and `R`) leaves the session and the typed
lines as they were and issues no request: nothing is sent again and no reply
is recorded. -/
theorem C16_resend_sends_nothing :
    startDefault envAlwaysHi talkSession [] (lit "r") [] = (some (talkSession, []), []) ∧
    startDefault envAlwaysHi talkSession [] (lit "R") [] = (some (talkSession, []), []) :=
  ⟨startDefault_resend envAlwaysHi talkSession (lit "r") [] (Or.inl rfl) (by decide),
   startDefault_resend envAlwaysHi talkSession (lit "R") [] (Or.inr rfl) (by decide)⟩

/-! ## Session operations on the message list -/

theorem GetPromptText_some (iw : InkWell) (hcfg : iw.Config ≠ none) :
    ∃ prompt prompts name,
      GetPromptText iw = some (prompt, { iw with Prompts := prompts, PromptName := name }) := by
  unfold GetPromptText
  split
  · rename_i h; exact absurd h hcfg
  · simp only []
    split_ifs <;> exact ⟨_, _, _, rfl⟩

theorem GetPromptText_ne_none (iw : InkWell) (hcfg : iw.Config ≠ none) :
    GetPromptText iw ≠ none := by
  obtain ⟨prompt, prompts, name, h⟩ := GetPromptText_some iw hcfg
  rw [h]
  exact fun h2 => Option.noConfusion h2

theorem GetPromptText_inv (iw : InkWell) (prompt : GoString) (iw2 : InkWell)
    (h : GetPromptText iw = some (prompt, iw2)) :
    ∃ prompts name, iw2 = { iw with Prompts := prompts, PromptName := name } := by
  unfold GetPromptText at h
  split at h
  · exact Option.noConfusion h
  · simp only [] at h
    split_ifs at h <;> (cases h; exact ⟨_, _, rfl⟩)

theorem config_some (iw : InkWell) (hcfg : iw.Config ≠ none) : ∃ cfg, iw.Config = some cfg := by
  cases hc : iw.Config with
  | none => exact absurd hc hcfg
  | some cfg => exact ⟨cfg, rfl⟩

theorem archive_frame (iw : InkWell) (hcfg : iw.Config ≠ none)
    (hcap : iw.Messages.len ≤ iw.Messages.cap) :
    ∃ H, AddCurrentConvToHistory iw = some { iw with History := H } := by
  obtain ⟨cfg, hc⟩ := config_some iw hcfg
  by_cases hskip : archiveSkipped iw cfg
  · exact ⟨iw.History, archive_skip iw cfg hc hskip⟩
  · exact ⟨_, archive_done iw cfg hc hskip hcap⟩

theorem SystemFirst_len (iw : InkWell) (hv : validSlice iw.mem iw.Messages)
    (h : SystemFirst iw) : 1 ≤ iw.Messages.len := by
  obtain ⟨first, rest, hm, _⟩ := h
  have hl := readSlice_length iw.mem iw.Messages hv
  unfold InkWell.msgs at hm
  rw [hm] at hl
  simp only [List.length_cons] at hl
  omega

/-- The step that appends the user message and updates the topic returns, and
the messages after it are those before it followed by the user message. -/
theorem submitTopic_frame (env : Env) (iw : InkWell) (msg : GoString) (log : Log)
    (hok : sessionOk env iw) :
    ∃ iw2 log1, submitTopic env iw msg log = (some iw2, log1) ∧
      iw2.msgs = iw.msgs ++ [{ Role := lit "user", Content := msg }] ∧
      sessionOk env iw2 := by
  obtain ⟨hcfg, hv, hp⟩ := hok
  obtain ⟨hread, hvalid⟩ := readSlice_append env.growCap iw.mem iw.Messages
    [{ Role := lit "user", Content := msg }] hv
  have hok1 : sessionOk env { iw with
      mem := (appendMsgs env.growCap iw.mem iw.Messages
        [{ Role := lit "user", Content := msg }]).1,
      Messages := (appendMsgs env.growCap iw.mem iw.Messages
        [{ Role := lit "user", Content := msg }]).2 } := ⟨hcfg, hvalid, hp⟩
  have hupd : ∀ m, ∃ iw2 log1, UpdateTopic env { iw with
      mem := (appendMsgs env.growCap iw.mem iw.Messages
        [{ Role := lit "user", Content := msg }]).1,
      Messages := (appendMsgs env.growCap iw.mem iw.Messages
        [{ Role := lit "user", Content := msg }]).2 } m log = (some iw2, log1) ∧
      iw2.msgs = iw.msgs ++ [{ Role := lit "user", Content := msg }] ∧
      sessionOk env iw2 := by
    intro m
    obtain ⟨topic, prov, mem1, log1, hu, hprov, hr, hvl⟩ := UpdateTopic_frame env _ m log hok1
    exact ⟨_, _, hu, hr.trans hread, hcfg, hvl, hprov⟩
  unfold submitTopic
  simp only []
  split
  · exact hupd msg
  · split
    · exact hupd []
    · exact ⟨_, _, rfl, hread, hok1⟩

/-- The branch that sends a message returns in a session that is in order; the
messages after it are those before it followed by the user message and the
reply recorded for the result `r` of the provider call. -/
theorem submitMessage_frame (env : Env) (iw : InkWell) (msg : GoString) (log : Log)
    (hok : sessionOk env iw) :
    ∃ iw2 log1 r iw3 log2 iw4,
      submitTopic env iw msg log = (some iw2, log1) ∧
      iw2.msgs = iw.msgs ++ [{ Role := lit "user", Content := msg }] ∧
      FetchAiResponse env iw2 iw2.msgs log1 = (some r, iw3, log2) ∧
      submitMessage env iw msg log = (some iw4, log2) ∧
      iw4.msgs = iw.msgs ++ [{ Role := lit "user", Content := msg },
        { Role := lit "assistant",
          Content := if r.Success then r.Content else lit "Error: " ++ r.Error }] ∧
      sessionOk env iw4 := by
  obtain ⟨iw2, log1, ht, hm2, hcfg2, hv2, hp2⟩ := submitTopic_frame env iw msg log hok
  obtain ⟨r, prov, log2, hf, hprov⟩ := FetchAiResponse_total env iw2 iw2.msgs log1 hp2
  obtain ⟨hread, hvalid⟩ := readSlice_append env.growCap iw2.mem iw2.Messages
    [{ Role := lit "assistant", Content := replyText r }] hv2
  have hnp : printAiResponsePanics { iw2 with Provider := prov } r = false := by
    obtain ⟨cfg, hc⟩ := config_some iw2 hcfg2
    simp only [printAiResponsePanics, hc]
  refine ⟨iw2, log1, r, _, log2,
    { ({ iw2 with Provider := prov } : InkWell) with
      mem := (appendMsgs env.growCap iw2.mem iw2.Messages
        [{ Role := lit "assistant", Content := replyText r }]).1,
      Messages := (appendMsgs env.growCap iw2.mem iw2.Messages
        [{ Role := lit "assistant", Content := replyText r }]).2 },
    ht, hm2, hf, ?_, ?_, ?_⟩
  · simp only [submitMessage, ht, hf, hnp, Bool.false_eq_true, if_false]
  · show readSlice _ _ = _
    rw [hread]
    unfold InkWell.msgs at hm2
    rw [hm2, List.append_assoc]
    rfl
  · exact ⟨hcfg2, hvalid, hprov⟩

/-- A new conversation starts with the system prompt only. -/
theorem StartNewConversation_frame (env : Env) (iw : InkWell) (hok : sessionOk env iw) :
    ∃ iw2 prompt, StartNewConversation iw = some iw2 ∧
      iw2.msgs = [{ Role := lit "system", Content := prompt }] ∧ sessionOk env iw2 := by
  obtain ⟨hcfg, hv, hp⟩ := hok
  obtain ⟨H, ha⟩ := archive_frame iw hcfg hv.1
  unfold StartNewConversation
  rw [ha]
  simp only []
  split
  · rename_i h; exact absurd h hcfg
  · rename_i cfg h
    split
    · rename_i h2; exact absurd h2 (GetPromptText_ne_none _ hcfg)
    · rename_i prompt iw2 h2
      obtain ⟨prompts, name, rfl⟩ := GetPromptText_inv _ _ _ h2
      obtain ⟨hread, hvalid⟩ := newSlice_read iw.mem { Role := lit "system", Content := prompt }
      exact ⟨_, prompt, rfl, hread, hcfg, hvalid, hp⟩

/-- Keeping the system prompt leaves one message, of role `system`. -/
theorem keepSystemPrompt_frame (env : Env) (iw : InkWell) (hok : sessionOk env iw)
    (hsf : 0 < iw.Messages.len → SystemFirst iw) :
    ∃ iw2 first, keepSystemPrompt iw = some iw2 ∧ iw2.msgs = [first] ∧
      first.Role = lit "system" ∧ sessionOk env iw2 ∧
      (0 < iw.Messages.len → iw2.msgs = iw.msgs.take 1) := by
  obtain ⟨hcfg, hv, hp⟩ := hok
  by_cases hlen : 0 < iw.Messages.len
  · obtain ⟨first, rest, hm, hrole⟩ := hsf hlen
    obtain ⟨hres, hread, hvalid⟩ := reslice_first iw.mem iw.Messages hv hlen
    have hone : readSlice iw.mem
        { arr := iw.Messages.arr, off := iw.Messages.off, len := 1, cap := iw.Messages.cap }
          = [first] := by
      unfold InkWell.msgs at hm
      rw [hread, hm]
      rfl
    simp only [keepSystemPrompt, gt_iff_lt, if_pos hlen, hres]
    exact ⟨_, first, rfl, hone, hrole, ⟨hcfg, hvalid, hp⟩, fun _ => hread⟩
  · obtain ⟨prompt, prompts, name, hg⟩ := GetPromptText_some iw hcfg
    obtain ⟨hread, hvalid⟩ := newSlice_read iw.mem { Role := lit "system", Content := prompt }
    simp only [keepSystemPrompt, gt_iff_lt, if_neg hlen, hg]
    exact ⟨_, _, rfl, hread, rfl, ⟨hcfg, hvalid, hp⟩, fun h => absurd h hlen⟩

/-- Switching to a conversation returns and leaves the system prompt first. -/
theorem SwitchConversation_frame (env : Env) (iw : InkWell) (item : HistoryItem)
    (hok : sessionOk env iw) (hsf : 0 < iw.Messages.len → SystemFirst iw) :
    ∃ iw4, SwitchConversation env iw item = some iw4 ∧ SystemFirst iw4 ∧ sessionOk env iw4 := by
  obtain ⟨H, ha⟩ := archive_frame iw hok.1 hok.2.1.1
  have hok1 : sessionOk env { iw with History := H } := hok
  obtain ⟨iw2, first, hk, hm2, hrole, ⟨hcfg2, hv2, hp2⟩, _⟩ :=
    keepSystemPrompt_frame env { iw with History := H } hok1 hsf
  obtain ⟨hread, hvalid⟩ := readSlice_append env.growCap iw2.mem iw2.Messages
    (readSlice iw2.mem item.Messages) hv2
  obtain ⟨prompt, prompts, name, hg⟩ := GetPromptText_some
    { iw2 with
      mem := (appendMsgs env.growCap iw2.mem iw2.Messages (readSlice iw2.mem item.Messages)).1,
      Messages := (appendMsgs env.growCap iw2.mem iw2.Messages
        (readSlice iw2.mem item.Messages)).2,
      CurrTopic := item.Topic, PromptName := item.Prompt } hcfg2
  unfold InkWell.msgs at hm2
  rw [hm2] at hread
  obtain ⟨mem4, hs, hr4, hv4⟩ := setContent0_read _ _ prompt first
    (readSlice iw2.mem item.Messages) hvalid hread
  simp only [SwitchConversation, ha, hk, hg, hs]
  exact ⟨_, rfl, ⟨_, _, hr4, hrole⟩, ⟨hcfg2, hv4, hp2⟩⟩

/-- Deleting history entries returns and leaves the messages, or their first one. -/
theorem DeleteHistory_frame (env : Env) (iw : InkWell) (indexList : List Int)
    (hok : sessionOk env iw) (hsf : SystemFirst iw) :
    ∃ iw2, DeleteHistory iw indexList = some iw2 ∧
      (iw2.msgs = iw.msgs ∨ iw2.msgs = iw.msgs.take 1) ∧
      SystemFirst iw2 ∧ sessionOk env iw2 := by
  obtain ⟨hcfg, hv, hp⟩ := hok
  have hlen := SystemFirst_len iw hv hsf
  obtain ⟨hres, hread, hvalid⟩ := reslice_first iw.mem iw.Messages hv hlen
  by_cases h0 : contains indexList 0 = true
  · obtain ⟨first, rest, hm, hrole⟩ := hsf
    have hone : readSlice iw.mem
        { arr := iw.Messages.arr, off := iw.Messages.off, len := 1, cap := iw.Messages.cap }
          = [first] := by
      unfold InkWell.msgs at hm
      rw [hread, hm]
      rfl
    simp only [DeleteHistory, if_pos h0, hres]
    exact ⟨_, rfl, Or.inr hread, ⟨first, [], hone, hrole⟩, ⟨hcfg, hvalid, hp⟩⟩
  · simp only [DeleteHistory, if_neg h0]
    exact ⟨_, rfl, Or.inl rfl, hsf, ⟨hcfg, hv, hp⟩⟩

/-- The prompt update returns and changes the content of the first message only. -/
theorem applyPrompt_frame (env : Env) (iw : InkWell) (prompt : GoString)
    (hok : sessionOk env iw) (hsf : SystemFirst iw) :
    ∃ iw2, applyPrompt iw prompt = some iw2 ∧ SystemFirst iw2 ∧ sessionOk env iw2 ∧
      iw2.msgs.drop 1 = iw.msgs.drop 1 := by
  obtain ⟨hcfg, hv, hp⟩ := hok
  by_cases hpr : prompt ≠ []
  · obtain ⟨first, rest, hm, hrole⟩ := hsf
    obtain ⟨mem2, hs, hr2, hv2⟩ := setContent0_read iw.mem iw.Messages prompt first rest hv hm
    obtain ⟨cfg, hc⟩ := config_some iw hcfg
    refine ⟨{ iw with
        Config := some { (if iw.PromptName = lit "custom"
            then { cfg with CustomPrompt := prompt } else cfg) with Prompt := iw.PromptName },
        mem := mem2 }, ?_, ⟨_, _, hr2, hrole⟩,
      ⟨fun h => Option.noConfusion h, hv2, hp⟩, ?_⟩
    · unfold applyPrompt
      rw [if_pos hpr]
      split
      · rename_i h; rw [hc] at h; exact Option.noConfusion h
      · rename_i cfg2 h
        rw [hc] at h
        cases h
        simp only [hs]
    · show (readSlice mem2 iw.Messages).drop 1 = (readSlice iw.mem iw.Messages).drop 1
      unfold InkWell.msgs at hm
      rw [hr2, hm]
      rfl
  · exact ⟨iw, by simp only [applyPrompt, if_neg hpr], hsf, ⟨hcfg, hv, hp⟩, rfl⟩

/-- The conversation reset of the clippings returns; it keeps the first
message and puts the request and the reply after it. -/
theorem clippingsSend_frame (env : Env) (iw : InkWell) (msg : GoString) (log : Log)
    (hok : sessionOk env iw) (hsf : SystemFirst iw) :
    ∃ iw2 log2 r, clippingsSend env iw msg log = (some iw2, log2) ∧
      iw2.msgs = iw.msgs.take 1 ++ [{ Role := lit "user", Content := msg },
        { Role := lit "assistant", Content := replyText r }] ∧
      SystemFirst iw2 ∧ sessionOk env iw2 := by
  obtain ⟨hcfg, hv, hp⟩ := hok
  have hlen := SystemFirst_len iw hv hsf
  obtain ⟨hres, hread, hvalid⟩ := reslice_first iw.mem iw.Messages hv hlen
  obtain ⟨hread1, hvalid1⟩ := readSlice_append env.growCap iw.mem
    { arr := iw.Messages.arr, off := iw.Messages.off, len := 1, cap := iw.Messages.cap }
    [{ Role := lit "user", Content := msg }] hvalid
  obtain ⟨r, prov, log2, hf, hprov⟩ := FetchAiResponse_total env
    { iw with
      mem := (appendMsgs env.growCap iw.mem
        { arr := iw.Messages.arr, off := iw.Messages.off, len := 1, cap := iw.Messages.cap }
        [{ Role := lit "user", Content := msg }]).1,
      Messages := (appendMsgs env.growCap iw.mem
        { arr := iw.Messages.arr, off := iw.Messages.off, len := 1, cap := iw.Messages.cap }
        [{ Role := lit "user", Content := msg }]).2 }
    (readSlice (appendMsgs env.growCap iw.mem
        { arr := iw.Messages.arr, off := iw.Messages.off, len := 1, cap := iw.Messages.cap }
        [{ Role := lit "user", Content := msg }]).1
      (appendMsgs env.growCap iw.mem
        { arr := iw.Messages.arr, off := iw.Messages.off, len := 1, cap := iw.Messages.cap }
        [{ Role := lit "user", Content := msg }]).2) log hp
  obtain ⟨hread2, hvalid2⟩ := readSlice_append env.growCap _ _
    [{ Role := lit "assistant", Content := replyText r }] hvalid1
  have hmsgs : readSlice
      (appendMsgs env.growCap (appendMsgs env.growCap iw.mem
        { arr := iw.Messages.arr, off := iw.Messages.off, len := 1, cap := iw.Messages.cap }
        [{ Role := lit "user", Content := msg }]).1 (appendMsgs env.growCap iw.mem
        { arr := iw.Messages.arr, off := iw.Messages.off, len := 1, cap := iw.Messages.cap }
        [{ Role := lit "user", Content := msg }]).2
        [{ Role := lit "assistant", Content := replyText r }]).1
      (appendMsgs env.growCap (appendMsgs env.growCap iw.mem
        { arr := iw.Messages.arr, off := iw.Messages.off, len := 1, cap := iw.Messages.cap }
        [{ Role := lit "user", Content := msg }]).1 (appendMsgs env.growCap iw.mem
        { arr := iw.Messages.arr, off := iw.Messages.off, len := 1, cap := iw.Messages.cap }
        [{ Role := lit "user", Content := msg }]).2
        [{ Role := lit "assistant", Content := replyText r }]).2
      = iw.msgs.take 1 ++ [{ Role := lit "user", Content := msg },
        { Role := lit "assistant", Content := replyText r }] := by
    rw [hread2, hread1, hread, List.append_assoc]
    rfl
  obtain ⟨first, rest, hm, hrole⟩ := hsf
  have hfirst : iw.msgs.take 1 ++ [{ Role := lit "user", Content := msg },
        { Role := lit "assistant", Content := replyText r }]
      = first :: [{ Role := lit "user", Content := msg },
        { Role := lit "assistant", Content := replyText r }] := by
    rw [hm]
    rfl
  simp only [clippingsSend, hres, InkWell.msgs, hf]
  exact ⟨_, log2, r, rfl, hmsgs, ⟨first, _, hmsgs.trans hfirst, hrole⟩, ⟨hcfg, hvalid2, hprov⟩⟩

/-- The session `talkSession` is in order, whatever the network. -/
theorem talkSession_ok : sessionOk envAlwaysHi talkSession := by
  refine ⟨by decide, ⟨by decide, by decide⟩, ?_⟩
  intro p h
  have hp : plainProvider (lit "openai") = p := Option.some.inj h
  subst hp
  exact ⟨by unfold cursorOk; decide, by unfold cursorOk; decide,
    fun hn => absurd hn (by decide)⟩

/-- The session `talkSession` has its system prompt first. -/
theorem talkSession_first : SystemFirst talkSession :=
  ⟨{ Role := lit "system", Content := DefaultPrompt },
   [{ Role := lit "user", Content := lit "trip to rome" },
    { Role := lit "assistant", Content := lit "when" }], by decide, rfl⟩

/-! ## C17: what a submission adds to the messages -/

/-- C17: in a session that is in order, the branch of the input loop that
submits the message `msg` returns; with `r` the result of its provider call
(made on the messages with `msg` appended), the message list afterwards is
the list before followed by exactly `user msg` and `assistant c`, where `c` is
`r.Content` when `r.Success` and `Error: ` followed by `r.Error` when not.
The messages before are a prefix of the new list, unchanged. -/
theorem C17_submit_appends_two (env : Env) (iw : InkWell) (msg : GoString) (log : Log)
    (hok : sessionOk env iw) :
    ∃ iw2 log1 r iw3 log2 iw4,
      submitTopic env iw msg log = (some iw2, log1) ∧
      iw2.msgs = iw.msgs ++ [{ Role := lit "user", Content := msg }] ∧
      FetchAiResponse env iw2 iw2.msgs log1 = (some r, iw3, log2) ∧
      submitMessage env iw msg log = (some iw4, log2) ∧
      iw4.msgs = iw.msgs ++ [{ Role := lit "user", Content := msg },
        { Role := lit "assistant",
          Content := if r.Success then r.Content else lit "Error: " ++ r.Error }] := by
  obtain ⟨iw2, log1, r, iw3, log2, iw4, h1, h2, h3, h4, h5, _⟩ :=
    submitMessage_frame env iw msg log hok
  exact ⟨iw2, log1, r, iw3, log2, iw4, h1, h2, h3, h4, h5⟩

/-- C17 at the session `talkSession` and the message `in may`. -/
theorem C17_submit_appends_two_witness :
    ∃ iw2 log1 r iw3 log2 iw4,
      submitTopic envAlwaysHi talkSession (lit "in may") [] = (some iw2, log1) ∧
      iw2.msgs = talkSession.msgs ++ [{ Role := lit "user", Content := lit "in may" }] ∧
      FetchAiResponse envAlwaysHi iw2 iw2.msgs log1 = (some r, iw3, log2) ∧
      submitMessage envAlwaysHi talkSession (lit "in may") [] = (some iw4, log2) ∧
      iw4.msgs = talkSession.msgs ++ [{ Role := lit "user", Content := lit "in may" },
        { Role := lit "assistant",
          Content := if r.Success then r.Content else lit "Error: " ++ r.Error }] :=
  C17_submit_appends_two envAlwaysHi talkSession (lit "in may") [] talkSession_ok

/-! ## C18: the system prompt stays first -/

/-- C18: in a session that is in order, `StartNewConversation` returns a
session whose message list is not empty and starts with a message of role
`system`; and from a session with that property, submitting a message,
`SwitchConversation`, `DeleteHistory` (index 0 included), the prompt update of
`SwitchPrompt` and the conversation reset of `SummarizeClippings` all return a
session with that property, again in order.  `DeleteHistory` leaves the
messages or keeps just the first one, the prompt update changes no message
after the first, and the reset keeps the first message and puts the request
and the reply after it. -/
theorem C18_system_prompt_first (env : Env) (iw : InkWell) (hok : sessionOk env iw) :
    (∃ iw2, StartNewConversation iw = some iw2 ∧ SystemFirst iw2 ∧ sessionOk env iw2) ∧
    (SystemFirst iw →
      (∀ msg log, ∃ iw2 log2, submitMessage env iw msg log = (some iw2, log2) ∧
        SystemFirst iw2 ∧ sessionOk env iw2) ∧
      (∀ item, ∃ iw2, SwitchConversation env iw item = some iw2 ∧
        SystemFirst iw2 ∧ sessionOk env iw2) ∧
      (∀ indexList, ∃ iw2, DeleteHistory iw indexList = some iw2 ∧
        (iw2.msgs = iw.msgs ∨ iw2.msgs = iw.msgs.take 1) ∧
        SystemFirst iw2 ∧ sessionOk env iw2) ∧
      (∀ prompt, ∃ iw2, applyPrompt iw prompt = some iw2 ∧
        iw2.msgs.drop 1 = iw.msgs.drop 1 ∧ SystemFirst iw2 ∧ sessionOk env iw2) ∧
      (∀ msg log, ∃ iw2 log2 r, clippingsSend env iw msg log = (some iw2, log2) ∧
        iw2.msgs = iw.msgs.take 1 ++ [{ Role := lit "user", Content := msg },
          { Role := lit "assistant", Content := replyText r }] ∧
        SystemFirst iw2 ∧ sessionOk env iw2)) := by
  refine ⟨?_, fun hsf => ⟨?_, ?_, ?_, ?_, ?_⟩⟩
  · obtain ⟨iw2, prompt, h, hm, hok2⟩ := StartNewConversation_frame env iw hok
    exact ⟨iw2, h, ⟨_, _, hm, rfl⟩, hok2⟩
  · intro msg log
    obtain ⟨iw2, log1, r, iw3, log2, iw4, _, _, _, h4, h5, hok4⟩ :=
      submitMessage_frame env iw msg log hok
    obtain ⟨first, rest, hm, hrole⟩ := hsf
    rw [hm] at h5
    exact ⟨iw4, log2, h4, ⟨first, _, h5, hrole⟩, hok4⟩
  · intro item
    exact SwitchConversation_frame env iw item hok (fun _ => hsf)
  · intro indexList
    exact DeleteHistory_frame env iw indexList hok hsf
  · intro prompt
    obtain ⟨iw2, h, hsf2, hok2, hd⟩ := applyPrompt_frame env iw prompt hok hsf
    exact ⟨iw2, h, hd, hsf2, hok2⟩
  · intro msg log
    exact clippingsSend_frame env iw msg log hok hsf

/-- C18 at the session `talkSession`: a new conversation started from it has
its system prompt first. -/
theorem C18_system_prompt_first_witness :
    ∃ iw2, StartNewConversation talkSession = some iw2 ∧ SystemFirst iw2 ∧
      sessionOk envAlwaysHi iw2 :=
  (C18_system_prompt_first envAlwaysHi talkSession talkSession_ok).1

/-! ## C19, C20: tables with rows of different lengths -/

/-- The first loop of `MdTableToTerm` either ends with `colNums` nil, or has
appended to it the cell count of every table row among the lines. -/
theorem termScan_colNums (lines : List GoString) : ∀ (idx : Nat) (st : TermScan),
    (termScan lines idx st).colNums = [] ∨
    (termScan lines idx st).colNums
      = st.colNums ++ (lines.filter isPipeRow).map (fun row => (termCells row).length) := by
  induction lines with
  | nil =>
    intro idx st
    right
    simp [termScan]
  | cons row rest ih =>
    intro idx st
    by_cases hrow : isPipeRow row = true
    · by_cases hbrk : st.prevTableRowIdx ≥ 0 ∧ st.prevTableRowIdx + 1 ≠ (idx : Int)
      · left
        simp only [termScan, if_pos hrow, if_pos hbrk]
      · simp only [termScan, if_pos hrow, if_neg hbrk]
        rcases ih (idx + 1)
          { table := st.table ++ [termCells row],
            colWidths := widen
              (if st.colWidths.length < (termCells row).length
                then List.replicate (termCells row).length 0 else st.colWidths)
              (termCells row),
            colNums := st.colNums ++ [(termCells row).length],
            prevTableRowIdx := (idx : Int) } with h | h
        · exact Or.inl h
        · right
          rw [h]
          simp [List.filter_cons, hrow]
    · simp only [termScan, if_neg hrow]
      rcases ih (idx + 1) { st with table := st.table ++ [[row]] } with h | h
      · exact Or.inl h
      · right
        rw [h]
        simp [List.filter_cons, hrow]

/-- A list with two different members has, after its head, a member that is
not its head. -/
theorem tail_differs (l : List Nat) (a b : Nat) (ha : a ∈ l) (hb : b ∈ l) (hne : a ≠ b) :
    l.tail.any (fun n => decide (some n ≠ l.head?)) = true := by
  cases l with
  | nil => cases ha
  | cons x xs =>
    simp only [List.tail_cons, List.head?_cons]
    by_contra hall
    have hx : ∀ n ∈ xs, n = x := by
      intro n hn
      by_contra hnx
      apply hall
      rw [List.any_eq_true]
      exact ⟨n, hn, decide_eq_true (fun h => hnx (Option.some.inj h))⟩
    have hax : a = x := by
      rcases List.mem_cons.mp ha with h | h
      · exact h
      · exact hx a h
    have hbx : b = x := by
      rcases List.mem_cons.mp hb with h | h
      · exact h
      · exact hx b h
    exact hne (hax.trans hbx.symm)

/-- C19: when two lines of `content` start and end with a bar and have
different cell counts, `MdTableToTerm` returns, and returns `content` itself. -/
theorem C19_uneven_rows_unchanged (content row1 row2 : GoString)
    (h1 : row1 ∈ Split content 0x0A) (h2 : row2 ∈ Split content 0x0A)
    (hp1 : isPipeRow row1 = true) (hp2 : isPipeRow row2 = true)
    (hne : (termCells row1).length ≠ (termCells row2).length) :
    MdTableToTerm content = some content := by
  unfold MdTableToTerm
  simp only []
  rcases termScan_colNums (Split content 0x0A) 0
    { table := [], colWidths := [], colNums := [], prevTableRowIdx := -1 } with h | h
  · have hc : (termScan (Split content 0x0A) 0
        { table := [], colWidths := [], colNums := [], prevTableRowIdx := -1 }).colWidths.length
          = 0 ∨ (termScan (Split content 0x0A) 0
        { table := [], colWidths := [], colNums := [], prevTableRowIdx := -1 }).colNums.length
          = 0 := Or.inr (by rw [h]; rfl)
    rw [if_pos hc]
  · have hm1 : (termCells row1).length ∈ (termScan (Split content 0x0A) 0
        { table := [], colWidths := [], colNums := [], prevTableRowIdx := -1 }).colNums := by
      rw [h]
      exact List.mem_append_right _
        (List.mem_map.mpr ⟨row1, List.mem_filter.mpr ⟨h1, hp1⟩, rfl⟩)
    have hm2 : (termCells row2).length ∈ (termScan (Split content 0x0A) 0
        { table := [], colWidths := [], colNums := [], prevTableRowIdx := -1 }).colNums := by
      rw [h]
      exact List.mem_append_right _
        (List.mem_map.mpr ⟨row2, List.mem_filter.mpr ⟨h2, hp2⟩, rfl⟩)
    have hany := tail_differs _ _ _ hm1 hm2 hne
    split_ifs
    · rfl
    · rfl

/-- C19 at a table whose second row has one cell more than its first. -/
theorem C19_uneven_rows_unchanged_witness :
    MdTableToTerm (lit "|a|b|\n|c|d|e|") = some (lit "|a|b|\n|c|d|e|") :=
  C19_uneven_rows_unchanged (lit "|a|b|\n|c|d|e|") (lit "|a|b|") (lit "|c|d|e|")
    (by decide) (by decide) (by decide) (by decide) (by decide)

/-- C20, evaluation at the failing input: the two lines `|a|b|` and `|c|d|e|`
are a run of pipe-delimited lines with two and three cells, and
`MdTableToHtml` renders them as one table, the second row with three cells;
`MdTableToTerm` returns the same content unchanged. -/
theorem C20_uneven_rows_rendered :
    MdTableToHtml (lit "|a|b|\n|c|d|e|")
      = lit ("<table border=\"1\" cellspacing=\"0\" width=\"100%\">"
          ++ "<tr><td><strong>a</strong></td><td><strong>b</strong></td></tr>"
          ++ "<tr><td>c</td><td>d</td><td>e</td></tr></table>") ∧
    (htmlCells (lit "|a|b|")).length = 2 ∧ (htmlCells (lit "|c|d|e|")).length = 3 ∧
    MdTableToTerm (lit "|a|b|\n|c|d|e|") = some (lit "|a|b|\n|c|d|e|") := by
  decide

/-! ## C29: the host used when none is configured -/

/-- `strings.Split` never returns an empty slice for a separator of one byte. -/
theorem splitAux_ne_nil (sep : UInt8) : ∀ (s cur : GoString), splitAux sep s cur ≠ [] := by
  intro s
  induction s with
  | nil => intro cur; simp [splitAux]
  | cons b rest ih =>
    intro cur
    unfold splitAux
    split
    · exact List.cons_ne_nil _ _
    · exact ih _

/-- The provider made by `Start` always has the pieces of `cfg.ApiHost` as its
hosts: the test `len(hosts) == 0` never holds, and with no host configured the
only host is the empty string. -/
theorem startProvider_hosts (cfg : AppConfig) :
    (startProvider cfg).Hosts = Split cfg.ApiHost 0x3B ∧
    (cfg.ApiHost = [] → (startProvider cfg).Hosts = [[]]) := by
  have hne : (Split cfg.ApiHost 0x3B).length ≠ 0 := by
    intro h
    exact splitAux_ne_nil 0x3B cfg.ApiHost [] (List.length_eq_zero.mp h)
  refine ⟨?_, ?_⟩
  · simp only [startProvider, if_neg hne]
  · intro h
    simp only [startProvider, if_neg hne, h]
    rfl

/-- C29, evaluation at the failing inputs: with no host configured, the
request of a chat with the provider `xai`, `mistral`, `groq`, `perplexity` or
`alibaba` goes to the host of `AIList["openai"]`, not to the host of the
provider in `AIList`; only `openai`, `google` and `anthropic` get their own
host. -/
theorem C29_default_host_is_openai :
    [lit "xai", lit "mistral", lit "groq", lit "perplexity", lit "alibaba"].map
        (fun name => ((Chat envAlwaysHi (startProvider (noHostConfig name))
          [{ Role := lit "user", Content := lit "q" }] []).2.2.map (fun req => req.url),
          AIListHost name))
      = [([lit "https://api.openai.com/v1/chat/completions"], lit "https://api.x.ai"),
         ([lit "https://api.openai.com/v1/chat/completions"], lit "https://api.mistral.ai"),
         ([lit "https://api.openai.com/openai/v1/chat/completions"], lit "https://api.groq.com"),
         ([lit "https://api.openai.com/chat/completions"], lit "https://api.perplexity.ai"),
         ([lit "https://api.openai.com/compatible-mode/v1/chat/completions"],
           lit "https://dashscope.aliyuncs.com")] ∧
    [lit "openai", lit "google", lit "anthropic"].map
        (fun name => (Chat envAlwaysHi (startProvider (noHostConfig name))
          [{ Role := lit "user", Content := lit "q" }] []).2.2.map
            (fun req => HasPrefix req.url (AIListHost name)))
      = [[true], [true], [true]] := by
  decide

/-! ## C30: an archived conversation after the switch -/

/-- C30, evaluation at the failing input: in `talkSession` the active
conversation is `trip to rome` with the messages `trip to rome`, `when` after
the system prompt.  `SwitchConversation` to an entry of one message archives
it, and the archived entry then reads `hello`, `when`: its first message was
overwritten by the message of the entry switched to.  After one more exchange
in the new conversation it reads `hello`, `more`: the second one was
overwritten by the new question. -/
theorem C30_archived_entry_altered :
    (talkSession.msgs.drop 1
      = [{ Role := lit "user", Content := lit "trip to rome" },
         { Role := lit "assistant", Content := lit "when" }]) ∧
    (SwitchConversation envAlwaysHi { talkSession with
          mem := talkSession.mem ++ [[{ Role := lit "user", Content := lit "hello" }]] }
        { Topic := lit "greeting", Prompt := lit "default",
          Messages := { arr := 2, off := 0, len := 1, cap := 1 } }).map
        (fun iw => (iw.History.map (entryView iw.mem)).getLast?)
      = some (some (lit "trip to rome",
          [{ Role := lit "user", Content := lit "hello" },
           { Role := lit "assistant", Content := lit "when" }])) ∧
    ((SwitchConversation envAlwaysHi { talkSession with
          mem := talkSession.mem ++ [[{ Role := lit "user", Content := lit "hello" }]] }
        { Topic := lit "greeting", Prompt := lit "default",
          Messages := { arr := 2, off := 0, len := 1, cap := 1 } }).bind
        (fun iw => (submitMessage envAlwaysHi iw (lit "more") []).1)).map
        (fun iw => (iw.History.map (entryView iw.mem)).getLast?)
      = some (some (lit "trip to rome",
          [{ Role := lit "user", Content := lit "hello" },
           { Role := lit "user", Content := lit "more" }])) := by
  decide

/-! ## C28: ranges of numbers -/

theorem splitAux_append (sep : UInt8) : ∀ (p rest cur : GoString), sep ∉ p →
    splitAux sep (p ++ rest) cur = splitAux sep rest (cur ++ p) := by
  intro p
  induction p with
  | nil => intro rest cur _; simp
  | cons b p2 ih =>
    intro rest cur h
    have hb : b ≠ sep := fun e => h (e ▸ List.mem_cons_self _ _)
    have h2 : sep ∉ p2 := fun e => h (List.mem_cons_of_mem _ e)
    rw [List.cons_append, splitAux, if_neg hb, ih rest (cur ++ [b]) h2]
    simp

theorem splitAux_piece (sep : UInt8) (p cur : GoString) (h : sep ∉ p) :
    splitAux sep p cur = [cur ++ p] := by
  have := splitAux_append sep p [] cur h
  simp only [List.append_nil] at this
  rw [this]
  rfl

/-- Splitting what `Join` made of pieces without the separator gives the pieces back. -/
theorem Split_Join (sep : UInt8) : ∀ (pieces : List GoString), pieces ≠ [] →
    (∀ p ∈ pieces, sep ∉ p) → Split (Join pieces [sep]) sep = pieces := by
  intro pieces
  induction pieces with
  | nil => intro h; exact absurd rfl h
  | cons p rest ih =>
    intro _ hp
    cases rest with
    | nil =>
      simp only [Join, Split]
      rw [splitAux_piece sep p [] (hp p (List.mem_cons_self _ _))]
      rfl
    | cons q rest2 =>
      have ih2 := ih (List.cons_ne_nil _ _) (fun x hx => hp x (List.mem_cons_of_mem _ hx))
      unfold Split at ih2
      have e : Join (p :: q :: rest2) [sep] = p ++ (sep :: Join (q :: rest2) [sep]) := by
        rw [Join, List.append_assoc]
        rfl
      rw [Split, e, splitAux_append sep p _ [] (hp p (List.mem_cons_self _ _)), splitAux,
        if_pos rfl, ih2]
      rfl

theorem digit_ne (b c : UInt8) (hb : isDigit b = true) (hc : isDigit c = false) : b ≠ c := by
  intro e
  rw [e, hc] at hb
  exact Bool.noConfusion hb

theorem SplitN2_none (s : GoString) (sep : UInt8) (h : sep ∉ s) : SplitN2 s sep = [s] := by
  simp [SplitN2, h]

theorem SplitN2_at (a b : GoString) (sep : UInt8) (h : sep ∉ a) :
    SplitN2 (a ++ [sep] ++ b) sep = [a, b] := by
  have hmem : sep ∈ a ++ [sep] ++ b := by simp
  have ht : ∀ (a : GoString), sep ∉ a →
      (a ++ [sep] ++ b).takeWhile (fun x => x != sep) = a ∧
      (a ++ [sep] ++ b).dropWhile (fun x => x != sep) = sep :: b := by
    intro a
    induction a with
    | nil => intro _; simp [List.takeWhile, List.dropWhile]
    | cons x a2 ih =>
      intro hx
      have hne : x ≠ sep := fun e => hx (e ▸ List.mem_cons_self _ _)
      have h2 := ih (fun e => hx (List.mem_cons_of_mem _ e))
      have hb : (x != sep) = true := by simpa using hne
      have e : x :: a2 ++ [sep] ++ b = x :: (a2 ++ [sep] ++ b) := rfl
      rw [e, List.takeWhile_cons, List.dropWhile_cons, hb]
      exact ⟨by simp only [if_true]; rw [h2.1], by simp only [if_true]; exact h2.2⟩
  simp only [SplitN2, if_pos hmem, (ht a h).1, (ht a h).2, List.drop_succ_cons, List.drop_zero]

theorem Numeral_not_mem (ds : GoString) (c : UInt8) (h : ∀ b ∈ ds, isDigit b = true)
    (hc : isDigit c = false) : c ∉ ds :=
  fun hm => digit_ne c c (h c hm) hc rfl

theorem Atoi_numeral (w : Nat) (ds : GoString) (h : Numeral w ds) :
    Atoi w ds = some (digitsVal ds : Int) := by
  obtain ⟨hne, hd, hv⟩ := h
  cases ds with
  | nil => exact absurd rfl hne
  | cons b rest =>
    have hb := hd b (List.mem_cons_self _ _)
    have h1 : b ≠ 0x2D := digit_ne b 0x2D hb (by decide)
    have h2 : b ≠ 0x2B := digit_ne b 0x2B hb (by decide)
    have hall : (b :: rest).all isDigit = true := List.all_eq_true.mpr hd
    have hhead : ¬ ((b :: rest).head? = some 0x2D ∨ (b :: rest).head? = some 0x2B) := by
      simp [h1, h2]
    have hneg : decide ((b :: rest).head? = some 0x2D) = false := by simp [h1]
    have hbad : ¬ ((b :: rest) = [] ∨ (b :: rest).all isDigit = false) := by
      simp [hall]
    have hrange : ¬ (((digitsVal (b :: rest) : Nat) : Int) < -(2 : Int) ^ (w - 1) ∨
        ((digitsVal (b :: rest) : Nat) : Int) > (2 : Int) ^ (w - 1) - 1) := by
      have h3 : ((digitsVal (b :: rest) : Nat) : Int) < (2 : Int) ^ (w - 1) := by
        exact_mod_cast hv
      have h4 : (0 : Int) < (2 : Int) ^ (w - 1) := by positivity
      omega
    simp only [Atoi, if_neg hhead, hneg, if_neg hbad, Bool.false_eq_true, if_false, if_neg hrange]

/-- What `Atoi` returns is an `int`. -/
theorem Atoi_range (w : Nat) (s : GoString) (v : Int) (h : Atoi w s = some v) :
    -(2 : Int) ^ (w - 1) ≤ v ∧ v ≤ (2 : Int) ^ (w - 1) - 1 := by
  unfold Atoi at h
  simp only [] at h
  generalize (if s.head? = some 0x2D ∨ s.head? = some 0x2B then s.drop 1 else s) = ds at h
  by_cases h1 : ds = [] ∨ ds.all isDigit = false
  · rw [if_pos h1] at h
    exact absurd h (by simp)
  · rw [if_neg h1] at h
    generalize (if decide (s.head? = some 0x2D) = true then -(digitsVal ds : Int)
      else (digitsVal ds : Int)) = v0 at h
    by_cases h2 : v0 < -(2 : Int) ^ (w - 1) ∨ v0 > (2 : Int) ^ (w - 1) - 1
    · rw [if_pos h2] at h
      exact absurd h (by simp)
    · rw [if_neg h2] at h
      cases h
      omega

theorem pow_width (w : Nat) (hw : 0 < w) :
    (2 : Int) ^ w = 2 * (2 : Int) ^ (w - 1) ∧ 0 < (2 : Int) ^ (w - 1) := by
  obtain ⟨k, rfl⟩ : ∃ k, w = k + 1 := ⟨w - 1, by omega⟩
  refine ⟨?_, by positivity⟩
  rw [Nat.add_sub_cancel, pow_succ]
  ring

/-- No overflow, no change. -/
theorem wrapInt_id (w : Nat) (hw : 0 < w) (v : Int) (h1 : -(2 : Int) ^ (w - 1) ≤ v)
    (h2 : v ≤ (2 : Int) ^ (w - 1) - 1) : wrapInt w v = v := by
  obtain ⟨e, hp⟩ := pow_width w hw
  unfold wrapInt
  rw [e]
  generalize (2 : Int) ^ (w - 1) = M at *
  rw [Int.emod_eq_of_lt (by omega) (by omega)]
  omega

/-- One more than the largest `int` is the smallest `int`. -/
theorem wrapInt_max (w : Nat) (hw : 0 < w) :
    wrapInt w ((2 : Int) ^ (w - 1) - 1 + 1) = -(2 : Int) ^ (w - 1) := by
  obtain ⟨e, hp⟩ := pow_width w hw
  unfold wrapInt
  rw [e]
  generalize (2 : Int) ^ (w - 1) = M at *
  have h : M - 1 + 1 + M = 2 * M := by ring
  rw [h, Int.emod_self]
  omega

/-- The loop going up to the largest `int` does not end: its condition holds
for every `int`. -/
theorem loopUp_max (w : Nat) (hw : 0 < w) : ∀ (fuel : Nat) (i : Int) (ret : List Int),
    -(2 : Int) ^ (w - 1) ≤ i → i ≤ (2 : Int) ^ (w - 1) - 1 →
    loopUp w ((2 : Int) ^ (w - 1) - 1) fuel i ret = none := by
  have hp := (pow_width w hw).2
  intro fuel
  induction fuel with
  | zero => intro i ret _ _; rfl
  | succ f ih =>
    intro i ret h1 h2
    rw [loopUp, if_pos h2]
    by_cases hm : i = (2 : Int) ^ (w - 1) - 1
    · rw [hm, wrapInt_max w hw]
      exact ih _ _ (le_refl _) (by omega)
    · have h3 : i + 1 ≤ (2 : Int) ^ (w - 1) - 1 := by omega
      rw [wrapInt_id w hw (i + 1) (by omega) h3]
      exact ih _ _ (by omega) h3

/-- The loop going up to a bound below the largest `int` ends after one test
more than it has numbers to append. -/
theorem loopUp_eq (w : Nat) (hw : 0 < w) (e : Int) (he : e < (2 : Int) ^ (w - 1) - 1) :
    ∀ (n fuel : Nat) (i : Int) (ret : List Int), -(2 : Int) ^ (w - 1) ≤ i →
    i + (n : Int) = e + 1 → n < fuel →
    loopUp w e fuel i ret = some (ret ++ countUp n i) := by
  intro n
  induction n with
  | zero =>
    intro fuel i ret _ hn hf
    obtain ⟨f, rfl⟩ : ∃ f, fuel = f + 1 := ⟨fuel - 1, by omega⟩
    have hi : ¬ (i ≤ e) := by
      simp only [Nat.cast_zero, add_zero] at hn
      omega
    rw [loopUp, if_neg hi, countUp, List.append_nil]
  | succ n ih =>
    intro fuel i ret h1 hn hf
    obtain ⟨f, rfl⟩ : ∃ f, fuel = f + 1 := ⟨fuel - 1, by omega⟩
    have hn2 : i + 1 + (n : Int) = e + 1 := by
      rw [Nat.cast_succ] at hn
      omega
    have hi : i ≤ e := by omega
    rw [loopUp, if_pos hi, wrapInt_id w hw (i + 1) (by omega) (by omega),
      ih f (i + 1) (ret ++ [i]) (by omega) hn2 (by omega), countUp, List.append_assoc]
    rfl

/-- The loop going down to a bound that is not negative ends after one test
more than it has numbers to append. -/
theorem loopDown_eq (w : Nat) (hw : 0 < w) (e : Int) (he : 0 ≤ e) :
    ∀ (n fuel : Nat) (i : Int) (ret : List Int), i ≤ (2 : Int) ^ (w - 1) - 1 →
    i - (n : Int) = e - 1 → n < fuel →
    loopDown w e fuel i ret = some (ret ++ countDown n i) := by
  have hp := (pow_width w hw).2
  intro n
  induction n with
  | zero =>
    intro fuel i ret _ hn hf
    obtain ⟨f, rfl⟩ : ∃ f, fuel = f + 1 := ⟨fuel - 1, by omega⟩
    have hi : ¬ (i ≥ e) := by
      simp only [Nat.cast_zero, sub_zero] at hn
      omega
    rw [loopDown, if_neg hi, countDown, List.append_nil]
  | succ n ih =>
    intro fuel i ret h1 hn hf
    obtain ⟨f, rfl⟩ : ∃ f, fuel = f + 1 := ⟨fuel - 1, by omega⟩
    have hn2 : i - 1 - (n : Int) = e - 1 := by
      rw [Nat.cast_succ] at hn
      omega
    have hi : i ≥ e := by omega
    rw [loopDown, if_pos hi, wrapInt_id w hw (i - 1) (by omega) (by omega),
      ih f (i - 1) (ret ++ [i]) (by omega) hn2 (by omega), countDown, List.append_assoc]
    rfl

/-- Every number that the loop going up appends is at least its start, when
the bound is below the largest `int`. -/
theorem loopUp_nonneg (w : Nat) (hw : 0 < w) (e : Int) (he : e < (2 : Int) ^ (w - 1) - 1) :
    ∀ (fuel : Nat) (i : Int) (ret r : List Int), 0 ≤ i → (∀ x ∈ ret, 0 ≤ x) →
    loopUp w e fuel i ret = some r → ∀ x ∈ r, 0 ≤ x := by
  have hp := (pow_width w hw).2
  intro fuel
  induction fuel with
  | zero => intro i ret r _ _ h; exact absurd h (by simp [loopUp])
  | succ f ih =>
    intro i ret r hi hret h
    rw [loopUp] at h
    by_cases hie : i ≤ e
    · rw [if_pos hie, wrapInt_id w hw (i + 1) (by omega) (by omega)] at h
      refine ih (i + 1) (ret ++ [i]) r (by omega) ?_ h
      intro x hx
      rcases List.mem_append.mp hx with h1 | h1
      · exact hret x h1
      · rw [List.mem_singleton.mp h1]
        exact hi
    · rw [if_neg hie] at h
      cases h
      exact hret

/-- Every number that the loop going down appends is at least its bound. -/
theorem loopDown_nonneg (w : Nat) (e : Int) (he : 0 ≤ e) :
    ∀ (fuel : Nat) (i : Int) (ret r : List Int), (∀ x ∈ ret, 0 ≤ x) →
    loopDown w e fuel i ret = some r → ∀ x ∈ r, 0 ≤ x := by
  intro fuel
  induction fuel with
  | zero => intro i ret r _ h; exact absurd h (by simp [loopDown])
  | succ f ih =>
    intro i ret r hret h
    rw [loopDown] at h
    by_cases hie : i ≥ e
    · rw [if_pos hie] at h
      refine ih _ (ret ++ [i]) r ?_ h
      intro x hx
      rcases List.mem_append.mp hx with h1 | h1
      · exact hret x h1
      · rw [List.mem_singleton.mp h1]
        omega
    · rw [if_neg hie] at h
      cases h
      exact hret

theorem countUp_eq : ∀ (n : Nat) (s : Int),
    countUp n s = (List.range n).map (fun (k : Nat) => s + (k : Int)) := by
  intro n
  induction n with
  | zero => intro s; rfl
  | succ n ih =>
    intro s
    rw [countUp, ih, List.range_succ_eq_map]
    simp only [List.map_cons, List.map_map, Nat.cast_zero, add_zero]
    congr 1
    apply List.map_congr_left
    intro k _
    simp only [Function.comp, Nat.cast_succ]
    ring

theorem countDown_eq : ∀ (n : Nat) (s : Int),
    countDown n s = (List.range n).map (fun (k : Nat) => s - (k : Int)) := by
  intro n
  induction n with
  | zero => intro s; rfl
  | succ n ih =>
    intro s
    rw [countDown, ih, List.range_succ_eq_map]
    simp only [List.map_cons, List.map_map, Nat.cast_zero, sub_zero]
    congr 1
    apply List.map_congr_left
    intro k _
    simp only [Function.comp, Nat.cast_succ]
    ring

/-- The element whose upper bound is the largest `int`: the loop going up is
entered and does not end. -/
theorem rangeOf_max (w fuel : Nat) (hw : 0 < w) (elem : GoString) (ret : List Int) (s : Int)
    (hs : Atoi w ((SplitN2 elem 0x2D).headD []) = some s)
    (he : Atoi w (if (SplitN2 elem 0x2D).length = 2 then (SplitN2 elem 0x2D).getD 1 []
      else (SplitN2 elem 0x2D).headD []) = some ((2 : Int) ^ (w - 1) - 1)) :
    rangeOf w fuel elem ret = none := by
  have hp := (pow_width w hw).2
  obtain ⟨hs1, hs2⟩ := Atoi_range w _ s hs
  have hb : ¬ ((2 : Int) ^ (w - 1) - 1 < 0) := by omega
  simp only [rangeOf, hs, he, if_neg hb]
  generalize hs3 : (if s < 0 then (0 : Int) else s) = s3
  have hs4 : 0 ≤ s3 ∧ s3 ≤ (2 : Int) ^ (w - 1) - 1 := by
    rw [← hs3]
    split <;> omega
  have hge : (2 : Int) ^ (w - 1) - 1 ≥ s3 := hs4.2
  rw [if_pos hge]
  exact loopUp_max w hw fuel s3 ret (by omega) hs4.2

/-- What `rangeOf` appends for the bounds `a` and `b` once parsed, when the
loop has tests enough. -/
theorem rangeOf_bounds (w fuel : Nat) (hw : 0 < w) (hfuel : 2 ^ w ≤ fuel) (elem : GoString)
    (ret : List Int) (a b : Nat)
    (hs : Atoi w ((SplitN2 elem 0x2D).headD []) = some (a : Int))
    (he : Atoi w (if (SplitN2 elem 0x2D).length = 2 then (SplitN2 elem 0x2D).getD 1 []
      else (SplitN2 elem 0x2D).headD []) = some (b : Int))
    (hup : a ≤ b → b < 2 ^ (w - 1) - 1) :
    rangeOf w fuel elem ret
      = some (ret ++ if a ≤ b then (List.range (b - a + 1)).map (fun k => ((a + k : Nat) : Int))
          else (List.range (a - b + 1)).map (fun k => ((a - k : Nat) : Int))) := by
  obtain ⟨hw2, hp⟩ := pow_width w hw
  have ha : ¬ ((a : Int) < 0) := by omega
  have hb : ¬ ((b : Int) < 0) := by omega
  obtain ⟨_, ha2⟩ := Atoi_range w _ _ hs
  have hM : ((2 ^ (w - 1) : Nat) : Int) = (2 : Int) ^ (w - 1) := by push_cast; rfl
  have hF : ((2 ^ w : Nat) : Int) = (2 : Int) ^ w := by push_cast; rfl
  have hfuel2 : (2 : Int) ^ w ≤ (fuel : Int) := by
    rw [← hF]
    exact_mod_cast hfuel
  simp only [rangeOf, hs, he, if_neg ha, if_neg hb]
  by_cases hab : a ≤ b
  · have h1 : (b : Int) ≥ (a : Int) := by exact_mod_cast hab
    have h2 : (b : Int) < (2 : Int) ^ (w - 1) - 1 := by
      have h3 : ((b : Nat) : Int) < ((2 ^ (w - 1) - 1 : Nat) : Int) := by exact_mod_cast hup hab
      have h4 : ((2 ^ (w - 1) - 1 : Nat) : Int) = (2 : Int) ^ (w - 1) - 1 := by
        rw [Nat.cast_sub (Nat.one_le_two_pow), hM]
        rfl
      rw [h4] at h3
      exact h3
    rw [if_pos h1, if_pos hab,
      loopUp_eq w hw (b : Int) h2 (b - a + 1) fuel (a : Int) ret (by omega)
        (by push_cast [Nat.cast_sub hab]; ring) (by omega), countUp_eq]
    congr 2
  · have h1 : ¬ ((b : Int) ≥ (a : Int)) := by
      intro h
      exact hab (by exact_mod_cast h)
    have hba : b ≤ a := by omega
    rw [if_neg h1, if_neg hab,
      loopDown_eq w hw (b : Int) (by omega) (a - b + 1) fuel (a : Int) ret ha2
        (by push_cast [Nat.cast_sub hba]; ring) (by omega), countDown_eq]
    congr 2
    apply List.map_congr_left
    intro k hk
    have hk2 : k ≤ a := by
      have := List.mem_range.mp hk
      omega
    push_cast [Nat.cast_sub hk2]
    rfl

theorem lit_minus : lit "-" = [0x2D] := by decide

theorem lit_comma : lit "," = [0x2C] := by decide

/-- An item on which the loops end gives its numbers, and its text has no comma. -/
theorem rangeOf_item (w fuel : Nat) (hw : 0 < w) (hfuel : 2 ^ w ≤ fuel) (it : RangeItem)
    (ret : List Int) (h : it.ok w) :
    rangeOf w fuel it.text ret = some (ret ++ it.values) ∧ (0x2C : UInt8) ∉ it.text := by
  cases it with
  | num n =>
    obtain ⟨hn, hmax⟩ : Numeral w n ∧ digitsVal n < 2 ^ (w - 1) - 1 := h
    have hsplit : SplitN2 n 0x2D = [n] :=
      SplitN2_none n 0x2D (Numeral_not_mem n 0x2D hn.2.1 (by decide))
    refine ⟨?_, Numeral_not_mem n 0x2C hn.2.1 (by decide)⟩
    have hr := rangeOf_bounds w fuel hw hfuel n ret (digitsVal n) (digitsVal n)
      (by rw [hsplit]; exact Atoi_numeral w n hn)
      (by rw [hsplit]; exact Atoi_numeral w n hn)
      (fun _ => hmax)
    rw [if_pos (Nat.le_refl _), Nat.sub_self] at hr
    exact hr
  | span a b =>
    obtain ⟨ha, hb, hup⟩ : Numeral w a ∧ Numeral w b ∧
      (digitsVal a ≤ digitsVal b → digitsVal b < 2 ^ (w - 1) - 1) := h
    have hna : (0x2D : UInt8) ∉ a := Numeral_not_mem a 0x2D ha.2.1 (by decide)
    have hsplit : SplitN2 (a ++ lit "-" ++ b) 0x2D = [a, b] := by
      rw [lit_minus]
      exact SplitN2_at a b 0x2D hna
    refine ⟨?_, ?_⟩
    · exact rangeOf_bounds w fuel hw hfuel (a ++ lit "-" ++ b) ret (digitsVal a) (digitsVal b)
        (by rw [hsplit]; exact Atoi_numeral w a ha)
        (by rw [hsplit]; exact Atoi_numeral w b hb) hup
    · intro hm
      simp only [RangeItem.text, lit_minus, List.mem_append, List.mem_singleton] at hm
      rcases hm with (hm | hm) | hm
      · exact Numeral_not_mem a 0x2C ha.2.1 (by decide) hm
      · exact absurd hm (by decide)
      · exact Numeral_not_mem b 0x2C hb.2.1 (by decide) hm
  | other e =>
    obtain ⟨hc, hbad⟩ : (0x2C : UInt8) ∉ e ∧
      (Atoi w ((SplitN2 e 0x2D).headD []) = none ∨
       Atoi w (if (SplitN2 e 0x2D).length = 2 then (SplitN2 e 0x2D).getD 1 []
             else (SplitN2 e 0x2D).headD []) = none) := h
    refine ⟨?_, hc⟩
    rcases hbad with h1 | h2
    · simp only [rangeOf, RangeItem.text, RangeItem.values, h1, List.append_nil]
    · simp only [rangeOf, RangeItem.text, RangeItem.values, h2, List.append_nil]
      cases Atoi w ((SplitN2 e 0x2D).headD []) <;> rfl

theorem parseElems_items (w fuel : Nat) (hw : 0 < w) (hfuel : 2 ^ w ≤ fuel) :
    ∀ (items : List RangeItem) (ret : List Int), (∀ it ∈ items, it.ok w) →
    parseElems w fuel (items.map RangeItem.text) ret
      = some (ret ++ items.flatMap RangeItem.values) := by
  intro items
  induction items with
  | nil => intro ret _; simp [parseElems]
  | cons it rest ih =>
    intro ret h
    have h1 := (rangeOf_item w fuel hw hfuel it ret (h it (List.mem_cons_self _ _))).1
    simp only [List.map_cons, parseElems, h1, List.flatMap_cons]
    rw [ih _ (fun x hx => h x (List.mem_cons_of_mem _ hx)), List.append_assoc]

/-- When the body of the loop ends, no number it has appended is negative. -/
theorem rangeOf_nonneg (w fuel : Nat) (hw : 0 < w) (elem : GoString) (ret r : List Int)
    (h : rangeOf w fuel elem ret = some r) (hret : ∀ x ∈ ret, 0 ≤ x) : ∀ x ∈ r, 0 ≤ x := by
  have hp := (pow_width w hw).2
  unfold rangeOf at h
  simp only [] at h
  split at h
  · rename_i s e hs he
    obtain ⟨_, hs2⟩ := Atoi_range w _ s hs
    obtain ⟨_, he2⟩ := Atoi_range w _ e he
    generalize hs3 : (if s < 0 then (0 : Int) else s) = s3 at h
    generalize he3 : (if e < 0 then (0 : Int) else e) = e3 at h
    have hs0 : 0 ≤ s3 := by rw [← hs3]; split <;> omega
    have he0 : 0 ≤ e3 ∧ e3 ≤ (2 : Int) ^ (w - 1) - 1 := by rw [← he3]; split <;> omega
    have hs1 : s3 ≤ (2 : Int) ^ (w - 1) - 1 := by rw [← hs3]; split <;> omega
    by_cases hge : e3 ≥ s3
    · rw [if_pos hge] at h
      by_cases hmax : e3 = (2 : Int) ^ (w - 1) - 1
      · rw [hmax, loopUp_max w hw fuel s3 ret (by omega) hs1] at h
        exact absurd h (by simp)
      · exact loopUp_nonneg w hw e3 (by omega) fuel s3 ret r hs0 hret h
    · rw [if_neg hge] at h
      exact loopDown_nonneg w e3 he0.1 fuel s3 ret r hret h
  · cases h
    exact hret

theorem parseElems_nonneg (w fuel : Nat) (hw : 0 < w) :
    ∀ (elems : List GoString) (ret r : List Int),
    parseElems w fuel elems ret = some r → (∀ x ∈ ret, 0 ≤ x) → ∀ x ∈ r, 0 ≤ x := by
  intro elems
  induction elems with
  | nil =>
    intro ret r h hret
    simp only [parseElems] at h
    cases h
    exact hret
  | cons e rest ih =>
    intro ret r h hret
    simp only [parseElems] at h
    split at h
    · exact Option.noConfusion h
    · rename_i ret2 hm
      exact ih _ _ h (rangeOf_nonneg w fuel hw e ret ret2 hm hret)

/-- Away from the largest `int` the function returns what its comment says:
when the text, its spaces removed, is a comma-separated list of items, each a
decimal number that is an `int`, a range `a-b` of such numbers, or a text that
does not parse, and no number alone and no end of a range going up is the
largest `int`, every loop ends and `ParseRange` returns, in item order, `n`
for a number, `a, a+1, ..., b` for a range with `a <= b`, `a, a-1, ..., b` for
a range with `a > b`, and nothing for an item that does not parse. -/
theorem ParseRange_items (w fuel : Nat) (hw : 0 < w) (hfuel : 2 ^ w ≤ fuel) (txt : GoString)
    (items : List RangeItem) (hok : ∀ it ∈ items, it.ok w)
    (htxt : removeSpaces txt = Join (items.map RangeItem.text) (lit ",")) :
    ParseRange w fuel txt = some (items.flatMap RangeItem.values) := by
  unfold ParseRange
  rw [htxt, lit_comma]
  cases items with
  | nil =>
    have e : Split (Join (List.map RangeItem.text []) [0x2C]) 0x2C = [[]] := by decide
    have hA : Atoi w [] = none := by simp [Atoi]
    rw [e]
    simp only [parseElems, rangeOf, SplitN2, List.not_mem_nil, if_false, List.headD_cons, hA,
      List.flatMap_nil]
  | cons it rest =>
    rw [Split_Join 0x2C _ (by simp) ?_]
    · rw [parseElems_items w fuel hw hfuel _ [] hok, List.nil_append]
    · intro p hp
      obtain ⟨i, hi, rfl⟩ := List.mem_map.mp hp
      exact (rangeOf_item w fuel hw hfuel i [] (hok i hi)).2

/-- Whatever the text, when `ParseRange` returns no number returned is negative. -/
theorem ParseRange_nonneg (w fuel : Nat) (hw : 0 < w) (t : GoString) (r : List Int)
    (h : ParseRange w fuel t = some r) : ∀ x ∈ r, 0 ≤ x :=
  parseElems_nonneg w fuel hw _ [] r h (fun x hx => by cases hx)

/-- The text `7, 2-4, x, 3-1` where `int` has 32 bits. -/
theorem ParseRange_items_example :
    ParseRange 32 (2 ^ 32) (lit "7, 2-4, x, 3-1") = some [7, 2, 3, 4, 3, 2, 1] :=
  (ParseRange_items 32 (2 ^ 32) (by decide) (le_refl _) (lit "7, 2-4, x, 3-1")
    [RangeItem.num (lit "7"), RangeItem.span (lit "2") (lit "4"), RangeItem.other (lit "x"),
     RangeItem.span (lit "3") (lit "1")]
    (by
      intro it hit
      simp only [List.mem_cons, List.mem_singleton, List.not_mem_nil, or_false] at hit
      rcases hit with rfl | rfl | rfl | rfl
      · exact ⟨⟨by decide, by decide, by decide⟩, by decide⟩
      · exact ⟨⟨by decide, by decide, by decide⟩, ⟨by decide, by decide, by decide⟩,
          fun _ => by decide⟩
      · exact ⟨by decide, Or.inl (by decide)⟩
      · exact ⟨⟨by decide, by decide, by decide⟩, ⟨by decide, by decide, by decide⟩,
          fun _ => by decide⟩)
    (by decide)).trans (by decide)

/-- C28, evaluation at the failing input: the text is the largest `int`,
`9223372036854775807` where `int` has 64 bits and `2147483647` where it has 32,
or a range that goes up to it.  The claim gives the list of that one number,
or of the numbers of the range.  `ParseRange` does not return:
however many tests its loop `for i := s; i <= e; i++` is allowed, it has not
ended, because `i <= e` holds for every `int` when `e` is the largest one and
`i++` wraps around.  For the number just below, and for the two examples of
the claim, it returns what the claim says. -/
theorem C28_largest_int_never_returns :
    (∀ fuel, ParseRange 64 fuel (lit "9223372036854775807") = none) ∧
    (∀ fuel, ParseRange 32 fuel (lit "2147483647") = none) ∧
    (∀ fuel, ParseRange 32 fuel (lit "3 - 2147483647") = none) ∧
    ParseRange 64 8 (lit "9223372036854775806") = some [9223372036854775806] ∧
    ParseRange 32 8 (lit "2147483646") = some [2147483646] ∧
    ParseRange 64 8 (lit "1,3-5") = some [1, 3, 4, 5] ∧
    ParseRange 32 8 (lit "1,3-5") = some [1, 3, 4, 5] ∧
    ParseRange 64 8 (lit "5-3") = some [5, 4, 3] ∧
    ParseRange 32 8 (lit "5-3") = some [5, 4, 3] := by
  refine ⟨?_, ?_, ?_, by decide, by decide, by decide, by decide, by decide, by decide⟩
  · intro fuel
    have h1 : Split (removeSpaces (lit "9223372036854775807")) 0x2C
        = [lit "9223372036854775807"] := by decide
    have h2 : rangeOf 64 fuel (lit "9223372036854775807") [] = none :=
      rangeOf_max 64 fuel (by decide) _ [] ((2 : Int) ^ (64 - 1) - 1) (by decide) (by decide)
    rw [ParseRange, h1, parseElems, h2]
  · intro fuel
    have h1 : Split (removeSpaces (lit "2147483647")) 0x2C = [lit "2147483647"] := by decide
    have h2 : rangeOf 32 fuel (lit "2147483647") [] = none :=
      rangeOf_max 32 fuel (by decide) _ [] ((2 : Int) ^ (32 - 1) - 1) (by decide) (by decide)
    rw [ParseRange, h1, parseElems, h2]
  · intro fuel
    have h1 : Split (removeSpaces (lit "3 - 2147483647")) 0x2C = [lit "3-2147483647"] := by
      decide
    have h2 : rangeOf 32 fuel (lit "3-2147483647") [] = none :=
      rangeOf_max 32 fuel (by decide) _ [] 3 (by decide) (by decide)
    rw [ParseRange, h1, parseElems, h2]

/-! ## Tables for the terminal: the scan -/

theorem termScan_plain (rest : List GoString) : ∀ (ls : List GoString) (idx : Nat)
    (st : TermScan), plainLines ls →
    termScan (ls ++ rest) idx st
      = termScan rest (idx + ls.length)
          { st with table := st.table ++ ls.map (fun l => [l]) } := by
  intro ls
  induction ls with
  | nil =>
    intro idx st _
    simp
  | cons l ls2 ih =>
    intro idx st h
    have hl : ¬ (isPipeRow l = true) := by
      rw [h l (List.mem_cons_self _ _)]
      exact Bool.false_ne_true
    have h2 : plainLines ls2 := fun x hx => h x (List.mem_cons_of_mem _ hx)
    rw [List.cons_append, termScan, if_neg hl, ih (idx + 1) _ h2]
    simp only [List.length_cons, List.map_cons, List.append_assoc, List.singleton_append]
    congr 1
    omega

theorem widen_length : ∀ (ws : List Nat) (cells : List GoString),
    cells.length ≤ ws.length → (widen ws cells).length = ws.length := by
  intro ws
  induction ws with
  | nil =>
    intro cells h
    cases cells with
    | nil => rfl
    | cons c cs => simp at h
  | cons w ws2 ih =>
    intro cells h
    cases cells with
    | nil => rfl
    | cons c cs =>
      simp only [widen, List.length_cons]
      rw [ih cs (by simpa using h)]

/-- The scan of table rows that follow a table row. -/
theorem termScan_run_next (c : Nat) (rest : List GoString) : ∀ (run : List GoString)
    (idx : Nat) (st : TermScan), tableRun c run → st.colWidths.length = c →
    st.prevTableRowIdx + 1 = (idx : Int) →
    termScan (run ++ rest) idx st
      = termScan rest (idx + run.length)
          { table := st.table ++ run.map termCells,
            colWidths := (run.map termCells).foldl widen st.colWidths,
            colNums := st.colNums ++ List.replicate run.length c,
            prevTableRowIdx := st.prevTableRowIdx + (run.length : Int) } := by
  intro run
  induction run with
  | nil =>
    intro idx st _ _ _
    simp
  | cons r run2 ih =>
    intro idx st h hw hprev
    obtain ⟨hp, hc⟩ := h r (List.mem_cons_self _ _)
    have h2 : tableRun c run2 := fun x hx => h x (List.mem_cons_of_mem _ hx)
    have hbrk : ¬ (st.prevTableRowIdx ≥ 0 ∧ st.prevTableRowIdx + 1 ≠ (idx : Int)) :=
      fun hb => hb.2 hprev
    have hlt : ¬ (st.colWidths.length < (termCells r).length) := by omega
    rw [List.cons_append, termScan, if_pos hp, if_neg hbrk, if_neg hlt]
    rw [ih (idx + 1) _ h2 (by
        show (widen st.colWidths (termCells r)).length = c
        rw [widen_length _ _ (by omega)]
        exact hw) (by
        show (idx : Int) + 1 = ((idx + 1 : Nat) : Int)
        push_cast
        rfl)]
    simp only [List.length_cons, List.map_cons, List.foldl_cons, List.append_assoc,
      List.singleton_append, List.replicate_succ, hc]
    congr 1
    · omega
    · congr 1
      push_cast
      omega

/-- The scan of the first table rows of a text. -/
theorem termScan_run_first (c : Nat) (hc : 0 < c) (rest : List GoString) (r : GoString)
    (run : List GoString) (idx : Nat) (st : TermScan) (h : tableRun c (r :: run))
    (hw : st.colWidths = []) (hprev : st.prevTableRowIdx = -1) :
    termScan (r :: run ++ rest) idx st
      = termScan rest (idx + (r :: run).length)
          { table := st.table ++ (r :: run).map termCells,
            colWidths := ((r :: run).map termCells).foldl widen (List.replicate c 0),
            colNums := st.colNums ++ List.replicate (r :: run).length c,
            prevTableRowIdx := (idx : Int) + (run.length : Int) } := by
  obtain ⟨hp, hcr⟩ := h r (List.mem_cons_self _ _)
  have h2 : tableRun c run := fun x hx => h x (List.mem_cons_of_mem _ hx)
  have hbrk : ¬ (st.prevTableRowIdx ≥ 0 ∧ st.prevTableRowIdx + 1 ≠ (idx : Int)) := by
    rw [hprev]
    intro hb
    omega
  have hlt : st.colWidths.length < (termCells r).length := by
    rw [hw, hcr]
    exact hc
  rw [List.cons_append, termScan, if_pos hp, if_neg hbrk, if_pos hlt, hcr]
  rw [termScan_run_next c rest run (idx + 1) _ h2 (by
      show (widen (List.replicate c 0) (termCells r)).length = c
      rw [widen_length _ _ (by simp [hcr]), List.length_replicate]) (by
      show (idx : Int) + 1 = ((idx + 1 : Nat) : Int)
      push_cast
      rfl)]
  simp only [List.length_cons, List.map_cons, List.foldl_cons, List.append_assoc,
    List.singleton_append, List.replicate_succ]
  congr 1
  omega

/-- A table row met after a gap ends the scan with no column count. -/
theorem termScan_gap : ∀ (ls : List GoString) (idx : Nat) (st : TermScan),
    st.prevTableRowIdx ≥ 0 → st.prevTableRowIdx + 1 < (idx : Int) →
    (∃ l ∈ ls, isPipeRow l = true) → (termScan ls idx st).colNums = [] := by
  intro ls
  induction ls with
  | nil =>
    intro idx st _ _ h
    obtain ⟨l, hl, _⟩ := h
    cases hl
  | cons l ls2 ih =>
    intro idx st h0 hgap h
    by_cases hp : isPipeRow l = true
    · have hbrk : st.prevTableRowIdx ≥ 0 ∧ st.prevTableRowIdx + 1 ≠ (idx : Int) :=
        ⟨h0, by omega⟩
      rw [termScan, if_pos hp, if_pos hbrk]
    · obtain ⟨x, hx, hxp⟩ := h
      have hx2 : x ∈ ls2 := by
        rcases List.mem_cons.mp hx with e | e
        · rw [e] at hxp
          exact absurd hxp hp
        · exact e
      rw [termScan, if_neg hp]
      exact ih (idx + 1) _ h0 (by
        show st.prevTableRowIdx + 1 < ((idx + 1 : Nat) : Int)
        push_cast
        omega) ⟨x, hx2, hxp⟩

/-- Two table rows with a line between them that is not one: the scan ends
with no column count. -/
theorem termScan_two_runs (p1 p2 m : GoString) (mid after : List GoString)
    (h1 : isPipeRow p1 = true) (hm : isPipeRow m = false) (h2 : isPipeRow p2 = true) :
    ∀ (before : List GoString) (idx : Nat) (st : TermScan),
    (termScan (before ++ p1 :: m :: mid ++ p2 :: after) idx st).colNums = [] := by
  intro before
  induction before with
  | nil =>
    intro idx st
    rw [List.nil_append, List.cons_append, List.cons_append, termScan, if_pos h1]
    by_cases hbrk : st.prevTableRowIdx ≥ 0 ∧ st.prevTableRowIdx + 1 ≠ (idx : Int)
    · rw [if_pos hbrk]
    · rw [if_neg hbrk]
      have hmf : ¬ (isPipeRow m = true) := by rw [hm]; exact Bool.false_ne_true
      rw [termScan, if_neg hmf]
      apply termScan_gap
      · show (idx : Int) ≥ 0
        omega
      · show (idx : Int) + 1 < ((idx + 1 + 1 : Nat) : Int)
        push_cast
        omega
      · exact ⟨p2, by simp, h2⟩
  | cons b before2 ih =>
    intro idx st
    rw [List.cons_append, List.cons_append, termScan]
    by_cases hb : isPipeRow b = true
    · rw [if_pos hb]
      by_cases hbrk : st.prevTableRowIdx ≥ 0 ∧ st.prevTableRowIdx + 1 ≠ (idx : Int)
      · rw [if_pos hbrk]
      · rw [if_neg hbrk]
        exact ih _ _
    · rw [if_neg hb]
      exact ih _ _

/-! ## Tables for the terminal: the rendering -/

theorem termRender_plain (W : List Nat) (rest : List (List GoString)) :
    ∀ (ls : List GoString) (k : Nat),
    termRender W (ls.map (fun l => [l]) ++ rest) k
      = (termRender W rest k).map (fun t => ls ++ t) := by
  intro ls
  induction ls with
  | nil =>
    intro k
    simp
  | cons l ls2 ih =>
    intro k
    rw [List.map_cons, List.cons_append, termRender, ih k, Option.map_map]
    rfl

theorem formatRow_eq (W : List Nat) (cells : List GoString) (bold : Bool)
    (h : cells.length = W.length) : formatRow W cells bold = some (rowText W cells bold) := by
  have hle : cells.length ≤ W.length := by omega
  simp only [formatRow, widthsFor, if_pos hle, rowText]
  rw [h, List.take_length]

theorem ruleRow_eq (W : List Nat) (n : Nat) (h : n = W.length) :
    ruleRow W n = some (ruleText W) := by
  subst h
  simp only [ruleRow, widthsFor, if_pos (Nat.le_refl _), List.take_length, ruleText]

/-- The rendering of rows of `c` cells, `c >= 2`, with `c` widths at hand. -/
theorem termRender_run (W : List Nat) (rest : List (List GoString)) (c : Nat) (hc : 2 ≤ c)
    (hW : W.length = c) : ∀ (rows : List (List GoString)) (k : Nat),
    (∀ row ∈ rows, row.length = c) →
    termRender W (rows ++ rest) k
      = (termRender W rest (k + (rows.filter (fun r => !isRule r)).length)).map
          (fun t => runLines W rows (decide (k ≠ 0)) ++ t) := by
  intro rows
  induction rows with
  | nil =>
    intro k _
    simp [runLines]
  | cons row rows2 ih =>
    intro k h
    have hrow := h row (List.mem_cons_self _ _)
    have h2 : ∀ r ∈ rows2, r.length = c := fun r hr => h r (List.mem_cons_of_mem _ hr)
    obtain ⟨a, b, tl, rfl⟩ : ∃ a b tl, row = a :: b :: tl := by
      rcases row with _ | ⟨a, _ | ⟨b, tl⟩⟩
      · simp at hrow; omega
      · simp at hrow; omega
      · exact ⟨a, b, tl, rfl⟩
    rw [List.cons_append, termRender]
    swap
    · intro line hl
      simp at hl
    by_cases hr : isRule (a :: b :: tl) = true
    · have hr2 : (a :: b :: tl).all (fun cell => decide (Trim cell (lit "- :") = [])) = true := hr
      simp only [hr2, if_true, ruleRow_eq W (a :: b :: tl).length (by rw [hrow, hW])]
      rw [ih k h2, Option.map_map]
      simp only [runLines, hr, if_true, List.filter_cons, Bool.not_true, Bool.false_eq_true,
        if_false]
      rfl
    · have hr2 : ¬ ((a :: b :: tl).all (fun cell => decide (Trim cell (lit "- :") = [])) = true) :=
        hr
      simp only [if_neg hr2, formatRow_eq W (a :: b :: tl) _ (by rw [hrow, hW])]
      rw [ih (k + 1) h2, Option.map_map]
      have hrf : isRule (a :: b :: tl) = false := by simpa using hr
      have hk : decide (k + 1 ≠ 0) = true := by simp
      have hb : decide (k = 0) = !decide (k ≠ 0) := by
        by_cases h0 : k = 0 <;> simp [h0]
      simp only [runLines, hrf, Bool.false_eq_true, if_false, List.filter_cons, Bool.not_false,
        if_true, List.length_cons, hk, hb]
      have e : k + 1 + (rows2.filter (fun r => !isRule r)).length
          = k + ((rows2.filter (fun r => !isRule r)).length + 1) := by omega
      rw [e]
      rfl

theorem uniform_counts (n c : Nat) :
    (List.replicate n c).tail.any (fun m => decide (some m ≠ (List.replicate n c).head?))
      = false := by
  cases n with
  | zero => rfl
  | succ n =>
    simp only [List.replicate_succ, List.tail_cons, List.head?_cons]
    rw [List.any_eq_false]
    intro m hm
    have := List.eq_of_mem_replicate hm
    simp [this]

/-- A text whose table rows are one run of rows with `c` cells, `c >= 2`, is
rendered: the lines before and after the run as they are, the run as a table
whose widths are those gathered over its rows. -/
theorem MdTableToTerm_single_run (content : GoString) (pre run post : List GoString) (c : Nat)
    (hsplit : Split content 0x0A = pre ++ run ++ post) (hpre : plainLines pre)
    (hpost : plainLines post) (hrun : tableRun c run) (hne : run ≠ []) (hc : 2 ≤ c) :
    MdTableToTerm content
      = some (Join (pre ++ runLines ((run.map termCells).foldl widen (List.replicate c 0))
          (run.map termCells) false ++ post) (lit "\n")) := by
  obtain ⟨r, run2, rfl⟩ : ∃ r run2, run = r :: run2 := by
    cases run with
    | nil => exact absurd rfl hne
    | cons r run2 => exact ⟨r, run2, rfl⟩
  have hscan : termScan (Split content 0x0A) 0
      { table := [], colWidths := [], colNums := [], prevTableRowIdx := -1 }
      = { table := pre.map (fun l => [l]) ++ (r :: run2).map termCells
            ++ post.map (fun l => [l]),
          colWidths := ((r :: run2).map termCells).foldl widen (List.replicate c 0),
          colNums := List.replicate (r :: run2).length c,
          prevTableRowIdx := ((0 + pre.length : Nat) : Int) + (run2.length : Int) } := by
    rw [hsplit, List.append_assoc, termScan_plain _ pre 0 _ hpre,
      termScan_run_first c (by omega) post r run2 _ _ hrun rfl rfl]
    have hp := termScan_plain [] post (0 + pre.length + (r :: run2).length)
      { table := ([] ++ pre.map (fun l => [l])) ++ (r :: run2).map termCells,
        colWidths := ((r :: run2).map termCells).foldl widen (List.replicate c 0),
        colNums := [] ++ List.replicate (r :: run2).length c,
        prevTableRowIdx := ((0 + pre.length : Nat) : Int) + (run2.length : Int) } hpost
    rw [List.append_nil] at hp
    rw [hp]
    simp only [termScan, List.nil_append]
  have hW : (((r :: run2).map termCells).foldl widen (List.replicate c 0)).length = c := by
    have : ∀ (rows : List (List GoString)) (W0 : List Nat), (∀ row ∈ rows, row.length = c) →
        W0.length = c → (rows.foldl widen W0).length = c := by
      intro rows
      induction rows with
      | nil => intro W0 _ h; exact h
      | cons row rows2 ih =>
        intro W0 h hw
        rw [List.foldl_cons]
        apply ih _ (fun x hx => h x (List.mem_cons_of_mem _ hx))
        rw [widen_length _ _ (by rw [h row (List.mem_cons_self _ _), hw]), hw]
    apply this
    · intro row hrow
      obtain ⟨x, hx, rfl⟩ := List.mem_map.mp hrow
      exact (hrun x hx).2
    · exact List.length_replicate _ _
  have hrows : ∀ row ∈ (r :: run2).map termCells, row.length = c := by
    intro row hrow
    obtain ⟨x, hx, rfl⟩ := List.mem_map.mp hrow
    exact (hrun x hx).2
  unfold MdTableToTerm
  simp only [hscan]
  have h1 : ¬ ((((r :: run2).map termCells).foldl widen (List.replicate c 0)).length = 0 ∨
      (List.replicate (r :: run2).length c).length = 0) := by
    rw [hW]
    simp only [List.length_replicate, List.length_cons]
    omega
  rw [if_neg h1, uniform_counts]
  simp only [Bool.false_eq_true, if_false]
  rw [List.append_assoc, termRender_plain, termRender_run _ _ c hc hW _ 0 hrows]
  have hpost2 := termRender_plain ((r :: run2).map termCells |>.foldl widen (List.replicate c 0))
    [] post (0 + (((r :: run2).map termCells).filter (fun r => !isRule r)).length)
  rw [List.append_nil] at hpost2
  rw [hpost2]
  simp only [termRender, Option.map_some', List.append_nil, ne_eq, not_true_eq_false,
    decide_False, List.append_assoc]

/-! ## Tables for the terminal: widths and lengths of lines -/

theorem widen_getD : ∀ (ws : List Nat) (cells : List GoString) (i : Nat),
    cells.length = ws.length →
    (widen ws cells).getD i 0 = max (ws.getD i 0) ((cells.getD i []).length) := by
  intro ws
  induction ws with
  | nil =>
    intro cells i h
    cases cells with
    | nil => simp [widen]
    | cons c cs => simp at h
  | cons w ws2 ih =>
    intro cells i h
    cases cells with
    | nil => simp at h
    | cons cell cs =>
      cases i with
      | zero =>
        simp only [widen, List.getD_cons_zero]
        split <;> omega
      | succ j =>
        simp only [widen, List.getD_cons_succ]
        exact ih cs j (by simpa using h)

/-- The widths gathered over rows of `c` cells: there are `c` of them, none
falls below its start or below a cell of its column, and each is its start or
the length of a cell of its column. -/
theorem widths_fold (c : Nat) : ∀ (rows : List (List GoString)) (W0 : List Nat),
    (∀ row ∈ rows, row.length = c) → W0.length = c →
    (rows.foldl widen W0).length = c ∧
    ∀ i, W0.getD i 0 ≤ (rows.foldl widen W0).getD i 0 ∧
      (∀ row ∈ rows, (row.getD i []).length ≤ (rows.foldl widen W0).getD i 0) ∧
      ((rows.foldl widen W0).getD i 0 = W0.getD i 0 ∨
        ∃ row ∈ rows, (row.getD i []).length = (rows.foldl widen W0).getD i 0) := by
  intro rows
  induction rows with
  | nil =>
    intro W0 _ hw
    refine ⟨hw, fun i => ⟨Nat.le_refl _, ?_, Or.inl rfl⟩⟩
    intro row hrow
    cases hrow
  | cons row rows2 ih =>
    intro W0 h hw
    have hrow := h row (List.mem_cons_self _ _)
    have hlen : (widen W0 row).length = c := by
      rw [widen_length _ _ (by omega), hw]
    obtain ⟨hl, hi⟩ := ih (widen W0 row) (fun x hx => h x (List.mem_cons_of_mem _ hx)) hlen
    rw [List.foldl_cons]
    refine ⟨hl, fun i => ?_⟩
    obtain ⟨h1, h2, h3⟩ := hi i
    have hg := widen_getD W0 row i (by omega)
    refine ⟨by omega, ?_, ?_⟩
    · intro x hx
      rcases List.mem_cons.mp hx with e | e
      · rw [e]
        omega
      · exact h2 x e
    · rcases h3 with e | ⟨x, hx, e⟩
      · by_cases hmax : (row.getD i []).length ≤ W0.getD i 0
        · left
          omega
        · right
          exact ⟨row, List.mem_cons_self _ _, by omega⟩
      · right
        exact ⟨x, List.mem_cons_of_mem _ hx, e⟩

/-- The widths of a table are the greatest lengths of the cells of its columns. -/
theorem widths_max (c : Nat) (rows : List (List GoString)) (hne : rows ≠ [])
    (hrows : ∀ row ∈ rows, row.length = c) :
    (rows.foldl widen (List.replicate c 0)).length = c ∧
    ∀ i, (∀ row ∈ rows, (row.getD i []).length ≤ (rows.foldl widen (List.replicate c 0)).getD i 0) ∧
      ∃ row ∈ rows, (row.getD i []).length = (rows.foldl widen (List.replicate c 0)).getD i 0 := by
  obtain ⟨hl, hi⟩ := widths_fold c rows (List.replicate c 0) hrows (List.length_replicate _ _)
  refine ⟨hl, fun i => ?_⟩
  obtain ⟨_, h2, h3⟩ := hi i
  refine ⟨h2, ?_⟩
  rcases h3 with e | h
  · obtain ⟨row, rest, rfl⟩ : ∃ row rest, rows = row :: rest := by
      cases rows with
      | nil => exact absurd rfl hne
      | cons row rest => exact ⟨row, rest, rfl⟩
    have h0 : (List.replicate c 0).getD i 0 = 0 := by
      simp only [List.getD_eq_getElem?_getD, List.getElem?_replicate]
      split <;> rfl
    have := h2 row (List.mem_cons_self _ _)
    exact ⟨row, List.mem_cons_self _ _, by omega⟩
  · exact h

theorem leadOk_ascii (b : UInt8) (t : GoString) (h : b.toNat < 0x80) : leadOk (b :: t) := by
  intro b2 tl e
  simp only [List.cons.injEq] at e
  rw [← e.1]
  simp only [inRange, Bool.and_eq_false_iff, decide_eq_false_iff_not]
  left
  omega

theorem runes_ascii_append : ∀ (a J : GoString), (∀ b ∈ a, b.toNat < 0x80) →
    runes (a ++ J) = a.map (fun b => ((b.toNat, [b]) : Seg)) ++ runes J := by
  intro a
  induction a with
  | nil => intro J _; rfl
  | cons b a2 ih =>
    intro J h
    have hb := h b (List.mem_cons_self _ _)
    rw [List.cons_append, runes_cons, decode_ascii b (a2 ++ J) hb]
    simp only [List.take_succ_cons, List.take_zero, List.drop_succ_cons, List.drop_zero,
      List.map_cons, List.cons_append]
    rw [ih J (fun x hx => h x (List.mem_cons_of_mem _ hx))]

theorem RuneCount_ascii_append (a J : GoString) (h : ∀ b ∈ a, b.toNat < 0x80) :
    RuneCount (a ++ J) = a.length + RuneCount J := by
  unfold RuneCount
  rw [runes_ascii_append a J h, List.length_append, List.length_map]

theorem RuneCount_ascii (a : GoString) (h : ∀ b ∈ a, b.toNat < 0x80) :
    RuneCount a = a.length := by
  have := RuneCount_ascii_append a [] h
  rw [List.append_nil] at this
  rw [this]
  rfl

theorem RuneCount_append_ascii (x a : GoString) (h : ∀ b ∈ a, b.toNat < 0x80) :
    RuneCount (x ++ a) = RuneCount x + a.length := by
  have hl : leadOk a := by
    cases a with
    | nil =>
      intro b tl e
      cases e
    | cons b t => exact leadOk_ascii b t (h b (List.mem_cons_self _ _))
  unfold RuneCount
  rw [runes_append a hl x, List.length_append]
  congr 1
  exact RuneCount_ascii a h

theorem RuneCount_le (s : GoString) : RuneCount s ≤ s.length := runes_length_le s

/-- A cell padded to a width that is not below its length has that many runes. -/
theorem RuneCount_padRight (w : Nat) (cell : GoString) (h : cell.length ≤ w) :
    RuneCount (padRight w cell) = w := by
  have hle := RuneCount_le cell
  unfold padRight
  rw [RuneCount_append_ascii _ _ (by
    intro b hb
    rw [List.eq_of_mem_replicate hb]
    decide), List.length_replicate]
  omega

theorem RuneCount_Join (sep : GoString) (hsep : ∀ b ∈ sep, b.toNat < 0x80) (hne : sep ≠ []) :
    ∀ (parts : List GoString), parts ≠ [] →
    RuneCount (Join parts sep)
      = (parts.map RuneCount).sum + sep.length * (parts.length - 1) := by
  intro parts
  induction parts with
  | nil => intro h; exact absurd rfl h
  | cons p rest ih =>
    intro _
    cases rest with
    | nil => simp [Join]
    | cons q rest2 =>
      have ih2 := ih (List.cons_ne_nil _ _)
      obtain ⟨b, t, hbt⟩ : ∃ b t, sep = b :: t := by
        cases sep with
        | nil => exact absurd rfl hne
        | cons b t => exact ⟨b, t, rfl⟩
      have hl : leadOk (sep ++ Join (q :: rest2) sep) := by
        rw [hbt]
        exact leadOk_ascii b _ (hsep b (by rw [hbt]; exact List.mem_cons_self _ _))
      have e : Join (p :: q :: rest2) sep = p ++ (sep ++ Join (q :: rest2) sep) := by
        rw [Join, List.append_assoc]
      have hcount : RuneCount (p ++ (sep ++ Join (q :: rest2) sep))
          = RuneCount p + RuneCount (sep ++ Join (q :: rest2) sep) := by
        unfold RuneCount
        rw [runes_append _ hl p, List.length_append]
      rw [e, hcount, RuneCount_ascii_append sep _ hsep, ih2]
      simp only [List.map_cons, List.sum_cons, List.length_cons]
      have : sep.length * (rest2.length + 1 + 1 - 1) = sep.length + sep.length * (rest2.length + 1 - 1) := by
        rw [show rest2.length + 1 + 1 - 1 = (rest2.length + 1 - 1) + 1 by omega, Nat.mul_succ]
        omega
      omega

theorem padded_counts : ∀ (W : List Nat) (cells : List GoString), cells.length = W.length →
    (∀ i, (cells.getD i []).length ≤ W.getD i 0) →
    (List.zipWith (fun w cell => padRight w cell) W cells).map RuneCount = W := by
  intro W
  induction W with
  | nil =>
    intro cells h _
    cases cells with
    | nil => rfl
    | cons c cs => simp at h
  | cons w W2 ih =>
    intro cells h hle
    cases cells with
    | nil => simp at h
    | cons cell cs =>
      have h0 := hle 0
      simp only [List.getD_cons_zero] at h0
      simp only [List.zipWith_cons_cons, List.map_cons, RuneCount_padRight w cell h0]
      rw [ih cs (by simpa using h) (fun i => by
        have := hle (i + 1)
        simpa only [List.getD_cons_succ] using this)]

/-- A row of `c` cells, `c >= 1`, none longer than the width of its column,
has as many runes without bold as the widths sum to, plus `3c + 1`. -/
theorem RuneCount_rowText (W : List Nat) (cells : List GoString) (hlen : cells.length = W.length)
    (hpos : 0 < W.length) (hle : ∀ i, (cells.getD i []).length ≤ W.getD i 0) :
    RuneCount (rowText W cells false) = W.sum + 3 * W.length + 1 := by
  have hparts := padded_counts W cells hlen hle
  have hzl : (List.zipWith (fun w cell => padRight w cell) W cells).length = W.length := by
    rw [List.length_zipWith, hlen, Nat.min_self]
  have hne : List.zipWith (fun w cell => padRight w cell) W cells ≠ [] := by
    intro e
    rw [e, List.length_nil] at hzl
    omega
  have hj := RuneCount_Join (lit " | ") (by decide) (by decide) _ hne
  rw [hparts, hzl] at hj
  unfold rowText
  simp only [Bool.false_eq_true, if_false]
  rw [List.append_assoc, RuneCount_ascii_append (lit "| ") _ (by decide),
    RuneCount_append_ascii _ (lit " |") (by decide), hj]
  have h1 : (lit "| ").length = 2 := by decide
  have h2 : (lit " |").length = 2 := by decide
  have h3 : (lit " | ").length = 3 := by decide
  rw [h1, h2, h3]
  have : 3 * (W.length - 1) + 3 = 3 * W.length := by omega
  omega

theorem Repeat_dash_ascii (w : Nat) : ∀ b ∈ Repeat (lit "-") w, b.toNat < 0x80 := by
  intro b hb
  unfold Repeat at hb
  rw [List.mem_flatten] at hb
  obtain ⟨l, hl, hbl⟩ := hb
  rw [List.eq_of_mem_replicate hl] at hbl
  revert hbl
  revert b
  decide

theorem Repeat_dash_length (w : Nat) : (Repeat (lit "-") w).length = w := by
  unfold Repeat
  induction w with
  | zero => rfl
  | succ n ih =>
    rw [List.replicate_succ, List.flatten_cons, List.length_append, ih]
    have : (lit "-").length = 1 := by decide
    omega

/-- The rule of a table of `c` columns, `c >= 1`, has as many runes as the
widths sum to, plus `3c + 1`. -/
theorem RuneCount_ruleText (W : List Nat) (hpos : 0 < W.length) :
    RuneCount (ruleText W) = W.sum + 3 * W.length + 1 := by
  have hne : W.map (fun w => Repeat (lit "-") w) ≠ [] := by
    intro e
    have := congrArg List.length e
    rw [List.length_map, List.length_nil] at this
    omega
  have hj := RuneCount_Join (lit "-+-") (by decide) (by decide) _ hne
  have hmap : (W.map (fun w => Repeat (lit "-") w)).map RuneCount = W := by
    rw [List.map_map]
    conv_rhs => rw [← List.map_id W]
    apply List.map_congr_left
    intro w _
    simp only [Function.comp, id]
    rw [RuneCount_ascii _ (Repeat_dash_ascii w), Repeat_dash_length]
  rw [hmap, List.length_map] at hj
  unfold ruleText
  rw [List.append_assoc, RuneCount_ascii_append (lit "+-") _ (by decide),
    RuneCount_append_ascii _ (lit "-+") (by decide), hj]
  have h1 : (lit "+-").length = 2 := by decide
  have h2 : (lit "-+").length = 2 := by decide
  have h3 : (lit "-+-").length = 3 := by decide
  rw [h1, h2, h3]
  omega

theorem runLines_cases (W : List Nat) : ∀ (rows : List (List GoString)) (headed : Bool),
    (runLines W rows headed).length = rows.length ∧
    ∀ line ∈ runLines W rows headed,
      line = ruleText W ∨ ∃ row ∈ rows, ∃ bold, line = rowText W row bold := by
  intro rows
  induction rows with
  | nil =>
    intro headed
    exact ⟨rfl, fun line h => by cases h⟩
  | cons row rows2 ih =>
    intro headed
    unfold runLines
    split
    · obtain ⟨hl, hm⟩ := ih headed
      refine ⟨by simp [hl], ?_⟩
      intro line h
      rcases List.mem_cons.mp h with e | e
      · exact Or.inl e
      · rcases hm line e with h1 | ⟨r, hr, b, hb⟩
        · exact Or.inl h1
        · exact Or.inr ⟨r, List.mem_cons_of_mem _ hr, b, hb⟩
    · obtain ⟨hl, hm⟩ := ih true
      refine ⟨by simp [hl], ?_⟩
      intro line h
      rcases List.mem_cons.mp h with e | e
      · exact Or.inr ⟨row, List.mem_cons_self _ _, _, e⟩
      · rcases hm line e with h1 | ⟨r, hr, b, hb⟩
        · exact Or.inl h1
        · exact Or.inr ⟨r, List.mem_cons_of_mem _ hr, b, hb⟩

/-- In a rendered table the rows before the first one that is not a rule are
rules, that one is in bold, and no row after it is. -/
theorem runLines_header (W : List Nat) (rules : List (List GoString)) (head : List GoString)
    (later : List (List GoString)) (hrules : ∀ r ∈ rules, isRule r = true)
    (hhead : isRule head = false) :
    runLines W (rules ++ head :: later) false
      = rules.map (fun _ => ruleText W) ++ rowText W head true :: runLines W later true ∧
    ∀ line ∈ runLines W later true,
      line = ruleText W ∨ ∃ row ∈ later, line = rowText W row false := by
  refine ⟨?_, ?_⟩
  · induction rules with
    | nil =>
      simp only [List.nil_append, runLines, hhead, Bool.false_eq_true, if_false, List.map_nil,
        Bool.not_false]
    | cons r rules2 ih =>
      have hr := hrules r (List.mem_cons_self _ _)
      rw [List.cons_append, runLines, if_pos hr, List.map_cons,
        ih (fun x hx => hrules x (List.mem_cons_of_mem _ hx))]
      rfl
  · induction later with
    | nil =>
      intro line h
      cases h
    | cons row later2 ih =>
      intro line h
      unfold runLines at h
      split at h
      · rcases List.mem_cons.mp h with e | e
        · exact Or.inl e
        · rcases ih line e with h1 | ⟨r, hr, hb⟩
          · exact Or.inl h1
          · exact Or.inr ⟨r, List.mem_cons_of_mem _ hr, hb⟩
      · rcases List.mem_cons.mp h with e | e
        · exact Or.inr ⟨row, List.mem_cons_self _ _, e⟩
        · rcases ih line e with h1 | ⟨r, hr, hb⟩
          · exact Or.inl h1
          · exact Or.inr ⟨r, List.mem_cons_of_mem _ hr, hb⟩

/-! ## C21: what `MdTableToTerm` renders -/

/-- Table rows separated by a line that is not one: the text comes back as it is. -/
theorem MdTableToTerm_two_runs (content : GoString) (before mid after : List GoString)
    (p1 m p2 : GoString) (hsplit : Split content 0x0A = before ++ p1 :: m :: mid ++ p2 :: after)
    (h1 : isPipeRow p1 = true) (hm : isPipeRow m = false) (h2 : isPipeRow p2 = true) :
    MdTableToTerm content = some content := by
  have h := termScan_two_runs p1 p2 m mid after h1 hm h2 before 0
    { table := [], colWidths := [], colNums := [], prevTableRowIdx := -1 }
  rw [← hsplit] at h
  unfold MdTableToTerm
  simp only [h, List.length_nil, or_true, if_true]

/-- C21, the claim fails: the text `|a|b|`, `x`, `|c|d|` holds two runs of one
table row each, separated by the line `x`, and `MdTableToTerm` returns it
unchanged, so no run is rendered; the row `|a|b|` alone is rendered as a
header in bold. -/
theorem C21_counterexample :
    MdTableToTerm (lit "|a|b|\nx\n|c|d|") = some (lit "|a|b|\nx\n|c|d|") ∧
    MdTableToTerm (lit "|a|b|") = some (lit "| \x1b[1ma\x1b[0m | \x1b[1mb\x1b[0m |") := by
  decide

/-- C21 (amended): when the lines of a text are lines that are not table rows,
then one run of table rows with `c` cells each, `c >= 2`, then lines that are
not table rows, `MdTableToTerm` returns the lines before and after the run
unchanged at their places and, at the place of the run, one line for each of
its rows: the rows before the first one that is not a rule become rules, that
row is the header, in bold, and no row after it is in bold.  When two table
rows of a text have a line between them that is not a table row,
`MdTableToTerm` returns the text unchanged. -/
theorem C21_single_run_rendered (content : GoString) (pre run post : List GoString) (c : Nat)
    (hsplit : Split content 0x0A = pre ++ run ++ post) (hpre : plainLines pre)
    (hpost : plainLines post) (hrun : tableRun c run) (hne : run ≠ []) (hc : 2 ≤ c) :
    (∃ W, MdTableToTerm content
        = some (Join (pre ++ runLines W (run.map termCells) false ++ post) (lit "\n")) ∧
      (runLines W (run.map termCells) false).length = run.length ∧
      ∀ (rules later : List (List GoString)) (head : List GoString),
        run.map termCells = rules ++ head :: later → (∀ r ∈ rules, isRule r = true) →
        isRule head = false →
        runLines W (run.map termCells) false
          = rules.map (fun _ => ruleText W) ++ rowText W head true :: runLines W later true ∧
        ∀ line ∈ runLines W later true,
          line = ruleText W ∨ ∃ row ∈ later, line = rowText W row false) ∧
    (∀ (text : GoString) (before mid after : List GoString) (p1 m p2 : GoString),
      Split text 0x0A = before ++ p1 :: m :: mid ++ p2 :: after →
      isPipeRow p1 = true → isPipeRow m = false → isPipeRow p2 = true →
      MdTableToTerm text = some text) := by
  refine ⟨⟨_, MdTableToTerm_single_run content pre run post c hsplit hpre hpost hrun hne hc,
    ?_, ?_⟩, ?_⟩
  · rw [(runLines_cases _ _ _).1, List.length_map]
  · intro rules later head hrows hrules hhead
    rw [hrows]
    exact runLines_header _ rules head later hrules hhead
  · intro text before mid after p1 m p2 hs h1 hm h2
    exact MdTableToTerm_two_runs text before mid after p1 m p2 hs h1 hm h2

/-- C21 (amended) at a table of three rows between two lines of text. -/
theorem C21_single_run_rendered_witness :
    ∃ W, MdTableToTerm (lit "x\n|a|b|\n|--|--|\n|ccc|d|\ny")
        = some (Join ([lit "x"] ++ runLines W
            ([lit "|a|b|", lit "|--|--|", lit "|ccc|d|"].map termCells) false ++ [lit "y"])
            (lit "\n")) ∧
      (runLines W ([lit "|a|b|", lit "|--|--|", lit "|ccc|d|"].map termCells) false).length
        = [lit "|a|b|", lit "|--|--|", lit "|ccc|d|"].length ∧
      ∀ (rules later : List (List GoString)) (head : List GoString),
        [lit "|a|b|", lit "|--|--|", lit "|ccc|d|"].map termCells = rules ++ head :: later →
        (∀ r ∈ rules, isRule r = true) → isRule head = false →
        runLines W ([lit "|a|b|", lit "|--|--|", lit "|ccc|d|"].map termCells) false
          = rules.map (fun _ => ruleText W) ++ rowText W head true :: runLines W later true ∧
        ∀ line ∈ runLines W later true,
          line = ruleText W ∨ ∃ row ∈ later, line = rowText W row false :=
  (C21_single_run_rendered (lit "x\n|a|b|\n|--|--|\n|ccc|d|\ny") [lit "x"]
    [lit "|a|b|", lit "|--|--|", lit "|ccc|d|"] [lit "y"] 2 (by decide)
    (by unfold plainLines; decide) (by unfold plainLines; decide)
    (by unfold tableRun; decide) (by decide) (by decide)).1

/-! ## C22: the rendered rows have one length -/

/-- C22: when the lines of a text are lines that are not table rows, then one
run of table rows with `c` cells each, `c >= 2`, then lines that are not table
rows, `MdTableToTerm` returns (no index is out of range) and renders the run
with widths `W`, one for each column, each the greatest length of a cell of
its column.  Every cell padded to the width of its column has that many
runes; every row without bold, and the rule, has as many runes as the widths
sum to plus `3c + 1`; the row in bold is the same padded cells, each in bold;
and every line rendered for the run is the rule or such a row. -/
theorem C22_rows_same_length (content : GoString) (pre run post : List GoString) (c : Nat)
    (hsplit : Split content 0x0A = pre ++ run ++ post) (hpre : plainLines pre)
    (hpost : plainLines post) (hrun : tableRun c run) (hne : run ≠ []) (hc : 2 ≤ c) :
    ∃ W : List Nat, W.length = c ∧
      (∀ i, (∀ r ∈ run, ((termCells r).getD i []).length ≤ W.getD i 0) ∧
        ∃ r ∈ run, ((termCells r).getD i []).length = W.getD i 0) ∧
      MdTableToTerm content
        = some (Join (pre ++ runLines W (run.map termCells) false ++ post) (lit "\n")) ∧
      (∀ r ∈ run,
        (∀ i, i < c → RuneCount (padRight (W.getD i 0) ((termCells r).getD i [])) = W.getD i 0) ∧
        RuneCount (rowText W (termCells r) false) = W.sum + 3 * c + 1 ∧
        rowText W (termCells r) false
          = lit "| " ++ Join (List.zipWith padRight W (termCells r)) (lit " | ") ++ lit " |" ∧
        rowText W (termCells r) true
          = lit "| " ++ Join ((List.zipWith padRight W (termCells r)).map Bold) (lit " | ")
              ++ lit " |") ∧
      RuneCount (ruleText W) = W.sum + 3 * c + 1 ∧
      ∀ line ∈ runLines W (run.map termCells) false,
        line = ruleText W ∨ ∃ r ∈ run, ∃ bold, line = rowText W (termCells r) bold := by
  have hrows : ∀ row ∈ run.map termCells, row.length = c := by
    intro row hrow
    obtain ⟨x, hx, rfl⟩ := List.mem_map.mp hrow
    exact (hrun x hx).2
  have hne2 : run.map termCells ≠ [] := by
    intro e
    exact hne (List.map_eq_nil_iff.mp e)
  obtain ⟨hWlen, hWmax⟩ := widths_max c (run.map termCells) hne2 hrows
  refine ⟨_, hWlen, ?_, MdTableToTerm_single_run content pre run post c hsplit hpre hpost hrun
    hne hc, ?_, ?_, ?_⟩
  · intro i
    obtain ⟨h1, row, hrow, h2⟩ := hWmax i
    refine ⟨fun r hr => h1 _ (List.mem_map_of_mem _ hr), ?_⟩
    obtain ⟨x, hx, rfl⟩ := List.mem_map.mp hrow
    exact ⟨x, hx, h2⟩
  · intro r hr
    have hle : ∀ i, ((termCells r).getD i []).length
        ≤ ((run.map termCells).foldl widen (List.replicate c 0)).getD i 0 :=
      fun i => (hWmax i).1 _ (List.mem_map_of_mem _ hr)
    have hcells : (termCells r).length
        = ((run.map termCells).foldl widen (List.replicate c 0)).length := by
      rw [hWlen, (hrun r hr).2]
    refine ⟨fun i _ => RuneCount_padRight _ _ (hle i), ?_, ?_, ?_⟩
    · have := RuneCount_rowText _ (termCells r) hcells (by rw [hWlen]; omega) hle
      rw [hWlen] at this
      exact this
    · simp only [rowText, Bool.false_eq_true, if_false]
    · simp only [rowText, if_true, List.map_zipWith]
  · have := RuneCount_ruleText ((run.map termCells).foldl widen (List.replicate c 0))
      (by rw [hWlen]; omega)
    rw [hWlen] at this
    exact this
  · intro line hline
    rcases (runLines_cases _ _ _).2 line hline with h | ⟨row, hrow, b, hb⟩
    · exact Or.inl h
    · obtain ⟨x, hx, rfl⟩ := List.mem_map.mp hrow
      exact Or.inr ⟨x, hx, b, hb⟩

/-- C22 at a table of three rows between two lines of text. -/
theorem C22_rows_same_length_witness :
    ∃ W : List Nat, W.length = 2 ∧
      MdTableToTerm (lit "x\n|a|b|\n|--|--|\n|ccc|d|\ny")
        = some (Join ([lit "x"] ++ runLines W
            ([lit "|a|b|", lit "|--|--|", lit "|ccc|d|"].map termCells) false ++ [lit "y"])
            (lit "\n")) ∧
      RuneCount (rowText W (termCells (lit "|ccc|d|")) false) = W.sum + 3 * 2 + 1 ∧
      RuneCount (ruleText W) = W.sum + 3 * 2 + 1 := by
  obtain ⟨W, h1, _, h3, h4, h5, _⟩ := C22_rows_same_length (lit "x\n|a|b|\n|--|--|\n|ccc|d|\ny")
    [lit "x"] [lit "|a|b|", lit "|--|--|", lit "|ccc|d|"] [lit "y"] 2 (by decide)
    (by unfold plainLines; decide) (by unfold plainLines; decide)
    (by unfold tableRun; decide) (by decide) (by decide)
  exact ⟨W, h1, h3, (h4 (lit "|ccc|d|") (by simp)).2.1, h5⟩

/-! ## C23: code blocks on the terminal -/

/-- C23, evaluation at the failing input: the fenced block whose only line of
code is `a*b*c`.  `MarkdownToTerm` removes the two fence lines, and the line of
code comes out as `a`, `b` in italics, `c`: the rule for `*italic*` was applied
inside the block.  A block whose code is `# note` loses the `#`. -/
theorem C23_code_reinterpreted :
    MarkdownToTerm markdownSession (lit "```\na*b*c\n```")
      = some (lit "\na\x1b[3mb\x1b[0mc\n") ∧
    MarkdownToTerm markdownSession (lit "```\n# note\n```")
      = some (lit "\n\x1b[1mnote\x1b[0m\n") := by
  decide

/-! ## C24: headings in HTML -/

/-- C24, evaluation at the failing inputs: for each level from 1 to 6 the line
made of that many `#`, a space and `Title` is rendered as an ordinary
paragraph line with the `#` kept, not as a heading; the heading comes out
only when the `#` are followed by a backslash and the letter `s`. -/
theorem C24_heading_not_rendered :
    [lit "# Title", lit "## Title", lit "### Title", lit "#### Title", lit "##### Title",
      lit "###### Title"].map (fun line => MarkdownToHtml uidA id line false)
      = [some (lit "<div># Title</div>"), some (lit "<div>## Title</div>"),
         some (lit "<div>### Title</div>"), some (lit "<div>#### Title</div>"),
         some (lit "<div>##### Title</div>"), some (lit "<div>###### Title</div>")] ∧
    MarkdownToHtml uidA id (lit "## Title") true = some (lit "<div>## Title</div>") ∧
    MarkdownToHtml uidA id (lit "##\\s Title") false = some (lit "<h2>Title</h2>") := by
  decide

/-! ## C25: the language of a restored code block -/

/-- C25, evaluation at the failing input: the block with the language tag `go`
and the code `x := 1 < 2`.  The code is restored escaped, but the tag `go` is
not in the output: the code element gets the attribute text `lang` whatever
the tag, as a class when `wrapCode` is set and glued to the name of the
element otherwise. -/
theorem C25_language_tag_lost :
    MarkdownToHtml uidA id (lit "```go\nx := 1 < 2\n```") false
      = some (lit ("<div><pre style=\"border:1px solid silver;padding:10px;"
          ++ "background-color:#f9f9f9;\"><codelang>x&nbsp;:=&nbsp;1&nbsp;&lt;&nbsp;2\n"
          ++ "</code></pre></div>")) ∧
    MarkdownToHtml uidA id (lit "```go\nx := 1 < 2\n```") true
      = some (lit ("<div><table border=\"1\" bordercolor=\"silver\" cellspacing=\"0\" "
          ++ "width=\"100%\" style=\"background-color:#f9f9f9;border:1px solid silver;\">\n"
          ++ "\t\t<tr><td style=\"padding:10px;\"><pre><code class=\"lang\">"
          ++ "x&nbsp;:=&nbsp;1&nbsp;&lt;&nbsp;2\n</code></pre></td></tr></table></div>")) := by
  decide

/-! ## C26: placeholders in the output -/

/-- C26, evaluation at the failing input: a code block followed by a text in
parentheses.  The rule for links takes the placeholder of the block for the
text of a link, so the placeholder is never restored: the output holds the
identifier that `generateUID` returned, and differs between two identifiers. -/
theorem C26_placeholder_in_output :
    MarkdownToHtml uidA id (lit "```a```(x)") false
      = some (lit "<div><a href=\"x\">[CODEBLOCKk3Xw9PqLm2ZtR7vB]</a></div>") ∧
    MarkdownToHtml uidB id (lit "```a```(x)") false
      = some (lit "<div><a href=\"x\">[CODEBLOCKYd81sHcN4uJe0GfA]</a></div>") ∧
    Contains (lit "```a```(x)") (uidA 0) = false ∧
    Contains (lit "```a```(x)") (uidB 0) = false := by
  decide

/-! ## Patterns that cannot match -/

theorem step_ascii (p : Nat → Bool) (s e : MState) (ha : asciiText s.rest)
    (h : s.step p = some e) :
    ∃ b, s.rest = b :: e.rest ∧ p b.toNat = true ∧ e.prev = some b := by
  unfold MState.step at h
  cases hr : s.rest with
  | nil => rw [hr] at h; exact Option.noConfusion h
  | cons b t =>
    rw [hr] at h
    have hb : b.toNat < 0x80 := ha b (by rw [hr]; exact List.mem_cons_self _ _)
    simp only [decode_ascii b t hb] at h
    by_cases hp : p b.toNat = true
    · rw [if_pos hp] at h
      cases h
      refine ⟨b, ?_, hp, ?_⟩
      · simp [MState.skip, hr]
      · simp [MState.skip, hr]
    · rw [if_neg hp] at h
      exact Option.noConfusion h

theorem asciiText_suffix (pre t : GoString) (h : asciiText (pre ++ t)) : asciiText t :=
  fun b hb => h b (List.mem_append_right _ hb)

theorem spans_get (p : Nat → Bool) : ∀ (n : Nat) (s : MState) (k : Nat) (e : MState),
    asciiText s.rest → (spans p n s)[k]? = some e →
    ∃ pre, s.rest = pre ++ e.rest ∧ pre.length = k ∧ ∀ b ∈ pre, p b.toNat = true := by
  intro n
  induction n with
  | zero =>
    intro s k e _ h
    cases k with
    | zero =>
      simp only [spans, List.getElem?_cons_zero, Option.some.injEq] at h
      subst h
      exact ⟨[], rfl, rfl, fun b hb => by cases hb⟩
    | succ k => simp [spans] at h
  | succ n ih =>
    intro s k e ha h
    cases k with
    | zero =>
      simp only [spans, List.getElem?_cons_zero, Option.some.injEq] at h
      subst h
      exact ⟨[], rfl, rfl, fun b hb => by cases hb⟩
    | succ k =>
      simp only [spans, List.getElem?_cons_succ] at h
      cases hs : s.step p with
      | none =>
        rw [hs] at h
        simp at h
      | some s2 =>
        rw [hs] at h
        obtain ⟨b, hb, hpb, _⟩ := step_ascii p s s2 ha hs
        have ha2 : asciiText s2.rest := by
          intro x hx
          exact ha x (by rw [hb]; exact List.mem_cons_of_mem _ hx)
        obtain ⟨pre, h1, h2, h3⟩ := ih s2 k e ha2 h
        refine ⟨b :: pre, ?_, by simp [h2], ?_⟩
        · rw [hb, h1]
          rfl
        · intro x hx
          rcases List.mem_cons.mp hx with rfl | hx2
          · exact hpb
          · exact h3 x hx2

/-- A match consumes a part of the text, and that part holds a rune of the
class the pattern needs. -/
theorem run_sound (P : Nat → Bool) : ∀ (re : Re) (s e : MState), asciiText s.rest →
    e ∈ re.run s →
    ∃ pre, s.rest = pre ++ e.rest ∧ (re.needs P → ∃ b ∈ pre, P b.toNat = true) := by
  intro re
  induction re with
  | empty =>
    intro s e _ h
    simp only [Re.run, List.mem_singleton] at h
    subst h
    exact ⟨[], rfl, fun hn => False.elim hn⟩
  | chr p =>
    intro s e ha h
    simp only [Re.run, Option.mem_toList, Option.mem_def] at h
    obtain ⟨b, hb, hpb, _⟩ := step_ascii p s e ha h
    exact ⟨[b], by rw [hb]; rfl, fun hn => ⟨b, List.mem_singleton_self _, hn _ hpb⟩⟩
  | bol =>
    intro s e _ h
    simp only [Re.run] at h
    split at h
    · simp only [List.mem_singleton] at h
      subst h
      exact ⟨[], rfl, fun hn => False.elim hn⟩
    · cases h
  | eol =>
    intro s e _ h
    simp only [Re.run] at h
    split at h
    · simp only [List.mem_singleton] at h
      subst h
      exact ⟨[], rfl, fun hn => False.elim hn⟩
    · cases h
  | seq a b iha ihb =>
    intro s e ha h
    simp only [Re.run, List.mem_flatMap] at h
    obtain ⟨m, hm, he⟩ := h
    obtain ⟨pre1, h1, n1⟩ := iha s m ha hm
    have ham : asciiText m.rest := asciiText_suffix pre1 _ (h1 ▸ ha)
    obtain ⟨pre2, h2, n2⟩ := ihb m e ham he
    refine ⟨pre1 ++ pre2, by rw [h1, h2, List.append_assoc], ?_⟩
    intro hn
    rcases hn with hn | hn
    · obtain ⟨x, hx, hp⟩ := n1 hn
      exact ⟨x, List.mem_append_left _ hx, hp⟩
    · obtain ⟨x, hx, hp⟩ := n2 hn
      exact ⟨x, List.mem_append_right _ hx, hp⟩
  | alt a b iha ihb =>
    intro s e ha h
    simp only [Re.run, List.mem_append] at h
    rcases h with h | h
    · obtain ⟨pre, h1, n1⟩ := iha s e ha h
      exact ⟨pre, h1, fun hn => n1 hn.1⟩
    · obtain ⟨pre, h1, n1⟩ := ihb s e ha h
      exact ⟨pre, h1, fun hn => n1 hn.2⟩
  | rep p min max greedy =>
    intro s e ha h
    have hmem : e ∈ (spans p (max.getD s.rest.length) s).drop min := by
      simp only [Re.run] at h
      split at h
      · exact List.mem_reverse.mp h
      · exact h
    obtain ⟨j, hj⟩ := List.mem_iff_getElem?.mp hmem
    rw [List.getElem?_drop] at hj
    obtain ⟨pre, h1, h2, h3⟩ := spans_get p _ s _ e ha hj
    refine ⟨pre, h1, ?_⟩
    intro hn
    obtain ⟨hmin, hcls⟩ := hn
    cases pre with
    | nil =>
      simp only [List.length_nil] at h2
      omega
    | cons b t => exact ⟨b, List.mem_cons_self _ _, hcls _ (h3 b (List.mem_cons_self _ _))⟩
  | opt r ih =>
    intro s e ha h
    simp only [Re.run, List.mem_append, List.mem_singleton] at h
    rcases h with h | h
    · obtain ⟨pre, h1, _⟩ := ih s e ha h
      exact ⟨pre, h1, fun hn => False.elim hn⟩
    · subst h
      exact ⟨[], rfl, fun hn => False.elim hn⟩
  | group i r ih =>
    intro s e ha h
    simp only [Re.run, List.mem_map] at h
    obtain ⟨e2, he2, rfl⟩ := h
    obtain ⟨pre, h1, n1⟩ := ih s e2 ha he2
    exact ⟨pre, h1, fun hn => n1 hn⟩

/-- A pattern does not match where the text has no rune of a class it needs. -/
theorem run_empty (P : Nat → Bool) (re : Re) (s : MState) (ha : asciiText s.rest)
    (hn : re.needs P) (hno : ∀ b ∈ s.rest, P b.toNat = false) : re.run s = [] := by
  apply List.eq_nil_iff_forall_not_mem.mpr
  intro e he
  obtain ⟨pre, h1, h2⟩ := run_sound P re s e ha he
  obtain ⟨b, hb, hp⟩ := h2 hn
  have := hno b (by rw [h1]; exact List.mem_append_left _ hb)
  rw [this] at hp
  exact Bool.noConfusion hp

/-- The search finds nothing when the pattern matches at none of the
positions it visits. -/
theorem find_none (re : Re) (Inv : MState → Prop)
    (hstep : ∀ (s : MState) (b : UInt8) (t : GoString), Inv s → s.rest = b :: t →
      Inv (s.skip (DecodeRuneInString (b :: t)).2))
    (hno : ∀ s, Inv s → re.run { s with caps := [] } = []) :
    ∀ (fuel : Nat) (s : MState) (skipped : GoString), Inv s → re.find fuel s skipped = none := by
  intro fuel
  induction fuel with
  | zero => intro s skipped _; rfl
  | succ n ih =>
    intro s skipped hs
    rw [Re.find, hno s hs]
    simp only [List.head?_nil]
    cases hr : s.rest with
    | nil => rfl
    | cons b t =>
      simp only []
      exact ih _ _ (hstep s b t hs hr)

/-- The search finds nothing in an ASCII text without a rune of a class the
pattern needs. -/
theorem find_none_needs (P : Nat → Bool) (re : Re) (hn : re.needs P) (fuel : Nat) (s : MState)
    (skipped : GoString) (ha : asciiText s.rest) (hno : ∀ b ∈ s.rest, P b.toNat = false) :
    re.find fuel s skipped = none := by
  apply find_none re (fun s => asciiText s.rest ∧ ∀ b ∈ s.rest, P b.toNat = false)
  · intro s b t hs hr
    obtain ⟨h1, h2⟩ := hs
    have hsub : ∀ x ∈ (s.skip (DecodeRuneInString (b :: t)).2).rest, x ∈ s.rest := by
      intro x hx
      exact List.mem_of_mem_drop hx
    exact ⟨fun x hx => h1 x (hsub x hx), fun x hx => h2 x (hsub x hx)⟩
  · intro s hs
    exact run_empty P re _ hs.1 hn hs.2
  · exact ⟨ha, hno⟩

theorem replaceLoop_none {σ : Type} (re : Re)
    (repl : σ → MState → MState → Option (GoString × σ)) (fuel : Nat) (st : σ) (gap : GoString)
    (s : MState) (h : re.find (s.rest.length + 1) s [] = none) :
    re.replaceLoop repl fuel st gap s = some (gap ++ s.rest, st) := by
  cases fuel with
  | zero => rfl
  | succ n => rw [Re.replaceLoop, h]

/-- Where the pattern has no match, `ReplaceAllString` returns the text. -/
theorem ReplaceAllString_none (re : Re) (src : GoString) (tpl : List Piece)
    (h : re.find (src.length + 1) (MState.start src) [] = none) :
    re.ReplaceAllString src tpl = src := by
  unfold Re.ReplaceAllString
  rw [replaceLoop_none re _ _ _ _ _ h]
  rfl

/-- Where the pattern has no match, `ReplaceAllStringFunc` returns the text
and does not call the callback. -/
theorem ReplaceAllStringFunc_none {σ : Type} (re : Re) (src : GoString)
    (f : σ → GoString → Option (GoString × σ)) (st : σ)
    (h : re.find (src.length + 1) (MState.start src) [] = none) :
    re.ReplaceAllStringFunc src f st = some (src, st) := by
  unfold Re.ReplaceAllStringFunc
  rw [replaceLoop_none re _ _ _ _ _ h]
  rfl

theorem thenFunc_none (re : Re) (f : GoString → Option GoString) (c : GoString)
    (h : re.find (c.length + 1) (MState.start c) [] = none) :
    thenFunc re f (some c) = some c := by
  unfold thenFunc
  simp only [ReplaceAllStringFunc_none re c _ () h, Option.map_some']

/-! ## The patterns of `MarkdownToHtml` on a text without markdown -/

theorem reCodeBlock_needs : reCodeBlock.needs (isRune 0x60) :=
  Or.inl (Or.inl (fun _ h => h))

theorem inlineCode_needs : inlineCode.needs (isRune 0x60) :=
  Or.inl (fun _ h => h)

theorem reLink_needs : reLink.needs (isRune 0x5B) :=
  Or.inl (fun _ h => h)

theorem reHeader_needs : reHeader.needs (isRune 0x23) :=
  Or.inr (Or.inl ⟨Nat.one_pos, fun _ h => h⟩)

theorem reQuote_needs : reQuote.needs (isRune 0x3E) :=
  Or.inr (Or.inr (Or.inl (fun _ h => h)))

theorem reUL_needs : reUL.needs (fun r => r == 0x2A || r == 0x2D) :=
  Or.inr (Or.inr (Or.inl (fun _ h => h)))

theorem reOL_needs : reOL.needs reDigit :=
  Or.inr (Or.inr (Or.inl ⟨Nat.one_pos, fun _ h => h⟩))

theorem reBold_needs : reBold.needs (fun r => r == 0x2A || r == 0x5F) :=
  ⟨Or.inl (Or.inl (fun r h => by
      have : (r == 0x2A) = true := h
      simp [this])),
   Or.inl (Or.inl (fun r h => by
      have : (r == 0x5F) = true := h
      simp [this]))⟩

theorem reItalic_needs : reItalic.needs (fun r => r == 0x2A || r == 0x5F) :=
  ⟨Or.inl (fun r h => by
      have : (r == 0x2A) = true := h
      simp [this]),
   Or.inl (fun r h => by
      have : (r == 0x5F) = true := h
      simp [this])⟩

theorem reStrike_needs : reStrike.needs (isRune 0x7E) :=
  Or.inl (Or.inl (fun _ h => h))

theorem htmlByte_ascii (b : UInt8) (h : htmlByte b) : b.toNat < 0x80 := by
  rcases h with h | h | h | h | h | h
  · simp only [isLetter, Bool.or_eq_true, Bool.and_eq_true, decide_eq_true_eq] at h
    omega
  all_goals (subst h; decide)

/-- A class that holds no letter and none of the five other bytes holds no
byte of the text. -/
theorem class_absent (P : Nat → Bool) (T : GoString) (hT : ∀ b ∈ T, htmlByte b)
    (hl : ∀ n, (0x41 ≤ n ∧ n ≤ 0x5A) ∨ (0x61 ≤ n ∧ n ≤ 0x7A) → P n = false)
    (h1 : P 0x20 = false) (h2 : P 0x0A = false) (h3 : P 0x3C = false) (h4 : P 0x3E = false)
    (h5 : P 0x2F = false) : ∀ b ∈ T, P b.toNat = false := by
  intro b hb
  rcases hT b hb with h | h | h | h | h | h
  · apply hl
    simp only [isLetter, Bool.or_eq_true, Bool.and_eq_true, decide_eq_true_eq] at h
    exact h
  · subst h; exact h1
  · subst h; exact h2
  · subst h; exact h3
  · subst h; exact h4
  · subst h; exact h5

theorem isRune_absent (c : Nat) (T : GoString) (hT : ∀ b ∈ T, htmlByte b)
    (hc : ¬ ((0x41 ≤ c ∧ c ≤ 0x5A) ∨ (0x61 ≤ c ∧ c ≤ 0x7A))) (h1 : c ≠ 0x20) (h2 : c ≠ 0x0A)
    (h3 : c ≠ 0x3C) (h4 : c ≠ 0x3E) (h5 : c ≠ 0x2F) : ∀ b ∈ T, isRune c b.toNat = false := by
  apply class_absent (isRune c) T hT
  · intro n hn
    simp only [isRune, beq_eq_false_iff_ne, ne_eq]
    intro e
    exact hc (e ▸ hn)
  all_goals (simp only [isRune, beq_eq_false_iff_ne, ne_eq]; omega)

/-- In a text of letters, spaces, newlines, `<`, `>` and `/` in which the
pattern of quotes has no match, `MarkdownToHtml` only wraps the lines. -/
theorem MarkdownToHtml_wraps (uid : Nat → GoString) (visit : CodeMap → CodeMap)
    (T : GoString) (w : Bool) (hvisit : visit [] = []) (hT : ∀ b ∈ T, htmlByte b)
    (hq : reQuote.find (T.length + 1) (MState.start T) [] = none) :
    MarkdownToHtml uid visit T w = some (Join ((Split T 0x0A).map wrapLine) (lit "\n")) := by
  have ha : asciiText T := fun b hb => htmlByte_ascii b (hT b hb)
  have hstar : ∀ b ∈ T, (fun r => r == 0x2A || r == 0x5F) b.toNat = false := by
    apply class_absent (fun r => r == 0x2A || r == 0x5F) T hT
    · intro n hn
      simp only [Bool.or_eq_false_iff, beq_eq_false_iff_ne, ne_eq]
      omega
    all_goals decide
  have hul : ∀ b ∈ T, (fun r => r == 0x2A || r == 0x2D) b.toNat = false := by
    apply class_absent (fun r => r == 0x2A || r == 0x2D) T hT
    · intro n hn
      simp only [Bool.or_eq_false_iff, beq_eq_false_iff_ne, ne_eq]
      omega
    all_goals decide
  have hdig : ∀ b ∈ T, reDigit b.toNat = false := by
    apply class_absent reDigit T hT
    · intro n hn
      simp only [reDigit, Bool.and_eq_false_iff, decide_eq_false_iff_not]
      omega
    all_goals decide
  have f1 := find_none_needs _ reCodeBlock reCodeBlock_needs (T.length + 1) (MState.start T) []
    ha (isRune_absent 0x60 T hT (by omega) (by omega) (by omega) (by omega) (by omega) (by omega))
  have f2 := find_none_needs _ inlineCode inlineCode_needs (T.length + 1) (MState.start T) []
    ha (isRune_absent 0x60 T hT (by omega) (by omega) (by omega) (by omega) (by omega) (by omega))
  have f3 := find_none_needs _ reLink reLink_needs (T.length + 1) (MState.start T) []
    ha (isRune_absent 0x5B T hT (by omega) (by omega) (by omega) (by omega) (by omega) (by omega))
  have f4 := find_none_needs _ reHeader reHeader_needs (T.length + 1) (MState.start T) []
    ha (isRune_absent 0x23 T hT (by omega) (by omega) (by omega) (by omega) (by omega) (by omega))
  have f6 := find_none_needs _ reUL reUL_needs (T.length + 1) (MState.start T) [] ha hul
  have f7 := find_none_needs _ reOL reOL_needs (T.length + 1) (MState.start T) [] ha hdig
  have f8 := find_none_needs _ reBold reBold_needs (T.length + 1) (MState.start T) [] ha hstar
  have f9 := find_none_needs _ reItalic reItalic_needs (T.length + 1) (MState.start T) [] ha hstar
  have f10 := find_none_needs _ reStrike reStrike_needs (T.length + 1) (MState.start T) []
    ha (isRune_absent 0x7E T hT (by omega) (by omega) (by omega) (by omega) (by omega) (by omega))
  unfold MarkdownToHtml
  rw [ReplaceAllStringFunc_none reCodeBlock T _ _ f1]
  simp only [ReplaceAllString_none inlineCode T _ f2, ReplaceAllString_none reLink T _ f3,
    thenFunc_none reHeader _ T f4, Option.map_some', ReplaceAllString_none reQuote T _ hq,
    ReplaceAllString_none reUL T _ f6, ReplaceAllString_none reOL T _ f7,
    thenFunc_none reBold _ T f8, thenFunc_none reItalic _ T f9,
    ReplaceAllString_none reStrike T _ f10, hvisit, restoreBlocks]

/-! ## Lines in paragraph containers -/

theorem runes_ascii (a : GoString) (h : asciiText a) :
    runes a = a.map (fun b => ((b.toNat, [b]) : Seg)) := by
  have := runes_ascii_append a [] h
  rw [List.append_nil, runes_nil, List.append_nil] at this
  exact this

theorem bytesOf_map_single (a : GoString) :
    bytesOf (a.map (fun b => ((b.toNat, [b]) : Seg))) = a := by
  unfold bytesOf
  induction a with
  | nil => rfl
  | cons b t ih =>
    simp only [List.map_cons, List.flatten_cons, List.singleton_append]
    rw [ih]

/-- On an ASCII text `TrimSpace` drops the white-space bytes at both ends. -/
theorem TrimSpace_ascii (a : GoString) (h : asciiText a) :
    TrimSpace a = (a.dropWhile spaceByte).rdropWhile spaceByte := by
  unfold TrimSpace
  rw [runes_ascii a h, List.dropWhile_map, ← List.map_reverse, List.dropWhile_map,
    ← List.map_reverse, bytesOf_map_single]
  rfl

theorem letter_not_space (b : UInt8) (h : isLetter b = true) : spaceByte b = false := by
  simp only [isLetter, Bool.or_eq_true, Bool.and_eq_true, decide_eq_true_eq] at h
  simp only [spaceByte, IsSpace, Bool.or_eq_false_iff, Bool.and_eq_false_iff,
    decide_eq_false_iff_not]
  omega

theorem plain_ascii (l : GoString) (h : plainText l) : asciiText l := by
  intro b hb
  rcases h b hb with h1 | h1 | h1
  · simp only [isLetter, Bool.or_eq_true, Bool.and_eq_true, decide_eq_true_eq] at h1
    omega
  · subst h1; decide
  · subst h1; decide

theorem dropWhile_cons_not {α : Type} (p : α → Bool) : ∀ (l : List α) (b : α) (rest : List α),
    l.dropWhile p = b :: rest → p b = false ∧ b ∈ l := by
  intro l
  induction l with
  | nil => intro b rest h; cases h
  | cons x xs ih =>
    intro b rest h
    rw [List.dropWhile_cons] at h
    by_cases hx : p x = true
    · rw [if_pos hx] at h
      obtain ⟨h1, h2⟩ := ih b rest h
      exact ⟨h1, List.mem_cons_of_mem _ h2⟩
    · rw [if_neg hx] at h
      cases h
      exact ⟨by simpa using hx, List.mem_cons_self _ _⟩

/-- A non-blank line of letters and spaces, trimmed, starts with a letter. -/
theorem TrimSpace_plain_head (l : GoString) (h : plainText l) (hne : TrimSpace l ≠ []) :
    ∃ b t, TrimSpace l = b :: t ∧ isLetter b = true := by
  rw [TrimSpace_ascii l (plain_ascii l h)] at hne ⊢
  obtain ⟨post, hpost⟩ := List.rdropWhile_prefix spaceByte (l.dropWhile spaceByte)
  generalize (l.dropWhile spaceByte).rdropWhile spaceByte = B at hne hpost ⊢
  cases B with
  | nil => exact absurd rfl hne
  | cons b t =>
    refine ⟨b, t, rfl, ?_⟩
    obtain ⟨hsp, hmem⟩ := dropWhile_cons_not spaceByte l b (t ++ post) hpost.symm
    rcases h b hmem with h1 | h1 | h1
    · exact h1
    · subst h1
      exact absurd hsp (by decide)
    · subst h1
      exact absurd hsp (by decide)

/-- In a text of letters, spaces and newlines the loop that wraps the lines
puts every non-blank line, trimmed, in a container. -/
theorem wrapLine_plain (l : GoString) (h : plainText l) : wrapLine l = paraLine l := by
  unfold wrapLine paraLine
  by_cases ht : TrimSpace l = []
  · rw [if_pos ht, if_pos ht]
  · rw [if_neg ht, if_neg ht]
    obtain ⟨b, t, hbt, hb⟩ := TrimSpace_plain_head l h ht
    have hne : b ≠ 0x3C := by
      intro e
      subst e
      exact absurd hb (by decide)
    have hp : ∀ (s : String), (lit s).head? = some 0x3C →
        HasPrefix (b :: t) (lit s) = false := by
      intro s e
      cases hl : lit s with
      | nil => rw [hl] at e; exact Option.noConfusion e
      | cons c r =>
        rw [hl, List.head?_cons, Option.some.injEq] at e
        subst e
        simp only [HasPrefix, List.isPrefixOf, Bool.and_eq_false_iff, beq_eq_false_iff_ne, ne_eq]
        left
        exact fun e2 => hne e2.symm
    rw [hbt, hp "<h" (by decide), hp "<pre" (by decide), hp "<blockquote" (by decide),
      hp "<div>" (by decide), hp "<table" (by decide)]
    rfl

theorem TrimSpace_subset (l : GoString) : ∀ b ∈ TrimSpace l, b ∈ l := by
  intro b hb
  obtain ⟨pre, post, h⟩ := TrimSpace_infix l
  rw [h]
  exact List.mem_append_left _ (List.mem_append_right _ hb)

/-- A line in its container is left alone by the loop that wraps the lines. -/
theorem wrapLine_paraLine (l : GoString) (h : plainText l) :
    wrapLine (paraLine l) = paraLine l := by
  by_cases ht : TrimSpace l = []
  · have e : paraLine l = l := by rw [paraLine, if_pos ht]
    rw [e, wrapLine, if_pos ht]
  · have e : paraLine l = lit "<div>" ++ TrimSpace l ++ lit "</div>" := by
      rw [paraLine, if_neg ht]
    have hascii : asciiText (lit "<div>" ++ TrimSpace l ++ lit "</div>") := by
      intro b hb
      simp only [List.mem_append] at hb
      rcases hb with (hb | hb) | hb
      · revert hb; revert b; decide
      · exact plain_ascii l h b (TrimSpace_subset l b hb)
      · revert hb; revert b; decide
    have hd : lit "<div>" = [0x3C, 0x64, 0x69, 0x76, 0x3E] := by decide
    have hd2 : lit "</div>" = [0x3C, 0x2F, 0x64, 0x69, 0x76, 0x3E] := by decide
    have htrim : TrimSpace (lit "<div>" ++ TrimSpace l ++ lit "</div>")
        = lit "<div>" ++ TrimSpace l ++ lit "</div>" := by
      apply TrimSpace_of_edges
      · intro seg hseg
        rw [runes_ascii _ hascii, hd] at hseg
        simp only [List.cons_append, List.map_cons, List.head?_cons, Option.some.injEq] at hseg
        rw [← hseg]
        decide
      · intro seg hseg
        rw [runes_ascii _ hascii, hd2] at hseg
        have e2 : lit "<div>" ++ TrimSpace l ++ [0x3C, 0x2F, 0x64, 0x69, 0x76, 0x3E]
            = (lit "<div>" ++ TrimSpace l ++ [0x3C, 0x2F, 0x64, 0x69, 0x76]) ++ [0x3E] := by
          simp
        rw [e2, List.map_append, List.map_singleton, List.getLast?_append_of_ne_nil _ (by simp),
          List.getLast?_singleton, Option.some.injEq] at hseg
        rw [← hseg]
        decide
    rw [e, wrapLine, htrim]
    have hnn : ¬ (lit "<div>" ++ TrimSpace l ++ lit "</div>" = []) := by
      rw [hd]
      simp
    have hpre : HasPrefix (lit "<div>" ++ TrimSpace l ++ lit "</div>") (lit "<div>") = true := by
      rw [List.append_assoc]
      unfold HasPrefix
      exact List.isPrefixOf_iff_prefix.mpr (List.prefix_append _ _)
    rw [if_neg hnn, hpre]
    simp only [Bool.or_true, Bool.true_or, if_true]

/-! ## The pattern of quotes on lines in containers -/

theorem splitAux_pieces (sep : UInt8) : ∀ (s cur : GoString), sep ∉ cur →
    ∀ piece ∈ splitAux sep s cur, sep ∉ piece ∧ ∀ b ∈ piece, b ∈ cur ∨ b ∈ s := by
  intro s
  induction s with
  | nil =>
    intro cur hc piece hp
    simp only [splitAux, List.mem_singleton] at hp
    subst hp
    exact ⟨hc, fun b hb => Or.inl hb⟩
  | cons x rest ih =>
    intro cur hc piece hp
    rw [splitAux] at hp
    by_cases hx : x = sep
    · rw [if_pos hx] at hp
      rcases List.mem_cons.mp hp with e | e
      · subst e
        exact ⟨hc, fun b hb => Or.inl hb⟩
      · obtain ⟨h1, h2⟩ := ih [] (fun h => by cases h) piece e
        refine ⟨h1, fun b hb => ?_⟩
        rcases h2 b hb with h3 | h3
        · cases h3
        · exact Or.inr (List.mem_cons_of_mem _ h3)
    · rw [if_neg hx] at hp
      have hc2 : sep ∉ cur ++ [x] := by
        intro h
        rcases List.mem_append.mp h with h1 | h1
        · exact hc h1
        · exact hx (List.mem_singleton.mp h1).symm
      obtain ⟨h1, h2⟩ := ih (cur ++ [x]) hc2 piece hp
      refine ⟨h1, fun b hb => ?_⟩
      rcases h2 b hb with h3 | h3
      · rcases List.mem_append.mp h3 with h4 | h4
        · exact Or.inl h4
        · exact Or.inr (by rw [List.mem_singleton.mp h4]; exact List.mem_cons_self _ _)
      · exact Or.inr (List.mem_cons_of_mem _ h3)

/-- The lines of a text hold no newline and only bytes of the text. -/
theorem Split_lines (x : GoString) : ∀ l ∈ Split x 0x0A, (0x0A : UInt8) ∉ l ∧ ∀ b ∈ l, b ∈ x := by
  intro l hl
  obtain ⟨h1, h2⟩ := splitAux_pieces 0x0A x [] (fun h => by cases h) l hl
  refine ⟨h1, fun b hb => ?_⟩
  rcases h2 b hb with h3 | h3
  · cases h3
  · exact h3

theorem blank_all_space (l : GoString) (ha : asciiText l) (ht : TrimSpace l = []) :
    ∀ b ∈ l, spaceByte b = true := by
  rw [TrimSpace_ascii l ha, List.rdropWhile_eq_nil_iff] at ht
  apply List.dropWhile_eq_nil_iff.mp
  cases hA : l.dropWhile spaceByte with
  | nil => rfl
  | cons b rest =>
    obtain ⟨hsp, _⟩ := dropWhile_cons_not spaceByte l b rest hA
    have := ht b (by rw [hA]; exact List.mem_cons_self _ _)
    rw [hsp] at this
    exact Bool.noConfusion this

theorem lit_div : lit "<div>" = [0x3C, 0x64, 0x69, 0x76, 0x3E] := by decide

theorem lit_div_end : lit "</div>" = [0x3C, 0x2F, 0x64, 0x69, 0x76, 0x3E] := by decide

theorem lit_newline : lit "\n" = [0x0A] := by decide

/-- A line of letters and spaces in its container is a line of spaces or
starts with `<`, and its bytes are letters, spaces, `<`, `>` and `/`. -/
theorem paraLine_boxed (l : GoString) (h : plainText l) (hn : (0x0A : UInt8) ∉ l) :
    boxedLine (paraLine l) ∧ ∀ b ∈ paraLine l, htmlByte b := by
  have hplain : ∀ b ∈ l, htmlByte b := by
    intro b hb
    rcases h b hb with h1 | h1 | h1
    · exact Or.inl h1
    · exact Or.inr (Or.inl h1)
    · exact Or.inr (Or.inr (Or.inl h1))
  by_cases ht : TrimSpace l = []
  · have e : paraLine l = l := by rw [paraLine, if_pos ht]
    rw [e]
    refine ⟨⟨hn, Or.inl ?_⟩, hplain⟩
    intro b hb
    have hsp := blank_all_space l (plain_ascii l h) ht b hb
    rcases h b hb with h1 | h1 | h1
    · rw [letter_not_space b h1] at hsp
      exact Bool.noConfusion hsp
    · exact h1
    · subst h1
      exact absurd hb hn
  · have e : paraLine l = lit "<div>" ++ TrimSpace l ++ lit "</div>" := by
      rw [paraLine, if_neg ht]
    rw [e, lit_div, lit_div_end]
    refine ⟨⟨?_, Or.inr ⟨_, rfl⟩⟩, ?_⟩
    · intro hm
      simp only [List.mem_append] at hm
      rcases hm with (hm | hm) | hm
      · revert hm; decide
      · exact hn (TrimSpace_subset l _ hm)
      · revert hm; decide
    · intro b hb
      simp only [List.mem_append] at hb
      rcases hb with (hb | hb) | hb
      · simp only [List.mem_cons, List.mem_singleton, List.not_mem_nil, or_false] at hb
        rcases hb with rfl | rfl | rfl | rfl | rfl
        · exact Or.inr (Or.inr (Or.inr (Or.inl rfl)))
        · exact Or.inl (by decide)
        · exact Or.inl (by decide)
        · exact Or.inl (by decide)
        · exact Or.inr (Or.inr (Or.inr (Or.inr (Or.inl rfl))))
      · exact hplain b (TrimSpace_subset l b hb)
      · simp only [List.mem_cons, List.mem_singleton, List.not_mem_nil, or_false] at hb
        rcases hb with rfl | rfl | rfl | rfl | rfl | rfl
        · exact Or.inr (Or.inr (Or.inr (Or.inl rfl)))
        · exact Or.inr (Or.inr (Or.inr (Or.inr (Or.inr rfl))))
        · exact Or.inl (by decide)
        · exact Or.inl (by decide)
        · exact Or.inl (by decide)
        · exact Or.inr (Or.inr (Or.inr (Or.inr (Or.inl rfl))))

theorem quoteFree_boxed_single (m : GoString) (J : GoString) (hm : boxedLine m)
    (hJ : J = [] ∨ ∃ J2, J = 0x0A :: J2 ∧ quoteFree J2) : quoteFree (m ++ J) := by
  intro pre post hsplit hpre
  obtain ⟨_, hkind⟩ := hm
  rcases hkind with hsp | ⟨t, rfl⟩
  · rcases List.append_eq_append_iff.mp hsplit with ⟨a, h1, h2⟩ | ⟨c, h1, h2⟩
    · -- `pre = m ++ a`, `J = a ++ post`
      rcases hJ with hJ | ⟨J2, hJ, hq⟩
      · rw [hJ] at h2
        have : post = [] := (List.append_eq_nil.mp h2.symm).2
        rw [this]
        exact fun h => Option.noConfusion h
      · rw [hJ] at h2
        cases a with
        | nil =>
          rw [List.nil_append] at h2
          rw [← h2]
          exact fun h => absurd (Option.some.inj h) (by decide)
        | cons a0 a1 =>
          rw [List.cons_append, List.cons.injEq] at h2
          exact hq a1 post h2.2 (fun b hb => hpre b (by
            rw [h1]
            exact List.mem_append_right _ (List.mem_cons_of_mem _ hb)))
    · -- `m = pre ++ c`, `post = c ++ J`
      cases c with
      | nil =>
        rw [List.nil_append] at h2
        rw [h2]
        rcases hJ with hJ | ⟨J2, hJ, _⟩
        · rw [hJ]
          exact fun h => Option.noConfusion h
        · rw [hJ]
          exact fun h => absurd (Option.some.inj h) (by decide)
      | cons c0 c1 =>
        rw [h2, List.cons_append, List.head?_cons]
        have : c0 = 0x20 := hsp c0 (by rw [h1]; exact List.mem_append_right _ (List.mem_cons_self _ _))
        rw [this]
        exact fun h => absurd (Option.some.inj h) (by decide)
  · cases pre with
    | nil =>
      rw [List.nil_append] at hsplit
      rw [← hsplit]
      exact fun h => absurd (Option.some.inj h) (by decide)
    | cons p0 p1 =>
      rw [List.cons_append, List.cons_append, List.cons.injEq] at hsplit
      have := hpre p0 (List.mem_cons_self _ _)
      rw [← hsplit.1] at this
      exact absurd this (by decide)

/-- In lines of spaces and lines that start with `<`, joined by newlines, no
`>` follows white space, from the start and from the place after any newline. -/
theorem quoteFree_lines : ∀ (M : List GoString), (∀ m ∈ M, boxedLine m) →
    quoteFree (Join M [0x0A]) ∧
    ∀ pre t, Join M [0x0A] = pre ++ 0x0A :: t → quoteFree t := by
  intro M
  induction M with
  | nil =>
    intro _
    refine ⟨?_, ?_⟩
    · intro pre post h _
      have : post = [] := (List.append_eq_nil.mp h.symm).2
      rw [this]
      exact fun h => Option.noConfusion h
    · intro pre t h
      have := congrArg List.length h
      simp only [Join, List.length_nil, List.length_append, List.length_cons] at this
      omega
  | cons m rest ih =>
    intro hM
    have hm := hM m (List.mem_cons_self _ _)
    cases rest with
    | nil =>
      refine ⟨?_, ?_⟩
      · have := quoteFree_boxed_single m [] hm (Or.inl rfl)
        rw [List.append_nil] at this
        exact this
      · intro pre t h
        have : (0x0A : UInt8) ∈ m := by
          have e : Join [m] [0x0A] = m := rfl
          rw [← e, h]
          exact List.mem_append_right _ (List.mem_cons_self _ _)
        exact absurd this hm.1
    | cons m2 rest2 =>
      obtain ⟨ih1, ih2⟩ := ih (fun x hx => hM x (List.mem_cons_of_mem _ hx))
      have e : Join (m :: m2 :: rest2) [0x0A] = m ++ 0x0A :: Join (m2 :: rest2) [0x0A] := by
        rw [Join, List.append_assoc]
        rfl
      rw [e]
      refine ⟨quoteFree_boxed_single m _ hm (Or.inr ⟨_, rfl, ih1⟩), ?_⟩
      intro pre t h
      rcases List.append_eq_append_iff.mp h with ⟨a, h1, h2⟩ | ⟨c, h1, h2⟩
      · cases a with
        | nil =>
          rw [List.nil_append, List.cons.injEq] at h2
          rw [← h2.2]
          exact ih1
        | cons a0 a1 =>
          rw [List.cons_append, List.cons.injEq] at h2
          exact ih2 a1 t h2.2
      · cases c with
        | nil =>
          rw [List.nil_append, List.cons.injEq] at h2
          rw [h2.2]
          exact ih1
        | cons c0 c1 =>
          rw [List.cons_append, List.cons.injEq] at h2
          have : (0x0A : UInt8) ∈ m := by
            rw [h1, ← h2.1]
            exact List.mem_append_right _ (List.mem_cons_self _ _)
          exact absurd this hm.1

/-! ## C27: a text without markdown -/

theorem toNat_ne (b c : UInt8) (h : b ≠ c) : b.toNat ≠ c.toNat :=
  fun e => h (UInt8.toNat.inj e)

/-- The pattern of quotes does not match at a place where the text is free of
quotes whenever a line starts there. -/
theorem reQuote_run_nil (s : MState) (ha : asciiText s.rest)
    (hq : (s.prev = none ∨ s.prev = some 0x0A) → quoteFree s.rest) : reQuote.run s = [] := by
  have e : reQuote = Re.seq Re.bol (Re.seq (Re.rep reSpace 0 none true)
      (Re.seq (Re.chr (isRune 0x3E))
        (Re.cat [Re.plus reSpace, Re.group 1 (Re.plus dot), Re.eol]))) := rfl
  rw [e]
  simp only [Re.run]
  by_cases hb : s.prev = none ∨ s.prev = some 0x0A
  · rw [if_pos hb]
    simp only [List.flatMap_cons, List.flatMap_nil, List.append_nil, if_true, List.drop_zero]
    apply List.flatMap_eq_nil_iff.mpr
    intro m hm
    have hm2 := List.mem_reverse.mp hm
    obtain ⟨k, hk⟩ := List.mem_iff_getElem?.mp hm2
    obtain ⟨pre, h1, _, h3⟩ := spans_get reSpace _ s k m ha hk
    have hhead := hq hb pre m.rest h1 h3
    have hstep : m.step (isRune 0x3E) = none := by
      unfold MState.step
      cases hr : m.rest with
      | nil => rfl
      | cons b t =>
        have hbm : b ∈ s.rest := by
          rw [h1, hr]
          exact List.mem_append_right _ (List.mem_cons_self _ _)
        simp only [decode_ascii b t (ha b hbm)]
        have hne : b ≠ 0x3E := by
          intro e2
          rw [hr, e2] at hhead
          exact hhead rfl
        have : isRune 0x3E b.toNat = false := by
          simp only [isRune, beq_eq_false_iff_ne, ne_eq]
          exact toNat_ne b 0x3E hne
        rw [this]
        rfl
    rw [hstep]
    rfl
  · rw [if_neg hb]
    rfl

/-- The pattern of quotes has no match in a text that is free of quotes at
its start and after each of its newlines. -/
theorem reQuote_find_none (W : GoString) (ha : asciiText W) (h1 : quoteFree W)
    (h2 : ∀ pre t, W = pre ++ 0x0A :: t → quoteFree t) :
    reQuote.find (W.length + 1) (MState.start W) [] = none := by
  apply find_none reQuote (fun s => asciiText s.rest ∧ (∃ pre, W = pre ++ s.rest) ∧
    ((s.prev = none ∨ s.prev = some 0x0A) → quoteFree s.rest))
  · intro s b t hs hr
    obtain ⟨hs1, ⟨pre, hs2⟩, _⟩ := hs
    have hb : b.toNat < 0x80 := hs1 b (by rw [hr]; exact List.mem_cons_self _ _)
    rw [decode_ascii b t hb]
    have hrest : (s.skip 1).rest = t := by simp [MState.skip, hr]
    have hprev : (s.skip 1).prev = some b := by simp [MState.skip, hr]
    refine ⟨?_, ⟨pre ++ [b], ?_⟩, ?_⟩
    · rw [hrest]
      intro x hx
      exact hs1 x (by rw [hr]; exact List.mem_cons_of_mem _ hx)
    · rw [hrest, hs2, hr]
      simp
    · rw [hrest, hprev]
      intro hline
      rcases hline with hline | hline
      · exact Option.noConfusion hline
      · have hb2 : b = 0x0A := Option.some.inj hline
        rw [hr, hb2] at hs2
        exact h2 pre t hs2
  · intro s hs
    exact reQuote_run_nil _ hs.1 hs.2.2
  · exact ⟨ha, ⟨[], rfl⟩, fun _ => h1⟩

/-- C27: for every text `x` of ASCII letters, spaces and newlines and every
`wrapCode`, `MarkdownToHtml` returns the lines of `x` with each non-blank
line, trimmed, between `<div>` and `</div>` and the blank lines as they are;
applied to that output it returns it unchanged, so that applying it twice
gives what applying it once gives.  The identifiers of `generateUID` and the
order of the map play no part. -/
theorem C27_plain_text_idempotent (uid : Nat → GoString) (visit : CodeMap → CodeMap)
    (x : GoString) (w : Bool) (hvisit : ∀ m, (visit m).Perm m) (hx : plainText x) :
    MarkdownToHtml uid visit x w = some (paragraphs x) ∧
    MarkdownToHtml uid visit (paragraphs x) w = some (paragraphs x) ∧
    (MarkdownToHtml uid visit x w).bind (fun y => MarkdownToHtml uid visit y w)
      = MarkdownToHtml uid visit x w := by
  have hv : visit [] = [] := List.perm_nil.mp (hvisit [])
  have hlines : ∀ l ∈ Split x 0x0A, plainText l ∧ (0x0A : UInt8) ∉ l := by
    intro l hl
    obtain ⟨h1, h2⟩ := Split_lines x l hl
    exact ⟨fun b hb => hx b (h2 b hb), h1⟩
  have hxh : ∀ b ∈ x, htmlByte b := by
    intro b hb
    rcases hx b hb with h1 | h1 | h1
    · exact Or.inl h1
    · exact Or.inr (Or.inl h1)
    · exact Or.inr (Or.inr (Or.inl h1))
  have hgt : ∀ b ∈ x, isRune 0x3E b.toNat = false := by
    intro b hb
    simp only [isRune, beq_eq_false_iff_ne, ne_eq]
    rcases hx b hb with h1 | h1 | h1
    · simp only [isLetter, Bool.or_eq_true, Bool.and_eq_true, decide_eq_true_eq] at h1
      omega
    · subst h1; decide
    · subst h1; decide
  have hq1 := find_none_needs _ reQuote reQuote_needs (x.length + 1) (MState.start x) []
    (plain_ascii x hx) hgt
  have hfirst : MarkdownToHtml uid visit x w = some (paragraphs x) := by
    have hmap : (Split x 0x0A).map wrapLine = (Split x 0x0A).map paraLine :=
      List.map_congr_left (fun l hl => wrapLine_plain l (hlines l hl).1)
    have hw1 := MarkdownToHtml_wraps uid visit x w hv hxh hq1
    rw [hmap] at hw1
    exact hw1
  have hboxed : ∀ m ∈ (Split x 0x0A).map paraLine, boxedLine m ∧ ∀ b ∈ m, htmlByte b := by
    intro m hm
    obtain ⟨l, hl, rfl⟩ := List.mem_map.mp hm
    exact paraLine_boxed l (hlines l hl).1 (hlines l hl).2
  have hW : paragraphs x = Join ((Split x 0x0A).map paraLine) [0x0A] := by
    rw [paragraphs, lit_newline]
  have hWh : ∀ b ∈ paragraphs x, htmlByte b := by
    intro b hb
    rw [hW] at hb
    rcases mem_join _ _ b hb with h1 | ⟨m, hm, hbm⟩
    · rw [List.mem_singleton.mp h1]
      exact Or.inr (Or.inr (Or.inl rfl))
    · exact (hboxed m hm).2 b hbm
  obtain ⟨hqf1, hqf2⟩ := quoteFree_lines ((Split x 0x0A).map paraLine)
    (fun m hm => (hboxed m hm).1)
  rw [← hW] at hqf1 hqf2
  have hq2 := reQuote_find_none (paragraphs x) (fun b hb => htmlByte_ascii b (hWh b hb)) hqf1 hqf2
  have hsplit : Split (paragraphs x) 0x0A = (Split x 0x0A).map paraLine := by
    rw [hW]
    apply Split_Join
    · intro e
      have := List.map_eq_nil_iff.mp e
      exact splitAux_ne_nil 0x0A x [] this
    · intro m hm
      exact (hboxed m hm).1.1
  have hsecond : MarkdownToHtml uid visit (paragraphs x) w = some (paragraphs x) := by
    have hmap : ((Split x 0x0A).map paraLine).map wrapLine = (Split x 0x0A).map paraLine := by
      rw [List.map_map]
      apply List.map_congr_left
      intro l hl
      rw [Function.comp_apply]
      exact wrapLine_paraLine l (hlines l hl).1
    have hw2 := MarkdownToHtml_wraps uid visit (paragraphs x) w hv hWh hq2
    rw [hsplit, hmap] at hw2
    exact hw2
  refine ⟨hfirst, hsecond, ?_⟩
  rw [hfirst, Option.some_bind, hsecond]

/-- C27 at a text of three lines, the second one blank. -/
theorem C27_plain_text_idempotent_witness :
    MarkdownToHtml uidA id (lit "hello world\n\n  two  ") false
      = some (lit "<div>hello world</div>\n\n<div>two</div>") :=
  (C27_plain_text_idempotent uidA id (lit "hello world\n\n  two  ") false
    (fun m => List.Perm.refl m) (by unfold plainText; decide)).1.trans (by decide)

end Inkwell
